import Mathlib

/-! goenv: a verification development.

A shallow embedding of `env.go` (package `goenv`): the key-value line scanner
`loadKeyValueFile`, the tree flattener `flattenAndSetEnv`, the dispatcher
`LoadEnvWithFormat`, and the accessors `GetEnv` and `GetEnvNested`, with the
properties of the specification proved about them.

Conventions of the embedding:

* A Go `string` holding UTF-8 text is the list of its code points (`Str`).  The
  source indexes strings by byte, but it only ever compares a byte against an
  ASCII character (`#`, `=`, the two quotes), and in UTF-8 an ASCII byte occurs
  only as a one-byte character; so the byte loop and the loop over code points
  meet the same characters in the same order.  `len` is the byte length.
* The process environment is explicit state (`OS`): the table itself and, as
  ghost state, the list of `os.Setenv` calls made so far.  A pair is *emitted*
  when `os.Setenv` is called with it.
* Library functions that the source calls (`strings.TrimSpace`,
  `strings.SplitN`, `bufio.Scanner`, `os.Setenv`, `fmt.Sprintf`, `json.Marshal`)
  are modelled after the Go standard library.
* What the source takes from a library without the embedding modelling it is a
  parameter: the decoders of JSON and YAML, `strconv.ParseFloat` and
  `time.ParseDuration`, and the case table of package `unicode` outside ASCII.
-/

namespace Goenv

/-- A Go string, as the list of its code points. -/
abbrev Str := List Char

/-- The double quote character, U+0022. -/
def dquote : Char := Char.ofNat 34

/-- The single quote character, U+0027. -/
def squote : Char := Char.ofNat 39

/-- The NUL character, `byte(0)` in the source. -/
def nul : Char := Char.ofNat 0

/-- The line feed character. -/
def lf : Char := Char.ofNat 10

/-- The carriage return character. -/
def cr : Char := Char.ofNat 13

/-- Go `len(s)`: the number of bytes of the UTF-8 encoding of `s`. -/
def len (s : Str) : Nat := (s.map Char.utf8Size).sum

/-- Go `unicode.IsSpace`: the code points with the White_Space property. -/
def isSpace (c : Char) : Bool :=
  let n := c.toNat
  (9 ≤ n && n ≤ 13) || n == 32 || n == 0x85 || n == 0xA0 || n == 0x1680 ||
    (0x2000 ≤ n && n ≤ 0x200A) || n == 0x2028 || n == 0x2029 || n == 0x202F ||
    n == 0x205F || n == 0x3000

/-- Go `strings.TrimSpace`: the string without its leading and trailing white space. -/
def TrimSpace (s : Str) : Str := (s.dropWhile isSpace).rdropWhile isSpace

/-- Go `strings.SplitN(s, "=", 2)`: the whole string when it has no `=`, else the
text before the first `=` and the text after it. -/
def SplitN2 (s : Str) : List Str :=
  if '=' ∈ s then [s.takeWhile (· != '='), (s.dropWhile (· != '=')).drop 1] else [s]

/-! ## The environment table -/

/-- The environment table: a key is either unset or bound to a text. -/
abbrev Env := Str → Option Str

/-- The process state the package acts on: the environment table, and (ghost)
the arguments of every `os.Setenv` call so far, oldest first. -/
structure OS where
  env : Env
  calls : List (Str × Str)

/-- The check of `syscall.Setenv` (Unix): the key is non-empty and has no `=` and
no NUL, the value has no NUL.  Otherwise the call fails with EINVAL. -/
def setenvOk (key value : Str) : Bool :=
  !key.isEmpty && !key.contains '=' && !key.contains nul && !value.contains nul

/-- Go `os.Setenv(key, value)` with its error dropped, as the source does: the
table is updated when the pair passes `setenvOk` and is left alone otherwise. -/
def Setenv (key value : Str) (os : OS) : OS :=
  { env := if setenvOk key value then fun k => if k = key then some value else os.env k
           else os.env,
    calls := os.calls ++ [(key, value)] }

/-- Go `os.Getenv(key)`: the bound text, or the empty string when unset. -/
def Getenv (key : Str) (os : OS) : Str := (os.env key).getD []

/-! ## The key-value line scanner -/

/-- The loop of `loadKeyValueFile` that looks for the first `#` outside quotes,
run from index `i` with the loop variables `inQuotes` and `quoteChar`; the
result is `commentIndex` (`none` for `-1`). -/
def scanComment : Str → Nat → Bool → Char → Option Nat
  | [], _, _, _ => none
  | char :: rest, i, inQuotes, quoteChar =>
    if !inQuotes && char == '#' then some i
    else if !inQuotes && (char == dquote || char == squote) then
      scanComment rest (i + 1) true char
    else if inQuotes && char == quoteChar then
      scanComment rest (i + 1) false nul
    else scanComment rest (i + 1) inQuotes quoteChar

/-- The value of `commentIndex` after the loop over the whole line. -/
def commentIndex (line : Str) : Option Nat := scanComment line 0 false nul

/-- The comment removal step: `line[:commentIndex]` trimmed when a comment start
was found, the line itself otherwise. -/
def removeComment (line : Str) : Str :=
  match commentIndex line with
  | some i => TrimSpace (line.take i)
  | none => line

/-- The value-unquoting step of `loadKeyValueFile`: `value[1:len(value)-1]` when
the value has at least two bytes and starts and ends with the same quote. -/
def unquote (value : Str) : Str :=
  if 2 ≤ len value ∧
      ((value.head? = some dquote ∧ value.getLast? = some dquote) ∨
        (value.head? = some squote ∧ value.getLast? = some squote)) then
    (value.drop 1).dropLast
  else value

/-- The body of the scanning loop of `loadKeyValueFile`, for one `scanner.Text()`:
each `continue` leaves the state as it is, and a line that gets through calls
`os.Setenv(key, value)`. -/
def processLine (text : Str) (os : OS) : OS :=
  let line := TrimSpace text
  if line = [] ∨ line.head? = some '#' then os
  else
    let line := removeComment line
    if line = [] then os
    else
      match SplitN2 line with
      | [p0, p1] => Setenv (TrimSpace p0) (unquote (TrimSpace p1)) os
      | _ => os

/-! ## Files and the line scanner of `bufio` -/

/-- The errors an operation of the package can return. -/
inductive Err where
  | openFailed
  | readFailed
  | tokenTooLong
  | malformed
  | unsupportedFormat
  | noFileLoaded
  deriving DecidableEq, Repr

/-- A file on disk: its content, and whether reading it ends in an I/O error
(after `content` has been delivered) instead of end of file. -/
structure File where
  content : Str
  readFails : Bool
  deriving DecidableEq

/-- The file system: the files that can be opened, by name. -/
abbrev FS := Str → Option File

/-- Go `os.Open`: the file of that name; the empty name never opens. -/
def osOpen (fs : FS) (filename : Str) : Option File :=
  if filename = [] then none else fs filename

/-- Go `os.ReadFile`: the whole content, or nothing when the file cannot be
opened or read. -/
def ReadFile (fs : FS) (filename : Str) : Option Str :=
  match osOpen fs filename with
  | none => none
  | some file => if file.readFails then none else some file.content

/-- Go `bufio.MaxScanTokenSize`, the size of the buffer of a `bufio.Scanner`. -/
def MaxScanTokenSize : Nat := 64 * 1024

/-- The raw lines of a text: the runs between line feeds, the line feeds
removed, and no empty run after a final line feed (`bufio.ScanLines`). -/
def rawLines : Str → List Str
  | [] => []
  | c :: rest =>
    if c = lf then [] :: rawLines rest
    else
      match rawLines rest with
      | [] => [[c]]
      | l :: ls => (c :: l) :: ls

/-- The `dropCR` of `bufio`: a final carriage return is dropped. -/
def dropCR (data : Str) : Str :=
  if data.getLast? = some cr then data.dropLast else data

/-- The loop `for scanner.Scan() { ... }` of `loadKeyValueFile` over the raw
lines still to come.  A raw line of `MaxScanTokenSize` bytes or more does not
fit the scanner buffer: `Scan` stops there with `bufio.ErrTooLong` (the `true`
of the result).  Otherwise `scanner.Text()` is the raw line without its final
carriage return, and the loop body runs on it. -/
def scanLoop : List Str → OS → OS × Bool
  | [], os => (os, false)
  | raw :: rest, os =>
    if MaxScanTokenSize ≤ len raw then (os, true)
    else scanLoop rest (processLine (dropCR raw) os)

/-- The function `loadKeyValueFile`: the state after it, and the error it returns
(`scanner.Err()`, which is the token-too-long error or the read error). -/
def loadKeyValueFile (fs : FS) (filename : Str) (os : OS) : OS × Option Err :=
  match osOpen fs filename with
  | none => (os, some Err.openFailed)
  | some file =>
    let r := scanLoop (rawLines file.content) os
    (r.1, if r.2 then some Err.tokenTooLong
          else if file.readFails then some Err.readFailed else none)

/-! ## Document trees and their text forms -/

/-- A `float64`.  A finite value is given by the shortest decimal that reads back
as it, which is what `strconv` formats from: the digits `d₁ … dₙ` (none for
zero, no final zero otherwise) and the position `dp` of the decimal point, for
the value `0.d₁…dₙ × 10^dp`. -/
inductive Float64 where
  | nan
  | inf (neg : Bool)
  | finite (neg : Bool) (digits : List Nat) (dp : Int)
  deriving DecidableEq

/-- A decoded document, `interface{}` in the source: what `json.Unmarshal` and
`yaml.Unmarshal` store in a `map[string]interface{}`.  A `mapping` is a
`map[string]interface{}`; its entries are listed in the order in which `range`
visits them (Go leaves that order open), and their keys are distinct.  The
constructor `other` stands for a value of any further dynamic type, which the
type switch of `flattenAndSetEnv` sends to `default`: the
`map[interface{}]interface{}` that `yaml.v3` stores for a nested mapping with
a key that is no string, or a `time.Time`.  Such a value is given by what the
source can see of it: the text that `%v` prints for it, and the text that
`json.Marshal` writes for it, nothing when `json.Marshal` refuses it (it
refuses a `map[interface{}]interface{}`, an unsupported type). -/
inductive Value where
  | mapping (entries : List (Str × Value))
  | sequence (elems : List Value)
  | str (s : Str)
  | bool (b : Bool)
  | int (i : Int)
  | float (f : Float64)
  | null
  | other (text : Str) (json : Option Str)

/-- The backslash character. -/
def backslash : Char := Char.ofNat 92

/-- The decimal text of an integer. -/
def decimal (i : Int) : Str := (Int.repr i).toList

/-- The function `fmtE` of `strconv`: `d.ddddde±dd` with `prec` digits after the point. -/
def fmtE (neg : Bool) (d : List Nat) (dp : Int) (prec : Int) : Str :=
  let sign : Str := if neg then ['-'] else []
  let first : Char :=
    match d with
    | [] => '0'
    | x :: _ => Nat.digitChar x
  let more : Str :=
    if 0 < prec then
      let m := min d.length (prec.toNat + 1)
      '.' :: (((d.take m).drop 1).map Nat.digitChar ++
        List.replicate (prec.toNat + 1 - max m 1) '0')
    else []
  let exp : Int := if d.length = 0 then 0 else dp - 1
  let esign : Char := if exp < 0 then '-' else '+'
  let e := exp.natAbs
  let edigits : Str :=
    if e < 10 then ['0', Nat.digitChar e]
    else if e < 100 then [Nat.digitChar (e / 10), Nat.digitChar (e % 10)]
    else [Nat.digitChar (e / 100), Nat.digitChar (e / 10 % 10), Nat.digitChar (e % 10)]
  sign ++ first :: more ++ 'e' :: esign :: edigits

/-- The function `fmtF` of `strconv`: `ddd.ddd` with `prec` digits after the point. -/
def fmtF (neg : Bool) (d : List Nat) (dp : Int) (prec : Nat) : Str :=
  let sign : Str := if neg then ['-'] else []
  let whole : Str :=
    if 0 < dp then
      let m := min d.length dp.toNat
      (d.take m).map Nat.digitChar ++ List.replicate (dp.toNat - m) '0'
    else ['0']
  let frac : Str :=
    if 0 < prec then
      '.' :: (List.range prec).map fun i =>
        let j : Int := dp + i
        if 0 ≤ j ∧ j < d.length then Nat.digitChar (d.getD j.toNat 0) else '0'
    else []
  sign ++ whole ++ frac

/-- The text of a `float64` under `%v`: `strconv` format `g` with the shortest
precision, and the names `fmt` gives to the values that are not finite. -/
def sprintFloat : Float64 → Str
  | .nan => "NaN".toList
  | .inf false => "+Inf".toList
  | .inf true => "-Inf".toList
  | .finite neg d dp =>
    if dp - 1 < -4 ∨ 6 ≤ dp - 1 then fmtE neg d dp (d.length - 1)
    else fmtF neg d dp ((d.length : Int) - dp).toNat

/-- Go `fmt.Sprintf("%v", v)` on the values that reach the `default` case of
`flattenAndSetEnv` (a value that is neither a mapping nor a sequence). -/
def Sprint : Value → Str
  | .str s => s
  | .bool true => "true".toList
  | .bool false => "false".toList
  | .int i => decimal i
  | .float f => sprintFloat f
  | .null => "<nil>".toList
  | .other text _ => text
  | .mapping _ => []
  | .sequence _ => []

/-- The escape of one character inside a JSON string, as `encoding/json` writes
it with HTML escaping on (what `json.Marshal` does). -/
def jsonEscape (c : Char) : Str :=
  let n := c.toNat
  if c = backslash ∨ c = dquote then [backslash, c]
  else if n = 8 then [backslash, 'b']
  else if n = 12 then [backslash, 'f']
  else if n = 10 then [backslash, 'n']
  else if n = 13 then [backslash, 'r']
  else if n = 9 then [backslash, 't']
  else if n < 32 ∨ c = '<' ∨ c = '>' ∨ c = '&' then
    [backslash, 'u', '0', '0', Nat.digitChar (n / 16), Nat.digitChar (n % 16)]
  else if n = 0x2028 ∨ n = 0x2029 then
    [backslash, 'u', '2', '0', '2', Nat.digitChar (n % 16)]
  else [c]

/-- A JSON string literal. -/
def jsonString (s : Str) : Str := dquote :: (s.flatMap jsonEscape ++ [dquote])

/-- The clean-up of the exponent in `encoding/json`: `e-09` becomes `e-9`. -/
def cleanExp (b : Str) : Str :=
  match b.reverse with
  | x :: '0' :: sgn :: 'e' :: rest =>
    if sgn = '-' ∨ sgn = '+' then (x :: sgn :: 'e' :: rest).reverse else b
  | _ => b

/-- The JSON text of a `float64`; `encoding/json` refuses NaN and the infinities
(`UnsupportedValueError`). -/
def jsonFloat : Float64 → Option Str
  | .nan => none
  | .inf _ => none
  | .finite neg d dp =>
    if d ≠ [] ∧ (dp ≤ -6 ∨ 22 ≤ dp) then
      some (cleanExp (fmtE neg d dp (max ((d.length : Int) - 1) 0)))
    else some (fmtF neg d dp ((d.length : Int) - dp).toNat)

/-- Joins texts with commas. -/
def commaJoin : List Str → Str
  | [] => []
  | [x] => x
  | x :: y :: rest => x ++ ',' :: commaJoin (y :: rest)

mutual
/-- Go `json.Marshal` of one value: the compact JSON text, or nothing when the
value holds a float that JSON cannot write or a value of a type that
`encoding/json` does not support. -/
def jsonValue : Value → Option Str
  | .mapping entries =>
    (jsonEntries entries).map fun es =>
      '{' :: (commaJoin ((es.insertionSort fun a b => a.1 ≤ b.1).map fun e =>
        jsonString e.1 ++ ':' :: e.2) ++ ['}'])
  | .sequence elems => (jsonElems elems).map fun es => '[' :: (commaJoin es ++ [']'])
  | .str s => some (jsonString s)
  | .bool true => some "true".toList
  | .bool false => some "false".toList
  | .int i => some (decimal i)
  | .float f => jsonFloat f
  | .null => some "null".toList
  | .other _ json => json
/-- The JSON texts of the elements of a sequence, in their order. -/
def jsonElems : List Value → Option (List Str)
  | [] => some []
  | v :: rest =>
    match jsonValue v, jsonElems rest with
    | some t, some ts => some (t :: ts)
    | _, _ => none
/-- The keys of a mapping with the JSON texts of their values. -/
def jsonEntries : List (Str × Value) → Option (List (Str × Str))
  | [] => some []
  | (k, v) :: rest =>
    match jsonValue v, jsonEntries rest with
    | some t, some ts => some ((k, t) :: ts)
    | _, _ => none
end

/-- Go `json.Marshal(v)` for a `[]interface{}`. -/
def Marshal (elems : List Value) : Option Str := jsonValue (Value.sequence elems)

/-! ## The tree flattener -/

/-- The key `envKey` that `flattenAndSetEnv` computes for `key` under `pfx`. -/
def envKeyOf (pfx key : Str) : Str := if pfx ≠ [] then pfx ++ '.' :: key else key

mutual
/-- The type switch of `flattenAndSetEnv` on one value at `envKey`. -/
def flattenValue : Str → Value → OS → OS
  | envKey, .mapping v, os => flattenAndSetEnv envKey v os
  | envKey, .sequence v, os =>
    match Marshal v with
    | some jsonBytes => Setenv envKey jsonBytes os
    | none => os
  | envKey, .str s, os => Setenv envKey (Sprint (.str s)) os
  | envKey, .bool b, os => Setenv envKey (Sprint (.bool b)) os
  | envKey, .int i, os => Setenv envKey (Sprint (.int i)) os
  | envKey, .float f, os => Setenv envKey (Sprint (.float f)) os
  | envKey, .null, os => Setenv envKey (Sprint .null) os
  | envKey, .other text json, os => Setenv envKey (Sprint (.other text json)) os
/-- The function `flattenAndSetEnv`: the loop over the entries of `data`, in the
order `range` visits them. -/
def flattenAndSetEnv : Str → List (Str × Value) → OS → OS
  | _, [], os => os
  | pfx, (key, value) :: rest, os =>
    flattenAndSetEnv pfx rest (flattenValue (envKeyOf pfx key) value os)
end

/-! ## The loaders and the dispatcher -/

/-- The decoders of the structured formats, which the package takes from
`encoding/json` and `gopkg.in/yaml.v3`: `Unmarshal` of a file content into a
`map[string]interface{}`, or nothing for a malformed document. -/
structure Decoders where
  json : Str → Option (List (Str × Value))
  yaml : Str → Option (List (Str × Value))

/-- The function `loadJSONFile`. -/
def loadJSONFile (dec : Decoders) (fs : FS) (filename : Str) (os : OS) : OS × Option Err :=
  match ReadFile fs filename with
  | none => (os, some Err.readFailed)
  | some data =>
    match dec.json data with
    | none => (os, some Err.malformed)
    | some jsonData => (flattenAndSetEnv [] jsonData os, none)

/-- The function `loadYAMLFile`. -/
def loadYAMLFile (dec : Decoders) (fs : FS) (filename : Str) (os : OS) : OS × Option Err :=
  match ReadFile fs filename with
  | none => (os, some Err.readFailed)
  | some data =>
    match dec.yaml data with
    | none => (os, some Err.malformed)
    | some yamlData => (flattenAndSetEnv [] yamlData os, none)

/-- The type `FileFormat` of the source, an `int`. -/
abbrev FileFormat := Int

/-- The constant `FormatAuto`. -/
def FormatAuto : FileFormat := 0

/-- The constant `FormatKeyValue`. -/
def FormatKeyValue : FileFormat := 1

/-- The constant `FormatJSON`. -/
def FormatJSON : FileFormat := 2

/-- The constant `FormatYAML`. -/
def FormatYAML : FileFormat := 3

/-- Go `filepath.Ext` (Unix): the suffix of the last path element that starts at
its last dot, empty when that element has no dot. -/
def Ext (path : Str) : Str :=
  let last := path.reverse.takeWhile (· != '/')
  if '.' ∈ last then '.' :: (last.takeWhile (· != '.')).reverse else []

/-- Go `unicode.ToLower` as far as `detectFormat` can see it: an ASCII capital
becomes its small letter, and the two other code points whose lower case is
ASCII (U+0130 and U+212A) become `i` and `k`.  Any other code point outside
ASCII has a lower case outside ASCII and stands for it here. -/
def toLowerRune (c : Char) : Char :=
  if c.toNat = 0x130 then 'i'
  else if c.toNat = 0x212A then 'k'
  else if 65 ≤ c.toNat ∧ c.toNat ≤ 90 then Char.ofNat (c.toNat + 32)
  else c

/-- The function `detectFormat`. -/
def detectFormat (filename : Str) : FileFormat :=
  let ext := (Ext filename).map toLowerRune
  if ext = ".env".toList then FormatKeyValue
  else if ext = ".json".toList then FormatJSON
  else if ext = ".yaml".toList ∨ ext = ".yml".toList then FormatYAML
  else FormatKeyValue

/-- The function `LoadEnvWithFormat`: the loop over the candidate files. -/
def LoadEnvWithFormat (dec : Decoders) (fs : FS) (format : FileFormat) :
    List Str → OS → OS × Option Err
  | [], os => (os, some Err.noFileLoaded)
  | f :: rest, os =>
    if f = [] then LoadEnvWithFormat dec fs format rest os
    else
      let detectedFormat := if format = FormatAuto then detectFormat f else format
      let r : OS × Option Err :=
        if detectedFormat = FormatKeyValue then loadKeyValueFile fs f os
        else if detectedFormat = FormatJSON then loadJSONFile dec fs f os
        else if detectedFormat = FormatYAML then loadYAMLFile dec fs f os
        else (os, some Err.unsupportedFormat)
      if r.2 = none then (r.1, none)
      else LoadEnvWithFormat dec fs format rest r.1

/-- The function `LoadEnv`. -/
def LoadEnv (dec : Decoders) (fs : FS) (file : List Str) (os : OS) : OS × Option Err :=
  LoadEnvWithFormat dec fs FormatAuto file os

/-! ## Predicates and functions of the specification -/

/-- A text after which the comment scan is outside quotes again, with no comment
start found in it. -/
def Balanced (x : Str) : Prop :=
  ∀ (z : Str) (i : Nat), scanComment (x ++ z) i false nul = scanComment z (i + x.length) false nul

/-- A value "of length at least 2 whose first and last characters are the same
quote character", in the words of the specification. -/
def wrapped (value : Str) : Prop :=
  2 ≤ value.length ∧
    ((value.head? = some dquote ∧ value.getLast? = some dquote) ∨
      (value.head? = some squote ∧ value.getLast? = some squote))

instance (value : Str) : Decidable (wrapped value) := by
  unfold wrapped
  infer_instance

/-- A line that the specification says is skipped: after trimming it is empty,
or starts with `#`, or is empty after the comment removal, or has no `=` after
the comment removal. -/
def skippedLine (text : Str) : Prop :=
  TrimSpace text = [] ∨ (TrimSpace text).head? = some '#' ∨
    removeComment (TrimSpace text) = [] ∨ '=' ∉ removeComment (TrimSpace text)

instance (text : Str) : Decidable (skippedLine text) := by
  unfold skippedLine
  infer_instance

/-- The value of the last pair with key `k` among `emitted` that `os.Setenv`
accepts, if there is one. -/
def lastAccepted (emitted : List (Str × Str)) (k : Str) : Option Str :=
  (emitted.reverse.find? fun p => decide (p.1 = k) && setenvOk p.1 p.2).map (·.2)

/-- The table that results from `env` when the pairs `emitted` are written in
order, each accepted pair overwriting its key. -/
def tableAfter (env : Env) (emitted : List (Str × Str)) : Env :=
  fun k => (lastAccepted emitted k).orElse fun _ => env k

/-- The state in which nothing is set and no call has been made. -/
def os0 : OS := { env := fun _ => none, calls := [] }

/-- A file of `MaxScanTokenSize` letters `a` and no line feed. -/
def longLine : File := { content := List.replicate MaxScanTokenSize 'a', readFails := false }

/-- A file system whose only file is `long.env`, with the content `longLine`. -/
def longFS : FS := fun name => if name = "long.env".toList then some longLine else none

/-- Decoders that accept no document. -/
def noDecoders : Decoders := { json := fun _ => none, yaml := fun _ => none }

/-- The state `os'` comes from `os` by `os.Setenv` calls alone: the calls
`emitted` were added, and the table is the old one overwritten by them. -/
def Extends (os os' : OS) (emitted : List (Str × Str)) : Prop :=
  os'.calls = os.calls ++ emitted ∧ os'.env = tableAfter os.env emitted

/-- A file system whose only file is `a.env`, with the one line `=x`. -/
def emptyKeyFS : FS :=
  fun name => if name = "a.env".toList then some { content := "=x".toList, readFails := false }
    else none

/-- A file system whose only file is `a.env`, with lines that are no pairs, a
line of JSON and a line with a quote that is not closed. -/
def oddLinesFS : FS :=
  fun name =>
    if name = "a.env".toList then
      some { content := "not a pair\n\x7b\"a\": [1, 2]\x7d\nA='x\n# end".toList,
             readFails := false }
    else none


/-- The key of a leaf: the keys on the path to it, joined with dots. -/
def dotJoin : List Str → Str
  | [] => []
  | [k] => k
  | k :: k' :: rest => k ++ '.' :: dotJoin (k' :: rest)

mutual
/-- The leaves of a value met on `path`: the value itself with its path when it
is a scalar or a sequence, the leaves of its entries when it is a mapping (a
mapping is no leaf, so an empty mapping has none). -/
def leavesOfValue : List Str → Value → List (List Str × Value)
  | path, .mapping entries => leavesOfEntries path entries
  | path, .sequence elems => [(path, .sequence elems)]
  | path, .str s => [(path, .str s)]
  | path, .bool b => [(path, .bool b)]
  | path, .int i => [(path, .int i)]
  | path, .float f => [(path, .float f)]
  | path, .null => [(path, .null)]
  | path, .other text json => [(path, .other text json)]
/-- The leaves below the entries of a mapping met on `path`, in the order of the
entries. -/
def leavesOfEntries : List Str → List (Str × Value) → List (List Str × Value)
  | _, [] => []
  | path, (key, value) :: rest =>
    leavesOfValue (path ++ [key]) value ++ leavesOfEntries path rest
end

/-- The text written for a leaf: the JSON text of a sequence, when it has one,
and the `%v` text of a scalar. -/
def leafText : Value → Option Str
  | .mapping _ => none
  | .sequence elems => Marshal elems
  | v => some (Sprint v)

/-- The entry of a leaf, when the leaf has a text. -/
def leafEntry (leaf : List Str × Value) : Option (Str × Str) :=
  (leafText leaf.2).map fun text => (dotJoin leaf.1, text)

mutual
/-- Every key of the mappings of the tree is non-empty (mappings inside a
sequence aside: they are not flattened). -/
def keysNonEmptyValue : Value → Bool
  | .mapping entries => keysNonEmpty entries
  | _ => true
/-- Every key of the entries, and of the mappings below them, is non-empty. -/
def keysNonEmpty : List (Str × Value) → Bool
  | [] => true
  | (key, value) :: rest => !key.isEmpty && keysNonEmptyValue value && keysNonEmpty rest
end

mutual
/-- The value is one that `json.Marshal` can write: no float of it, at any
depth, is NaN or infinite, and no value of it, at any depth, has a type that
`encoding/json` refuses (a `map[interface{}]interface{}`). -/
def encodableValue : Value → Bool
  | .mapping entries => encodableEntries entries
  | .sequence elems => encodableElems elems
  | .other _ json => json.isSome
  | .float .nan => false
  | .float (.inf _) => false
  | _ => true
/-- Every element is one that `json.Marshal` can write. -/
def encodableElems : List Value → Bool
  | [] => true
  | v :: rest => encodableValue v && encodableElems rest
/-- Every value of the entries is one that `json.Marshal` can write. -/
def encodableEntries : List (Str × Value) → Bool
  | [] => true
  | (_, v) :: rest => encodableValue v && encodableEntries rest
end

/-- The document `{"a":{"b":1}}`, as `json.Unmarshal` decodes it (a JSON number
is a `float64`). -/
def nestedDoc : List (Str × Value) :=
  [("a".toList, .mapping [("b".toList, .float (.finite false [1] 1))])]

/-- The document `features: [auth, logging, metrics]`. -/
def featuresDoc : List Value :=
  [.str "auth".toList, .str "logging".toList, .str "metrics".toList]

/-- The YAML document `n: [.nan]`: a sequence that holds the float NaN. -/
def nanDoc : List (Str × Value) := [("n".toList, .sequence [.float .nan])]

/-! ## The dispatcher, one candidate at a time -/

/-- The body of the loop of `LoadEnvWithFormat` for one non-empty candidate `f`:
the format is resolved and the parser of that format is run. -/
def loadOne (dec : Decoders) (fs : FS) (format : FileFormat) (f : Str) (os : OS) :
    OS × Option Err :=
  let detectedFormat := if format = FormatAuto then detectFormat f else format
  if detectedFormat = FormatKeyValue then loadKeyValueFile fs f os
  else if detectedFormat = FormatJSON then loadJSONFile dec fs f os
  else if detectedFormat = FormatYAML then loadYAMLFile dec fs f os
  else (os, some Err.unsupportedFormat)

/-- The error of the parser chosen for the candidate `f`, `none` when it
succeeds.  It depends on the file, not on the state the parser starts in. -/
def parseError (dec : Decoders) (fs : FS) (format : FileFormat) (f : Str) : Option Err :=
  (loadOne dec fs format f { env := fun _ => none, calls := [] }).2

/-- The parser of a resolved format. -/
def parserOf (dec : Decoders) (fs : FS) (format : FileFormat) : Str → OS → OS × Option Err :=
  if format = FormatKeyValue then loadKeyValueFile fs
  else if format = FormatJSON then loadJSONFile dec fs
  else if format = FormatYAML then loadYAMLFile dec fs
  else fun _ os => (os, some Err.unsupportedFormat)

/-- The dispatcher in the words of the specification, for a given way `parse` to
parse a candidate: the paths are tried in order, an empty path is skipped, the
first success ends the operation, and when no candidate succeeds the operation
fails as a whole. -/
def tryInOrder (parse : Str → OS → OS × Option Err) : List Str → OS → OS × Option Err
  | [], os => (os, some Err.noFileLoaded)
  | f :: rest, os =>
    if f = [] then tryInOrder parse rest os
    else
      match parse f os with
      | (os', none) => (os', none)
      | (os', some _) => tryInOrder parse rest os'

/-! ## The typed accessor -/

/-- A Go value together with its dynamic type, as the type switch of `GetEnv`
sees `any(defaultVal)`.  The constructor `other` stands for a value of any type
that the switch does not name (a struct, a named integer type, …). -/
inductive GoValue where
  | int (i : Int)
  | uint64 (n : Nat)
  | int64 (i : Int)
  | bool (b : Bool)
  | float64 (f : Float64)
  | duration (nanoseconds : Int)
  | string (s : Str)
  | other (typeName : Str) (value : Str)
  deriving DecidableEq

/-- The parsers of `strconv` and `time` whose numeric work is not modelled:
`strconv.ParseFloat(val, 64)` and `time.ParseDuration(val)`, each giving the
parsed value or nothing when it returns an error. -/
structure Parsers where
  ParseFloat : Str → Option Float64
  ParseDuration : Str → Option Int

/-- Go `strconv.IntSize`, the width of `int`: 64, as on the 64-bit platforms. -/
def IntSize : Nat := 64

/-- The conversion of an integer to `int64`, which wraps around. -/
def wrapInt64 (i : Int) : Int := (i + 2 ^ 63) % 2 ^ 64 - 2 ^ 63

/-- Go `strconv.ParseBool`. -/
def ParseBool (str : Str) : Option Bool :=
  if str = "1".toList ∨ str = "t".toList ∨ str = "T".toList ∨ str = "TRUE".toList ∨
      str = "true".toList ∨ str = "True".toList then some true
  else if str = "0".toList ∨ str = "f".toList ∨ str = "F".toList ∨ str = "FALSE".toList ∨
      str = "false".toList ∨ str = "False".toList then some false
  else none

/-- The loop of `strconv.ParseUint(s, 10, 64)` over the characters still to
read, with `n` the number read so far: a character that is no decimal digit is
a syntax error, and a number that leaves the 64 bits is a range error (both
`none`).  The arithmetic on `n` is that of `uint64`. -/
def parseUintLoop : Str → Nat → Option Nat
  | [], n => some n
  | c :: rest, n =>
    if '0' ≤ c ∧ c ≤ '9' then
      let d := c.toNat - '0'.toNat
      if (2 ^ 64 - 1) / 10 + 1 ≤ n then none
      else
        let n10 := n * 10 % 2 ^ 64
        let n1 := (n10 + d) % 2 ^ 64
        if n1 < n10 ∨ 2 ^ 64 - 1 < n1 then none else parseUintLoop rest n1
    else none

/-- Go `strconv.ParseUint(s, 10, 64)`: the number, or nothing on an error. -/
def ParseUint (s : Str) : Option Nat :=
  if s = [] then none else parseUintLoop s 0

/-- Go `strconv.ParseInt(s, 10, 64)`: the number, or nothing on an error. -/
def ParseInt (s : Str) : Option Int :=
  match s with
  | [] => none
  | c :: rest =>
    let neg := decide (c = '-')
    let digits := if c = '+' ∨ c = '-' then rest else c :: rest
    match ParseUint digits with
    | none => none
    | some un =>
      if neg = false ∧ 2 ^ 63 ≤ un then none
      else if neg = true ∧ 2 ^ 63 < un then none
      else
        let n := wrapInt64 un
        some (if neg then wrapInt64 (-n) else n)

/-- The loop of the fast path of `strconv.Atoi`: `n = n*10 + int(ch)` for each
digit, nothing for a character that is no digit.  The fast path reads fewer
than 19 digits, so `n` stays below `10^18` and the `int` does not overflow. -/
def atoiLoop : Str → Int → Option Int
  | [], n => some n
  | ch :: rest, n =>
    if '0' ≤ ch ∧ ch ≤ '9' then atoiLoop rest (n * 10 + (ch.toNat - '0'.toNat : Nat))
    else none

/-- Go `strconv.Atoi` with a 64-bit `int`: the fast path for a text of fewer
than 19 bytes, `ParseInt(s, 10, 0)` otherwise. -/
def Atoi (s : Str) : Option Int :=
  if 0 < len s ∧ len s < 19 then
    match s with
    | [] => none
    | c :: rest =>
      if c = '-' ∨ c = '+' then
        if len rest < 1 then none
        else (atoiLoop rest 0).map fun n => if c = '-' then -n else n
      else atoiLoop (c :: rest) 0
  else ParseInt s

/-- The function `GetEnv`: the type switch is on the dynamic type of
`defaultVal`, and the result has that type. -/
def GetEnv (lib : Parsers) (key : Str) (defaultVal : GoValue) (os : OS) : GoValue :=
  let val := Getenv key os
  if val = [] then defaultVal
  else
    match defaultVal with
    | .int _ =>
      match Atoi val with
      | none => defaultVal
      | some parsed => .int parsed
    | .uint64 _ =>
      match ParseUint val with
      | none => defaultVal
      | some parsed => .uint64 parsed
    | .int64 _ =>
      match ParseInt val with
      | none => defaultVal
      | some parsed => .int64 parsed
    | .bool _ =>
      match ParseBool val with
      | none => defaultVal
      | some parsed => .bool parsed
    | .float64 _ =>
      match lib.ParseFloat val with
      | none => defaultVal
      | some parsed => .float64 parsed
    | .duration _ =>
      match lib.ParseDuration val with
      | none => defaultVal
      | some parsed => .duration parsed
    | .string _ => .string val
    | .other _ _ => defaultVal

/-- The decimal digits of a natural number, most significant first. -/
def decDigits (n : Nat) : Str :=
  if n < 10 then [Nat.digitChar n] else decDigits (n / 10) ++ [Nat.digitChar (n % 10)]
termination_by n
decreasing_by omega

/-- Parsers that accept no text. -/
def noParsers : Parsers := { ParseFloat := fun _ => none, ParseDuration := fun _ => none }

/-- A state in which `key` is bound to `text` and nothing else is set. -/
def osWith (key text : Str) : OS :=
  { env := fun k => if k = key then some text else none, calls := [] }

/-- A file system with a JSON file `valid.json` and a key-value file
`later.env`; no other file exists. -/
def sampleFS : FS :=
  fun name =>
    if name = "valid.json".toList then
      some { content := "\x7b\"a\":\x7b\"b\":1\x7d\x7d".toList, readFails := false }
    else if name = "later.env".toList then
      some { content := "LATER=1".toList, readFails := false }
    else none

/-- Decoders that know the document `{"a":{"b":1}}` and refuse any other text. -/
def sampleDecoders : Decoders :=
  { json := fun data => if data = "\x7b\"a\":\x7b\"b\":1\x7d\x7d".toList then some nestedDoc else none,
    yaml := fun _ => none }

/-- The line as the split sees it: trimmed and without its comment. -/
def lineBody (text : Str) : Str := removeComment (TrimSpace text)

/-- The key of a line that is not skipped: the trimmed text before the first `=`. -/
def lineKey (text : Str) : Str := TrimSpace ((lineBody text).takeWhile (· != '='))

/-- The raw value of a line that is not skipped: the trimmed text after the
first `=`. -/
def lineRaw (text : Str) : Str := TrimSpace (((lineBody text).dropWhile (· != '=')).drop 1)

/-! ## The accessor for dotted keys -/

/-- Go `strings.ReplaceAll(s, old, new)` for one-character `old` and `new`. -/
def ReplaceAll (s : Str) (old new : Char) : Str := s.map fun c => if c = old then new else c

/-- Go `unicode.ToUpper`: a small ASCII letter becomes its capital and any other
ASCII character is left alone; outside ASCII the result is read from the case
table of package `unicode`, here the parameter `table`. -/
def toUpperRune (table : Char → Char) (c : Char) : Char :=
  if c.toNat ≤ 127 then
    if 97 ≤ c.toNat ∧ c.toNat ≤ 122 then Char.ofNat (c.toNat - 32) else c
  else table c

/-- Go `strings.ToUpper`. -/
def ToUpper (table : Char → Char) (s : Str) : Str := s.map (toUpperRune table)

/-- The function `GetEnvNested`. -/
def GetEnvNested (table : Char → Char) (lib : Parsers) (key : Str) (defaultVal : GoValue)
    (os : OS) : GoValue :=
  let envKey := ToUpper table (ReplaceAll key '.' '_')
  GetEnv lib envKey defaultVal os

/-- The document `{"db":{"host":"x"}}`. -/
def dbDoc : List (Str × Value) := [("db".toList, .mapping [("host".toList, .str "x".toList)])]

/-- A file system whose only file is `part.env`: the line `A=1`, and after it a
line of `MaxScanTokenSize` letters `a`. -/
def partFS : FS :=
  fun name =>
    if name = "part.env".toList then
      some { content := "A=1".toList ++ lf :: longLine.content, readFails := false }
    else none

/-- A key that is non-empty and has no dot. -/
def plainKey (key : Str) : Bool := !key.isEmpty && !key.contains '.'

mutual
/-- Every key of the mappings of the tree is non-empty and has no dot (mappings
inside a sequence aside: they are not flattened). -/
def keysPlainValue : Value → Bool
  | .mapping entries => keysPlain entries
  | _ => true
/-- Every key of the entries, and of the mappings below them, is non-empty and
has no dot. -/
def keysPlain : List (Str × Value) → Bool
  | [] => true
  | (key, value) :: rest => plainKey key && keysPlainValue value && keysPlain rest
end

/-- The document `{"db":{"host":"x","port":5432},"debug":true}`, as YAML
decodes it. -/
def configDoc : List (Str × Value) :=
  [("db".toList, .mapping [("host".toList, .str "x".toList), ("port".toList, .int 5432)]),
   ("debug".toList, .bool true)]

/-- The document `{"name":""}`. -/
def emptyNameDoc : List (Str × Value) := [("name".toList, .str [])]

/-- The document `{"n":1000000}`, as `json.Unmarshal` decodes it (a JSON number
is a `float64`). -/
def millionDoc : List (Str × Value) := [("n".toList, .float (.finite false [1] 7))]

/-- The YAML document `ports: {80: http, 443: https}` as `yaml.v3` decodes it:
the nested mapping has integer keys, so it is a `map[interface{}]interface{}`,
which `%v` prints as `map[80:http 443:https]` and `json.Marshal` refuses. -/
def portsDoc : List (Str × Value) :=
  [("ports".toList, .other "map[80:http 443:https]".toList none)]

/-- The YAML document `k: [{1: a}]` as `yaml.v3` decodes it: a sequence that
holds a mapping with an integer key. -/
def mapInSeqDoc : List (Str × Value) :=
  [("k".toList, .sequence [.other "map[1:a]".toList none])]

/-- A comment line that does not fit the scanner buffer: `#` and letters `a`,
`MaxScanTokenSize` bytes in all. -/
def longComment : Str := '#' :: List.replicate (MaxScanTokenSize - 1) 'a'

/-- A file system whose only file is `c.env`: the comment line `longComment`,
and after it the line `A=1`. -/
def longCommentFS : FS :=
  fun name =>
    if name = "c.env".toList then
      some { content := longComment ++ lf :: "A=1".toList, readFails := false }
    else none

/-- The pair that a line emits, in the words of the specification: none for a
skipped line, and for any other line the trimmed text before the first `=`
with the unquoted trimmed text after it. -/
def linePair (text : Str) : Option (Str × Str) :=
  if skippedLine text then none else some (lineKey text, unquote (lineRaw text))

/-- The lines that the scanner hands to the loop, in their order: the raw lines
before the first one that does not fit its buffer, each without its final
carriage return. -/
def linesRead : List Str → List Str
  | [] => []
  | raw :: rest => if MaxScanTokenSize ≤ len raw then [] else dropCR raw :: linesRead rest

/-- The pairs that the lines of the file `filename` emit, in line order; none
when the file cannot be opened. -/
def pairsOfFile (fs : FS) (filename : Str) : List (Str × Str) :=
  match osOpen fs filename with
  | none => []
  | some file => (linesRead (rawLines file.content)).filterMap linePair

/-- A file system whose only file is `a.env`, with the lines `A=1`, `B=2`, `=x`
and `A=3`. -/
def repeatedKeyFS : FS :=
  fun name =>
    if name = "a.env".toList then
      some { content := "A=1\nB=2\n=x\nA=3\n".toList, readFails := false }
    else none

/-- The number that a list of decimal digits writes, most significant first. -/
def digitsVal (ds : List Nat) : Nat := ds.foldl (fun a x => 10 * a + x) 0

/-- The integer that the finite `float64` with the digits `d` and the decimal
point at `dp` holds when the point stands at or after the last digit: the
value `0.d₁…dₙ × 10^dp` is the number written by the digits followed by
`dp - n` zeros. -/
def floatInt (neg : Bool) (d : List Nat) (dp : Int) : Int :=
  let n : Int := (digitsVal (d ++ List.replicate (dp.toNat - d.length) 0) : Nat)
  if neg then -n else n

/-- The document `{"port":5432}`, as `json.Unmarshal` decodes it (a JSON number
is a `float64`). -/
def portDoc : List (Str × Value) := [("port".toList, .float (.finite false [5, 4, 3, 2] 4))]

/-- The small letter sharp s, U+00DF. -/
def sharpS : Char := Char.ofNat 0xDF

/-- A case table that leaves every code point outside ASCII as it is.  At U+00DF
it agrees with the table of package `unicode`: the small letter sharp s has no
upper case of one code point, and `unicode.ToUpper` returns it as it is. -/
def sharpSTable : Char → Char := fun c => c

/-- The document with the one key `ß`, bound to the string `x`. -/
def sharpSDoc : List (Str × Value) := [([sharpS], .str "x".toList)]

/-! ## Lemmas on trimming -/

section Lists
variable {α : Type} (p : α → Bool)

theorem dropWhile_append_cons_neg (a b : List α) (c : α) (hc : p c = false) :
    (a ++ c :: b).dropWhile p = a.dropWhile p ++ c :: b := by
  induction a with
  | nil => simp [List.dropWhile, hc]
  | cons x xs ih =>
    by_cases hx : p x
    · simp [List.dropWhile, hx, ih]
    · simp [List.dropWhile, hx]

theorem rdropWhile_append_cons_neg (a b : List α) (c : α) (hc : p c = false) :
    (a ++ c :: b).rdropWhile p = a ++ c :: b.rdropWhile p := by
  have h := dropWhile_append_cons_neg p b.reverse a.reverse c hc
  simp only [List.rdropWhile, List.reverse_append, List.reverse_cons, List.append_assoc,
    List.singleton_append]
  rw [h]
  simp

theorem rdropWhile_append_all (a b : List α) (hb : ∀ x ∈ b, p x = true) :
    (a ++ b).rdropWhile p = a.rdropWhile p := by
  simp only [List.rdropWhile, List.reverse_append]
  rw [List.dropWhile_append_of_pos]
  intro x hx
  exact hb x (List.mem_reverse.mp hx)

theorem rdropWhile_cons (x : α) (xs : List α) :
    (x :: xs).rdropWhile p =
      if (∀ y ∈ xs, p y = true) ∧ p x = true then [] else x :: xs.rdropWhile p := by
  induction xs using List.reverseRecOn generalizing x with
  | nil =>
    have := List.rdropWhile_singleton p x
    by_cases hx : p x <;> simp_all
  | append_singleton ys y ih =>
    rw [← List.cons_append]
    by_cases hy : p y = true
    · rw [List.rdropWhile_concat_pos _ _ _ hy, List.rdropWhile_concat_pos _ _ _ hy, ih]
      have hiff : (∀ z ∈ ys ++ [y], p z = true) ↔ ∀ z ∈ ys, p z = true := by
        constructor
        · intro h z hz
          exact h z (List.mem_append_left _ hz)
        · intro h z hz
          rcases List.mem_append.mp hz with hz | hz
          · exact h z hz
          · rw [List.mem_singleton.mp hz]; exact hy
      simp only [hiff]
    · rw [List.rdropWhile_concat_neg _ _ _ hy, List.rdropWhile_concat_neg _ _ _ hy]
      have hno : ¬ ∀ z ∈ ys ++ [y], p z = true := fun h => hy (h y (by simp))
      simp only [hno, false_and, if_false]
      rfl

theorem dropWhile_rdropWhile_comm (l : List α) :
    (l.rdropWhile p).dropWhile p = (l.dropWhile p).rdropWhile p := by
  induction l with
  | nil => simp [List.rdropWhile]
  | cons x xs ih =>
    by_cases hx : p x = true
    · rw [rdropWhile_cons, List.dropWhile_cons_of_pos hx]
      by_cases hall : ∀ y ∈ xs, p y = true
      · have h1 : xs.dropWhile p = [] := by simpa using hall
        rw [if_pos ⟨hall, hx⟩, h1]
        simp [List.rdropWhile]
      · rw [if_neg (fun h => hall h.1), List.dropWhile_cons_of_pos hx, ih]
    · rw [rdropWhile_cons, if_neg (fun h => hx h.2), List.dropWhile_cons_of_neg hx,
        List.dropWhile_cons_of_neg hx, rdropWhile_cons, if_neg (fun h => hx h.2)]

theorem dropWhile_idem (l : List α) : (l.dropWhile p).dropWhile p = l.dropWhile p := by
  induction l with
  | nil => rfl
  | cons x xs ih =>
    by_cases hx : p x = true
    · simp [List.dropWhile_cons_of_pos hx, ih]
    · simp [List.dropWhile_cons_of_neg hx]

end Lists

theorem TrimSpace_append_cons (a b : Str) (c : Char) (hc : isSpace c = false) :
    TrimSpace (a ++ c :: b) = a.dropWhile isSpace ++ c :: b.rdropWhile isSpace := by
  unfold TrimSpace
  rw [dropWhile_append_cons_neg isSpace a b c hc, rdropWhile_append_cons_neg isSpace _ b c hc]

theorem TrimSpace_eq_comm (s : Str) :
    TrimSpace s = (s.rdropWhile isSpace).dropWhile isSpace := by
  unfold TrimSpace
  rw [dropWhile_rdropWhile_comm]

theorem TrimSpace_dropWhile (s : Str) : TrimSpace (s.dropWhile isSpace) = TrimSpace s := by
  unfold TrimSpace
  rw [dropWhile_idem]

theorem TrimSpace_rdropWhile (s : Str) : TrimSpace (s.rdropWhile isSpace) = TrimSpace s := by
  rw [TrimSpace_eq_comm, List.rdropWhile_idempotent, ← TrimSpace_eq_comm]

theorem TrimSpace_idem (s : Str) : TrimSpace (TrimSpace s) = TrimSpace s := by
  unfold TrimSpace
  rw [dropWhile_rdropWhile_comm, dropWhile_idem, List.rdropWhile_idempotent]

theorem TrimSpace_append_spaces (s ws : Str) (hws : ∀ c ∈ ws, isSpace c = true) :
    TrimSpace (s ++ ws) = TrimSpace s := by
  rw [TrimSpace_eq_comm, rdropWhile_append_all isSpace s ws hws, ← TrimSpace_eq_comm]

theorem TrimSpace_spaces (ws : Str) (hws : ∀ c ∈ ws, isSpace c = true) : TrimSpace ws = [] := by
  unfold TrimSpace
  have : ws.dropWhile isSpace = [] := by simpa using hws
  rw [this]
  simp [List.rdropWhile]

/-- A trimmed string does not start with white space. -/
theorem TrimSpace_head_not_space (s : Str) (c : Char) (h : (TrimSpace s).head? = some c) :
    isSpace c = false := by
  rw [TrimSpace_eq_comm] at h
  have := List.head?_dropWhile_not isSpace (s.rdropWhile isSpace)
  rw [h] at this
  exact this

/-- Every character of the trimmed string is a character of the string. -/
theorem mem_of_mem_TrimSpace (s : Str) (c : Char) (h : c ∈ TrimSpace s) : c ∈ s := by
  unfold TrimSpace at h
  have h1 : c ∈ s.dropWhile isSpace :=
    (List.rdropWhile_prefix isSpace (s.dropWhile isSpace)).subset h
  exact (List.dropWhile_suffix isSpace).subset h1

/-! ## Lemmas on the comment scan -/

theorem scanComment_skip (x y : Str) (i : Nat) (c : Char)
    (hx : ∀ ch ∈ x, ch ≠ '#' ∧ ch ≠ dquote ∧ ch ≠ squote) :
    scanComment (x ++ y) i false c = scanComment y (i + x.length) false c := by
  induction x generalizing i with
  | nil => simp
  | cons ch rest ih =>
    have h := hx ch (List.mem_cons_self _ _)
    have hrest : ∀ ch ∈ rest, ch ≠ '#' ∧ ch ≠ dquote ∧ ch ≠ squote :=
      fun d hd => hx d (List.mem_cons_of_mem _ hd)
    rw [List.cons_append, scanComment]
    have e1 : (ch == '#') = false := by simp [h.1]
    have e2 : (ch == dquote) = false := by simp [h.2.1]
    have e3 : (ch == squote) = false := by simp [h.2.2]
    simp only [e1, e2, e3, Bool.not_false, Bool.and_false, Bool.or_false, Bool.false_and,
      Bool.false_eq_true, if_false]
    rw [ih (i + 1) hrest]
    have harith : i + 1 + rest.length = i + (rest.length + 1) := by omega
    simp only [List.length_cons, harith]

theorem scanComment_inside (s y : Str) (i : Nat) (q : Char) (hs : q ∉ s) :
    scanComment (s ++ y) i true q = scanComment y (i + s.length) true q := by
  induction s generalizing i with
  | nil => simp
  | cons ch rest ih =>
    have h : ch ≠ q := fun e => hs (e ▸ List.mem_cons_self _ _)
    have hrest : q ∉ rest := fun hd => hs (List.mem_cons_of_mem _ hd)
    rw [List.cons_append, scanComment]
    have e1 : (ch == q) = false := by simp [h]
    simp only [e1, Bool.not_true, Bool.false_and, Bool.and_false, Bool.false_eq_true, if_false]
    rw [ih (i + 1) hrest]
    have harith : i + 1 + rest.length = i + (rest.length + 1) := by omega
    simp only [List.length_cons, harith]

theorem scanComment_hash (y : Str) (i : Nat) (c : Char) :
    scanComment ('#' :: y) i false c = some i := by
  simp [scanComment]

theorem scanComment_open (q : Char) (hq : q = dquote ∨ q = squote) (y : Str) (i : Nat) (c : Char) :
    scanComment (q :: y) i false c = scanComment y (i + 1) true q := by
  have hd : dquote ≠ '#' := by decide
  have hs : squote ≠ '#' := by decide
  rw [scanComment]
  rcases hq with h | h <;> subst h <;> simp [hd, hs]

theorem scanComment_close (q : Char) (y : Str) (i : Nat) :
    scanComment (q :: y) i true q = scanComment y (i + 1) false nul := by
  rw [scanComment]
  simp

theorem takeWhile_ne_eq (k v : Str) (hk : '=' ∉ k) :
    (k ++ '=' :: v).takeWhile (· != '=') = k := by
  induction k with
  | nil => simp [List.takeWhile]
  | cons x xs ih =>
    have hx : x ≠ '=' := fun e => hk (e ▸ List.mem_cons_self _ _)
    have hxs : '=' ∉ xs := fun h => hk (List.mem_cons_of_mem _ h)
    rw [List.cons_append, List.takeWhile_cons, ih hxs]
    simp [hx]

theorem dropWhile_ne_eq (k v : Str) (hk : '=' ∉ k) :
    (k ++ '=' :: v).dropWhile (· != '=') = '=' :: v := by
  induction k with
  | nil => simp [List.dropWhile]
  | cons x xs ih =>
    have hx : x ≠ '=' := fun e => hk (e ▸ List.mem_cons_self _ _)
    have hxs : '=' ∉ xs := fun h => hk (List.mem_cons_of_mem _ h)
    rw [List.cons_append, List.dropWhile_cons, ih hxs]
    simp [hx]

theorem SplitN2_append_eq (k v : Str) (hk : '=' ∉ k) : SplitN2 (k ++ '=' :: v) = [k, v] := by
  unfold SplitN2
  have hmem : '=' ∈ k ++ '=' :: v := by simp
  rw [if_pos hmem, takeWhile_ne_eq k v hk, dropWhile_ne_eq k v hk]
  rfl

theorem SplitN2_no_eq (s : Str) (h : '=' ∉ s) : SplitN2 s = [s] := by
  unfold SplitN2
  rw [if_neg h]

/-- The loop body on a line whose text, trimmed and without its comment, is
`k=v`: one call `os.Setenv(trim k, unquote (trim v))`. -/
theorem processLine_core (text k v : Str) (os : OS)
    (hne : TrimSpace text ≠ []) (hhash : (TrimSpace text).head? ≠ some '#')
    (hrc : removeComment (TrimSpace text) = k ++ '=' :: v) (hk : '=' ∉ k) :
    processLine text os = Setenv (TrimSpace k) (unquote (TrimSpace v)) os := by
  unfold processLine
  simp only [hne, hhash, or_self, if_false, hrc]
  rw [if_neg (by simp), SplitN2_append_eq k v hk]


/-! ## Lemmas on unquoting -/

theorem len_cons (c : Char) (s : Str) : len (c :: s) = c.utf8Size + len s := by
  simp [len]

theorem len_append (s t : Str) : len (s ++ t) = len s + len t := by
  simp [len]

theorem length_le_len (s : Str) : s.length ≤ len s := by
  induction s with
  | nil => simp [len]
  | cons c rest ih =>
    have := Char.utf8Size_pos c
    rw [len_cons, List.length_cons]
    omega

/-- A value enclosed in a pair of equal quotes loses exactly that pair. -/
theorem unquote_wrapped (q : Char) (s : Str) (hq : q = dquote ∨ q = squote) :
    unquote (q :: (s ++ [q])) = s := by
  have hlen : 2 ≤ len (q :: (s ++ [q])) := by
    have := length_le_len (q :: (s ++ [q]))
    simp only [List.length_cons, List.length_append, List.length_nil] at this
    omega
  have hlast : (q :: (s ++ [q])).getLast? = some q := by
    rw [← List.cons_append, List.getLast?_concat]
  have hcond : 2 ≤ len (q :: (s ++ [q])) ∧
      (((q :: (s ++ [q])).head? = some dquote ∧ (q :: (s ++ [q])).getLast? = some dquote) ∨
        ((q :: (s ++ [q])).head? = some squote ∧ (q :: (s ++ [q])).getLast? = some squote)) := by
    refine ⟨hlen, ?_⟩
    rw [hlast]
    rcases hq with h | h
    · left; simp [h]
    · right; simp [h]
  unfold unquote
  rw [if_pos hcond]
  simp

/-- A value that does not start with a quote is left as it is. -/
theorem unquote_of_head (value : Str) (hd : value.head? ≠ some dquote)
    (hs : value.head? ≠ some squote) : unquote value = value := by
  unfold unquote
  rw [if_neg]
  rintro ⟨_, h | h⟩
  · exact hd h.1
  · exact hs h.1

theorem unquote_no_quote (value : Str) (h : ∀ c ∈ value, c ≠ dquote ∧ c ≠ squote) :
    unquote value = value := by
  apply unquote_of_head
  · intro e
    exact (h dquote (List.mem_of_mem_head? e)).1 rfl
  · intro e
    exact (h squote (List.mem_of_mem_head? e)).2 rfl

/-! ## Balanced prefixes of a line -/

theorem Balanced_plain (x : Str) (hx : ∀ ch ∈ x, ch ≠ '#' ∧ ch ≠ dquote ∧ ch ≠ squote) :
    Balanced x := fun z i => scanComment_skip x z i nul hx

theorem Balanced_append (x y : Str) (hx : Balanced x) (hy : Balanced y) : Balanced (x ++ y) := by
  intro z i
  rw [List.append_assoc, hx, hy, List.length_append, Nat.add_assoc]

theorem Balanced_quoted (q : Char) (s : Str) (hq : q = dquote ∨ q = squote) (hs : q ∉ s) :
    Balanced (q :: (s ++ [q])) := by
  intro z i
  rw [List.cons_append, scanComment_open q hq, List.append_assoc, scanComment_inside s _ _ q hs,
    List.singleton_append, scanComment_close]
  simp only [List.length_cons, List.length_append, List.length_nil]
  have : i + 1 + s.length + 1 = i + (s.length + (0 + 1) + 1) := by omega
  rw [this]

theorem commentIndex_balanced (x : Str) (hx : Balanced x) : commentIndex x = none := by
  have h := hx [] 0
  rw [List.append_nil] at h
  unfold commentIndex
  rw [h, scanComment]

theorem removeComment_balanced (x : Str) (hx : Balanced x) : removeComment x = x := by
  unfold removeComment
  rw [commentIndex_balanced x hx]

theorem removeComment_at (x y : Str) (hx : Balanced x) :
    removeComment (x ++ '#' :: y) = TrimSpace x := by
  unfold removeComment commentIndex
  rw [hx, scanComment_hash]
  simp

theorem isSpace_not_plain (c : Char) (h : isSpace c = true) :
    c ≠ '#' ∧ c ≠ dquote ∧ c ≠ squote ∧ c ≠ '=' := by
  refine ⟨?_, ?_, ?_, ?_⟩ <;> intro e <;> rw [e] at h <;> revert h <;> decide


theorem head_TrimSpace_ne_hash (text : Str) (h : '#' ∉ text) :
    (TrimSpace text).head? ≠ some '#' := by
  intro e
  exact h (mem_of_mem_TrimSpace text _ (List.mem_of_mem_head? e))

theorem split_at_first_eq (line : Str) (h : '=' ∈ line) :
    line = line.takeWhile (· != '=') ++ '=' :: (line.dropWhile (· != '=')).drop 1 ∧
      '=' ∉ line.takeWhile (· != '=') := by
  constructor
  · induction line with
    | nil => simp at h
    | cons x xs ih =>
      by_cases hx : x = '='
      · subst hx
        simp [List.takeWhile, List.dropWhile]
      · have hxs : '=' ∈ xs := by
          rcases List.mem_cons.mp h with e | e
          · exact absurd e.symm hx
          · exact e
        have hb : (x != '=') = true := by simp [hx]
        rw [List.takeWhile_cons, List.dropWhile_cons]
        simp only [hb, if_true, List.cons_append]
        rw [← ih hxs]
  · intro hmem
    have := List.mem_takeWhile_imp hmem
    simp at this

/-- The loop body on `a=b` with no quote and no `#`, `a` without `=`. -/
theorem processLine_plain (a b : Str) (os : OS) (ha : '=' ∉ a)
    (hplain : ∀ c ∈ a ++ '=' :: b, c ≠ '#' ∧ c ≠ dquote ∧ c ≠ squote) :
    processLine (a ++ '=' :: b) os = Setenv (TrimSpace a) (TrimSpace b) os := by
  have hsp : isSpace '=' = false := by decide
  have ht := TrimSpace_append_cons a b '=' hsp
  have hmemt : ∀ c ∈ TrimSpace (a ++ '=' :: b), c ≠ '#' ∧ c ≠ dquote ∧ c ≠ squote :=
    fun c hc => hplain c (mem_of_mem_TrimSpace _ c hc)
  have hne : TrimSpace (a ++ '=' :: b) ≠ [] := by rw [ht]; simp
  have hhash : (TrimSpace (a ++ '=' :: b)).head? ≠ some '#' :=
    head_TrimSpace_ne_hash _ (fun h => (hplain _ h).1 rfl)
  have hrc : removeComment (TrimSpace (a ++ '=' :: b)) =
      a.dropWhile isSpace ++ '=' :: b.rdropWhile isSpace := by
    rw [removeComment_balanced _ (Balanced_plain _ hmemt), ht]
  have hk : '=' ∉ a.dropWhile isSpace :=
    fun h => ha ((List.dropWhile_suffix isSpace).subset h)
  rw [processLine_core _ _ _ os hne hhash hrc hk, TrimSpace_dropWhile, TrimSpace_rdropWhile]
  rw [unquote_no_quote]
  intro c hc
  have := hplain c (List.mem_append_right _ (List.mem_cons_of_mem _ (mem_of_mem_TrimSpace b c hc)))
  exact this.2

/-- The loop body on `K=v`, white space, `#` and a comment. -/
theorem processLine_comment (K v ws comment : Str) (os : OS) (hK : '=' ∉ K)
    (hKp : ∀ c ∈ K, c ≠ '#' ∧ c ≠ dquote ∧ c ≠ squote)
    (hvp : ∀ c ∈ v, c ≠ '#' ∧ c ≠ dquote ∧ c ≠ squote)
    (hws : ∀ c ∈ ws, isSpace c = true) :
    processLine (K ++ '=' :: (v ++ ws ++ '#' :: comment)) os =
      Setenv (TrimSpace K) (TrimSpace v) os := by
  have hsp : isSpace '=' = false := by decide
  have hsh : isSpace '#' = false := by decide
  have hwsp : ∀ c ∈ ws, c ≠ '#' ∧ c ≠ dquote ∧ c ≠ squote :=
    fun c hc => ⟨(isSpace_not_plain c (hws c hc)).1, (isSpace_not_plain c (hws c hc)).2.1,
      (isSpace_not_plain c (hws c hc)).2.2.1⟩
  have heq : '=' ≠ '#' ∧ '=' ≠ dquote ∧ '=' ≠ squote := by decide
  have ht : TrimSpace (K ++ '=' :: (v ++ ws ++ '#' :: comment)) =
      (K.dropWhile isSpace ++ '=' :: (v ++ ws)) ++ '#' :: comment.rdropWhile isSpace := by
    rw [TrimSpace_append_cons _ _ _ hsp, rdropWhile_append_cons_neg isSpace _ _ _ hsh]
    simp
  have hK' : ∀ c ∈ K.dropWhile isSpace, c ≠ '#' ∧ c ≠ dquote ∧ c ≠ squote :=
    fun c hc => hKp c ((List.dropWhile_suffix isSpace).subset hc)
  have hbal : Balanced (K.dropWhile isSpace ++ '=' :: (v ++ ws)) := by
    apply Balanced_plain
    intro c hc
    rcases List.mem_append.mp hc with h | h
    · exact hK' c h
    · rcases List.mem_cons.mp h with h | h
      · rw [h]; exact heq
      · rcases List.mem_append.mp h with h | h
        · exact hvp c h
        · exact hwsp c h
  have hne : TrimSpace (K ++ '=' :: (v ++ ws ++ '#' :: comment)) ≠ [] := by rw [ht]; simp
  have hhash : (TrimSpace (K ++ '=' :: (v ++ ws ++ '#' :: comment))).head? ≠ some '#' := by
    rw [ht]
    intro e
    cases hk : K.dropWhile isSpace with
    | nil =>
      rw [hk] at e
      simp at e
    | cons x xs =>
      rw [hk] at e
      simp only [List.cons_append, List.head?_cons, Option.some.injEq] at e
      exact (hK' x (by rw [hk]; exact List.mem_cons_self _ _)).1 e
  have hrc : removeComment (TrimSpace (K ++ '=' :: (v ++ ws ++ '#' :: comment))) =
      K.dropWhile isSpace ++ '=' :: v.rdropWhile isSpace := by
    rw [ht, removeComment_at _ _ hbal, TrimSpace_append_cons _ _ _ hsp, dropWhile_idem,
      rdropWhile_append_all isSpace v ws hws]
  have hk : '=' ∉ K.dropWhile isSpace :=
    fun h => hK ((List.dropWhile_suffix isSpace).subset h)
  rw [processLine_core _ _ _ os hne hhash hrc hk, TrimSpace_dropWhile, TrimSpace_rdropWhile]
  rw [unquote_no_quote]
  intro c hc
  exact (hvp c (mem_of_mem_TrimSpace v c hc)).2

/-- The loop body on `K=q s q` followed by `tail`, where the trimmed tail is
empty or starts a comment. -/
theorem processLine_quoted (K s ws : Str) (q : Char) (os : OS) (hK : '=' ∉ K)
    (hKp : ∀ c ∈ K, c ≠ '#' ∧ c ≠ dquote ∧ c ≠ squote)
    (hq : q = dquote ∨ q = squote) (hs : q ∉ s) (hws : ∀ c ∈ ws, isSpace c = true) :
    processLine (K ++ '=' :: q :: (s ++ q :: ws)) os = Setenv (TrimSpace K) s os ∧
      ∀ comment : Str,
        processLine (K ++ '=' :: q :: (s ++ q :: (ws ++ '#' :: comment))) os =
          Setenv (TrimSpace K) s os := by
  have hsp : isSpace '=' = false := by decide
  have hsh : isSpace '#' = false := by decide
  have hqs : isSpace q = false := by rcases hq with h | h <;> rw [h] <;> decide
  have heq : '=' ≠ '#' ∧ '=' ≠ dquote ∧ '=' ≠ squote := by decide
  have hwsp : ∀ c ∈ ws, c ≠ '#' ∧ c ≠ dquote ∧ c ≠ squote :=
    fun c hc => ⟨(isSpace_not_plain c (hws c hc)).1, (isSpace_not_plain c (hws c hc)).2.1,
      (isSpace_not_plain c (hws c hc)).2.2.1⟩
  have hK' : ∀ c ∈ K.dropWhile isSpace, c ≠ '#' ∧ c ≠ dquote ∧ c ≠ squote :=
    fun c hc => hKp c ((List.dropWhile_suffix isSpace).subset hc)
  have hk : '=' ∉ K.dropWhile isSpace :=
    fun h => hK ((List.dropWhile_suffix isSpace).subset h)
  have hbalK : Balanced (K.dropWhile isSpace ++ ['=']) := by
    apply Balanced_plain
    intro c hc
    rcases List.mem_append.mp hc with h | h
    · exact hK' c h
    · rw [List.mem_singleton.mp h]; exact heq
  have hbal0 : Balanced ((K.dropWhile isSpace ++ ['=']) ++ (q :: (s ++ [q]))) :=
    Balanced_append _ _ hbalK (Balanced_quoted q s hq hs)
  have hbal1 : Balanced (((K.dropWhile isSpace ++ ['=']) ++ (q :: (s ++ [q]))) ++ ws) :=
    Balanced_append _ _ hbal0 (Balanced_plain ws hwsp)
  have hshape0 : (K.dropWhile isSpace ++ ['=']) ++ (q :: (s ++ [q])) =
      K.dropWhile isSpace ++ '=' :: (q :: (s ++ [q])) := by simp
  have hval : TrimSpace (q :: (s ++ [q])) = q :: (s ++ [q]) := by
    have h := TrimSpace_append_cons [] (s ++ [q]) q hqs
    have hq' : ¬ isSpace q = true := by simp [hqs]
    rw [List.rdropWhile_concat_neg _ _ _ hq'] at h
    simpa using h
  have hhead : ∀ rest : Str,
      (K.dropWhile isSpace ++ '=' :: rest).head? ≠ some '#' := by
    intro rest e
    cases hkk : K.dropWhile isSpace with
    | nil =>
      rw [hkk] at e
      simp at e
    | cons x xs =>
      rw [hkk] at e
      simp only [List.cons_append, List.head?_cons, Option.some.injEq] at e
      exact (hK' x (by rw [hkk]; exact List.mem_cons_self _ _)).1 e
  constructor
  · have ht : TrimSpace (K ++ '=' :: q :: (s ++ q :: ws)) =
        K.dropWhile isSpace ++ '=' :: (q :: (s ++ [q])) := by
      rw [TrimSpace_append_cons _ _ _ hsp]
      have : q :: (s ++ q :: ws) = (q :: s) ++ q :: ws := by simp
      rw [this, rdropWhile_append_cons_neg isSpace _ _ _ hqs]
      have hnil : ws.rdropWhile isSpace = [] := by
        rw [List.rdropWhile_eq_nil_iff]; exact hws
      rw [hnil]
      simp
    have hne : TrimSpace (K ++ '=' :: q :: (s ++ q :: ws)) ≠ [] := by rw [ht]; simp
    have hhash : (TrimSpace (K ++ '=' :: q :: (s ++ q :: ws))).head? ≠ some '#' := by
      rw [ht]; exact hhead _
    have hrc : removeComment (TrimSpace (K ++ '=' :: q :: (s ++ q :: ws))) =
        K.dropWhile isSpace ++ '=' :: (q :: (s ++ [q])) := by
      rw [ht, ← hshape0, removeComment_balanced _ hbal0]
    rw [processLine_core _ _ _ os hne hhash hrc hk, TrimSpace_dropWhile, hval,
      unquote_wrapped q s hq]
  · intro comment
    have ht : TrimSpace (K ++ '=' :: q :: (s ++ q :: (ws ++ '#' :: comment))) =
        (((K.dropWhile isSpace ++ ['=']) ++ (q :: (s ++ [q]))) ++ ws) ++
          '#' :: comment.rdropWhile isSpace := by
      rw [TrimSpace_append_cons _ _ _ hsp]
      have : q :: (s ++ q :: (ws ++ '#' :: comment)) = (q :: (s ++ q :: ws)) ++ '#' :: comment := by
        simp
      rw [this, rdropWhile_append_cons_neg isSpace _ _ _ hsh]
      simp
    have hne : TrimSpace (K ++ '=' :: q :: (s ++ q :: (ws ++ '#' :: comment))) ≠ [] := by
      rw [ht]; simp
    have hhash :
        (TrimSpace (K ++ '=' :: q :: (s ++ q :: (ws ++ '#' :: comment)))).head? ≠ some '#' := by
      rw [ht]
      have := hhead (q :: (s ++ [q]) ++ ws ++ '#' :: comment.rdropWhile isSpace)
      simpa using this
    have hrc : removeComment (TrimSpace (K ++ '=' :: q :: (s ++ q :: (ws ++ '#' :: comment)))) =
        K.dropWhile isSpace ++ '=' :: (q :: (s ++ [q])) := by
      rw [ht, removeComment_at _ _ hbal1, TrimSpace_append_spaces _ ws hws, hshape0,
        TrimSpace_append_cons _ _ _ hsp, dropWhile_idem]
      have h2 := hval
      unfold TrimSpace at h2
      have hq' : ¬ isSpace q = true := by simp [hqs]
      rw [List.dropWhile_cons_of_neg hq'] at h2
      rw [h2]
    rw [processLine_core _ _ _ os hne hhash hrc hk, TrimSpace_dropWhile, hval,
      unquote_wrapped q s hq]

/-! ## Lemmas on `wrapped` -/

theorem wrapped_shape (value : Str) (h : wrapped value) :
    ∃ q s, (q = dquote ∨ q = squote) ∧ value = q :: (s ++ [q]) := by
  obtain ⟨hlen, hq⟩ := h
  cases value with
  | nil => simp at hlen
  | cons x rest =>
    have hrest : rest ≠ [] := by
      intro e
      rw [e] at hlen
      simp at hlen
    have hlast : (x :: rest).getLast? = rest.getLast? := by
      cases rest with
      | nil => exact absurd rfl hrest
      | cons y ys => simp [List.getLast?_cons_cons]
    have hsplit : rest = rest.dropLast ++ [rest.getLast hrest] :=
      (List.dropLast_append_getLast hrest).symm
    have hl2 : rest.getLast? = some (rest.getLast hrest) := List.getLast?_eq_getLast _ hrest
    rcases hq with ⟨h1, h2⟩ | ⟨h1, h2⟩
    · refine ⟨dquote, rest.dropLast, Or.inl rfl, ?_⟩
      simp only [List.head?_cons, Option.some.injEq] at h1
      rw [hlast, hl2, Option.some.injEq] at h2
      rw [h1]
      rw [h2] at hsplit
      rw [← hsplit]
    · refine ⟨squote, rest.dropLast, Or.inr rfl, ?_⟩
      simp only [List.head?_cons, Option.some.injEq] at h1
      rw [hlast, hl2, Option.some.injEq] at h2
      rw [h1]
      rw [h2] at hsplit
      rw [← hsplit]

theorem wrapped_of_shape (q : Char) (s : Str) (hq : q = dquote ∨ q = squote) :
    wrapped (q :: (s ++ [q])) := by
  have hlast : (q :: (s ++ [q])).getLast? = some q := by
    rw [← List.cons_append, List.getLast?_concat]
  refine ⟨by simp, ?_⟩
  rw [hlast]
  rcases hq with h | h
  · left; simp [h]
  · right; simp [h]

theorem unquote_not_wrapped (value : Str) (h : ¬ wrapped value) : unquote value = value := by
  unfold unquote
  rw [if_neg]
  rintro ⟨hlen, hq⟩
  apply h
  refine ⟨?_, hq⟩
  by_contra hshort
  have hq1 : dquote.utf8Size = 1 := by decide
  have hq2 : squote.utf8Size = 1 := by decide
  cases value with
  | nil => simp [len] at hlen
  | cons x rest =>
    cases rest with
    | nil =>
      rcases hq with ⟨h1, _⟩ | ⟨h1, _⟩
      · simp only [List.head?_cons, Option.some.injEq] at h1
        rw [h1] at hlen
        simp [len, hq1] at hlen
      · simp only [List.head?_cons, Option.some.injEq] at h1
        rw [h1] at hlen
        simp [len, hq2] at hlen
    | cons y ys => simp at hshort

theorem unquote_length_of_wrapped (value : Str) (h : wrapped value) :
    (unquote value).length + 2 = value.length := by
  obtain ⟨q, s, hq, hv⟩ := wrapped_shape value h
  rw [hv, unquote_wrapped q s hq]
  simp

/-! ## Lemmas on the scanner loop and on the table -/

theorem rawLines_ne_nil (c : Char) (s : Str) : rawLines (c :: s) ≠ [] := by
  rw [rawLines]
  split
  · simp
  · split <;> simp

theorem rawLines_line (line post : Str) (h : lf ∉ line) :
    rawLines (line ++ lf :: post) = line :: rawLines post := by
  induction line with
  | nil => simp [rawLines]
  | cons c l ih =>
    have hc : c ≠ lf := fun e => h (e ▸ List.mem_cons_self _ _)
    have hl : lf ∉ l := fun hm => h (List.mem_cons_of_mem _ hm)
    rw [List.cons_append, rawLines, if_neg hc, ih hl]

theorem rawLines_no_lf (c : Char) (s : Str) (h : lf ∉ c :: s) : rawLines (c :: s) = [c :: s] := by
  induction s generalizing c with
  | nil =>
    have hc : c ≠ lf := fun e => h (e ▸ List.mem_cons_self _ _)
    simp [rawLines, hc]
  | cons d l ih =>
    have hc : c ≠ lf := fun e => h (e ▸ List.mem_cons_self _ _)
    have hl : lf ∉ d :: l := fun hm => h (List.mem_cons_of_mem _ hm)
    rw [rawLines, if_neg hc, ih d hl]

theorem rawLines_terminated (p rest : Str) :
    rawLines (p ++ lf :: rest) = rawLines (p ++ [lf]) ++ rawLines rest := by
  induction p with
  | nil => simp [rawLines]
  | cons c l ih =>
    by_cases hc : c = lf
    · rw [List.cons_append, List.cons_append, rawLines, if_pos hc, rawLines, if_pos hc, ih]
      rfl
    · rw [List.cons_append, List.cons_append, rawLines, if_neg hc, ih]
      have hne : rawLines (l ++ [lf]) ≠ [] := by
        cases l with
        | nil => simp [rawLines]
        | cons d l' => exact rawLines_ne_nil d _
      rw [rawLines.eq_2 c (l ++ [lf]), if_neg hc]
      cases hr : rawLines (l ++ [lf]) with
      | nil => exact absurd hr hne
      | cons x xs => rfl

theorem scanLoop_append (xs ys : List Str) (os : OS) :
    scanLoop (xs ++ ys) os =
      if (scanLoop xs os).2 = true then scanLoop xs os else scanLoop ys (scanLoop xs os).1 := by
  induction xs generalizing os with
  | nil => simp [scanLoop]
  | cons x rest ih =>
    rw [List.cons_append, scanLoop, scanLoop]
    by_cases hx : MaxScanTokenSize ≤ len x
    · simp [hx]
    · simp only [hx, if_false]
      exact ih _

theorem scanLoop_short (lines : List Str) (os : OS)
    (h : ∀ raw ∈ lines, len raw < MaxScanTokenSize) : (scanLoop lines os).2 = false := by
  induction lines generalizing os with
  | nil => rfl
  | cons x rest ih =>
    have hx : ¬ MaxScanTokenSize ≤ len x := by
      have := h x (List.mem_cons_self _ _)
      omega
    rw [scanLoop, if_neg hx]
    exact ih _ (fun raw hr => h raw (List.mem_cons_of_mem _ hr))

theorem TrimSpace_dropCR (s : Str) : TrimSpace (dropCR s) = TrimSpace s := by
  unfold dropCR
  by_cases h : s.getLast? = some cr
  · rw [if_pos h]
    have hs : s = s.dropLast ++ [cr] := (List.dropLast_append_getLast? cr h).symm
    have hcr : ∀ c ∈ [cr], isSpace c = true := by
      intro c hc
      rw [List.mem_singleton.mp hc]
      decide
    conv_rhs => rw [hs]
    rw [TrimSpace_append_spaces _ _ hcr]
  · rw [if_neg h]

theorem processLine_skipped (text : Str) (os : OS) (h : skippedLine text) :
    processLine text os = os := by
  unfold processLine
  by_cases h1 : TrimSpace text = [] ∨ (TrimSpace text).head? = some '#'
  · simp only [h1, if_true]
  · simp only [h1, if_false]
    by_cases h2 : removeComment (TrimSpace text) = []
    · simp only [h2, if_true]
    · simp only [h2, if_false]
      have h3 : '=' ∉ removeComment (TrimSpace text) := by
        rcases h with h | h | h | h
        · exact absurd (Or.inl h) h1
        · exact absurd (Or.inr h) h1
        · exact absurd h h2
        · exact h
      rw [SplitN2_no_eq _ h3]

theorem skippedLine_dropCR (text : Str) (h : skippedLine text) : skippedLine (dropCR text) := by
  unfold skippedLine
  rw [TrimSpace_dropCR]
  exact h

theorem scanLoop_skip (before after : List Str) (line : Str) (os : OS)
    (h : skippedLine line) (hshort : len line < MaxScanTokenSize) :
    scanLoop (before ++ line :: after) os = scanLoop (before ++ after) os := by
  have hx : ¬ MaxScanTokenSize ≤ len line := by omega
  rw [scanLoop_append, scanLoop_append before after, scanLoop, if_neg hx,
    processLine_skipped _ _ (skippedLine_dropCR line h)]

theorem lastAccepted_append (em₁ em₂ : List (Str × Str)) (k : Str) :
    lastAccepted (em₁ ++ em₂) k = (lastAccepted em₂ k).orElse fun _ => lastAccepted em₁ k := by
  unfold lastAccepted
  rw [List.reverse_append, List.find?_append]
  cases List.find? (fun p => decide (p.1 = k) && setenvOk p.1 p.2) em₂.reverse <;> rfl

theorem tableAfter_nil (env : Env) : tableAfter env [] = env := by
  funext k
  simp [tableAfter, lastAccepted]

theorem tableAfter_append (env : Env) (em₁ em₂ : List (Str × Str)) :
    tableAfter (tableAfter env em₁) em₂ = tableAfter env (em₁ ++ em₂) := by
  funext k
  unfold tableAfter
  rw [lastAccepted_append]
  cases lastAccepted em₂ k <;> rfl

theorem Extends_refl (os : OS) : Extends os os [] :=
  ⟨by simp, (tableAfter_nil os.env).symm⟩

theorem Extends_trans (os₁ os₂ os₃ : OS) (em₁ em₂ : List (Str × Str))
    (h₁ : Extends os₁ os₂ em₁) (h₂ : Extends os₂ os₃ em₂) : Extends os₁ os₃ (em₁ ++ em₂) := by
  refine ⟨?_, ?_⟩
  · rw [h₂.1, h₁.1, List.append_assoc]
  · rw [h₂.2, h₁.2, tableAfter_append]

theorem Extends_Setenv (key value : Str) (os : OS) :
    Extends os (Setenv key value os) [(key, value)] := by
  refine ⟨rfl, ?_⟩
  funext k
  unfold Setenv tableAfter lastAccepted
  by_cases hok : setenvOk key value = true
  · by_cases hk : k = key
    · simp [hok, hk]
    · have hk' : ¬ key = k := fun e => hk e.symm
      simp [hok, hk, hk']
  · simp [hok]

theorem Extends_processLine (text : Str) (os : OS) :
    ∃ em, Extends os (processLine text os) em := by
  unfold processLine
  simp only
  split
  · exact ⟨[], Extends_refl os⟩
  · split
    · exact ⟨[], Extends_refl os⟩
    · split
      · exact ⟨_, Extends_Setenv _ _ os⟩
      · exact ⟨[], Extends_refl os⟩

theorem Extends_scanLoop (lines : List Str) (os : OS) :
    ∃ em, Extends os (scanLoop lines os).1 em := by
  induction lines generalizing os with
  | nil => exact ⟨[], Extends_refl os⟩
  | cons x rest ih =>
    rw [scanLoop]
    split
    · exact ⟨[], Extends_refl os⟩
    · obtain ⟨em₁, h₁⟩ := Extends_processLine (dropCR x) os
      obtain ⟨em₂, h₂⟩ := ih (processLine (dropCR x) os)
      exact ⟨em₁ ++ em₂, Extends_trans _ _ _ _ _ h₁ h₂⟩

theorem Extends_loadKeyValueFile (fs : FS) (filename : Str) (os : OS) :
    ∃ em, Extends os (loadKeyValueFile fs filename os).1 em := by
  unfold loadKeyValueFile
  split
  · exact ⟨[], Extends_refl os⟩
  · exact Extends_scanLoop _ os

theorem loadKeyValueFile_of_open (fs : FS) (filename : Str) (file : File) (os : OS)
    (h : osOpen fs filename = some file) :
    loadKeyValueFile fs filename os =
      ((scanLoop (rawLines file.content) os).1,
        if (scanLoop (rawLines file.content) os).2 = true then some Err.tokenTooLong
        else if file.readFails = true then some Err.readFailed else none) := by
  unfold loadKeyValueFile
  rw [h]

theorem LoadEnvWithFormat_keyValue_single (dec : Decoders) (fs : FS) (filename : Str) (os : OS)
    (hne : filename ≠ []) :
    LoadEnvWithFormat dec fs FormatKeyValue [filename] os =
      if (loadKeyValueFile fs filename os).2 = none then ((loadKeyValueFile fs filename os).1, none)
      else ((loadKeyValueFile fs filename os).1, some Err.noFileLoaded) := by
  have h1 : ¬ (FormatKeyValue = FormatAuto) := by decide
  rw [LoadEnvWithFormat]
  simp only [hne, if_false, h1, if_true]
  split <;> rfl

/-! ## The claims on the key-value line scanner -/

/-- C1, as amended.  A `#` inside a quoted value does not start a comment: for a
key `K` without quote, `#` or `=`, a quote character `q` and a text `s` without
`q`, the line `K=q s q`, followed by white space `ws` alone or by `ws` and a
comment `# …`, makes exactly one `os.Setenv` call, with the trimmed key and `s`
(whatever `#` characters `s` holds). -/
theorem quoted_hash_is_no_comment (K s ws comment : Str) (q : Char) (os : OS)
    (hK : ∀ c ∈ K, c ≠ dquote ∧ c ≠ squote ∧ c ≠ '#' ∧ c ≠ '=')
    (hq : q = dquote ∨ q = squote) (hs : q ∉ s) (hws : ∀ c ∈ ws, isSpace c = true) :
    processLine (K ++ '=' :: q :: (s ++ q :: ws)) os = Setenv (TrimSpace K) s os ∧
      processLine (K ++ '=' :: q :: (s ++ q :: (ws ++ '#' :: comment))) os =
        Setenv (TrimSpace K) s os ∧
      (processLine (K ++ '=' :: q :: (s ++ q :: (ws ++ '#' :: comment))) os).calls =
        os.calls ++ [(TrimSpace K, s)] := by
  have hKeq : '=' ∉ K := fun h => (hK _ h).2.2.2 rfl
  have hKp : ∀ c ∈ K, c ≠ '#' ∧ c ≠ dquote ∧ c ≠ squote :=
    fun c hc => ⟨(hK c hc).2.2.1, (hK c hc).1, (hK c hc).2.1⟩
  have h := processLine_quoted K s ws q os hKeq hKp hq hs hws
  refine ⟨h.1, h.2 comment, ?_⟩
  rw [h.2 comment]
  rfl

/-- C1, witness: the line `HASH_IN_QUOTES="test#value"  # c` of the tests. -/
theorem quoted_hash_is_no_comment_witness :
    processLine ("HASH_IN_QUOTES".toList ++ '=' :: dquote ::
        ("test#value".toList ++ dquote :: ("  ".toList ++ '#' :: " c".toList))) os0 =
      Setenv "HASH_IN_QUOTES".toList "test#value".toList os0 :=
  (quoted_hash_is_no_comment "HASH_IN_QUOTES".toList "test#value".toList "  ".toList
    " c".toList dquote os0 (by decide) (Or.inl rfl) (by decide) (by decide)).2.1

/-- C1, as stated, fails: the key ` A` (with a leading blank) has no quote, `#`
or `=`, and the line ` A="x"` emits the pair with key `A`, not ` A`. -/
theorem quoted_key_is_trimmed :
    (∀ c ∈ " A".toList, c ≠ dquote ∧ c ≠ squote ∧ c ≠ '#' ∧ c ≠ '=') ∧
      (processLine (" A".toList ++ '=' :: dquote :: ("x".toList ++ [dquote])) os0).calls =
        [("A".toList, "x".toList)] ∧
      (processLine (" A".toList ++ '=' :: dquote :: ("x".toList ++ [dquote])) os0).calls ≠
        [(" A".toList, "x".toList)] := by
  decide

/-- C2, as amended.  An inline comment after an unquoted value is removed: for
`K` and `v` without quote and `#`, `K` without `=`, the line `K=v` followed by
white space, `#` and any comment text makes exactly one `os.Setenv` call, with
the trimmed key and the trimmed `v`; nothing of the comment reaches the value. -/
theorem inline_comment_removed (K v ws comment : Str) (os : OS)
    (hK : ∀ c ∈ K, c ≠ dquote ∧ c ≠ squote ∧ c ≠ '#' ∧ c ≠ '=')
    (hv : ∀ c ∈ v, c ≠ dquote ∧ c ≠ squote ∧ c ≠ '#')
    (hws : ∀ c ∈ ws, isSpace c = true) :
    processLine (K ++ '=' :: (v ++ ws ++ '#' :: comment)) os =
        Setenv (TrimSpace K) (TrimSpace v) os ∧
      (processLine (K ++ '=' :: (v ++ ws ++ '#' :: comment)) os).calls =
        os.calls ++ [(TrimSpace K, TrimSpace v)] := by
  have hKeq : '=' ∉ K := fun h => (hK _ h).2.2.2 rfl
  have hKp : ∀ c ∈ K, c ≠ '#' ∧ c ≠ dquote ∧ c ≠ squote :=
    fun c hc => ⟨(hK c hc).2.2.1, (hK c hc).1, (hK c hc).2.1⟩
  have hvp : ∀ c ∈ v, c ≠ '#' ∧ c ≠ dquote ∧ c ≠ squote :=
    fun c hc => ⟨(hv c hc).2.2, (hv c hc).1, (hv c hc).2.1⟩
  have h := processLine_comment K v ws comment os hKeq hKp hvp hws
  refine ⟨h, ?_⟩
  rw [h]
  rfl

/-- C2, witness: the line `CONNECTION=MYSQL  #Mysql, Postgres, Etc` of the tests. -/
theorem inline_comment_removed_witness :
    processLine ("CONNECTION".toList ++ '=' ::
        ("MYSQL".toList ++ "  ".toList ++ '#' :: "Mysql, Postgres, Etc".toList)) os0 =
      Setenv (TrimSpace "CONNECTION".toList) (TrimSpace "MYSQL".toList) os0 :=
  (inline_comment_removed "CONNECTION".toList "MYSQL".toList "  ".toList
    "Mysql, Postgres, Etc".toList os0 (by decide) (by decide) (by decide)).1

/-- C2, as stated, fails: the key `A ` (with a final blank) has no quote, `#` or
`=`, and the line `A =v # c` emits the pair with key `A`, not `A `. -/
theorem commented_key_is_trimmed :
    (∀ c ∈ "A ".toList, c ≠ dquote ∧ c ≠ squote ∧ c ≠ '#' ∧ c ≠ '=') ∧
      (processLine ("A ".toList ++ '=' :: ("v".toList ++ " ".toList ++ '#' :: " c".toList))
          os0).calls = [("A".toList, "v".toList)] ∧
      (processLine ("A ".toList ++ '=' :: ("v".toList ++ " ".toList ++ '#' :: " c".toList))
          os0).calls ≠ [("A ".toList, TrimSpace "v".toList)] := by
  decide

/-- C3.  A line with an `=`, no quote and no `#` makes exactly one `os.Setenv`
call: the key is the trimmed text before the first `=`, the value the trimmed
text after it, further `=` included. -/
theorem plain_line_emits_trimmed_sides (line : Str) (os : OS) (heq : '=' ∈ line)
    (hplain : ∀ c ∈ line, c ≠ dquote ∧ c ≠ squote ∧ c ≠ '#') :
    processLine line os =
        Setenv (TrimSpace (line.takeWhile (· != '=')))
          (TrimSpace ((line.dropWhile (· != '=')).drop 1)) os ∧
      (processLine line os).calls =
        os.calls ++ [(TrimSpace (line.takeWhile (· != '=')),
          TrimSpace ((line.dropWhile (· != '=')).drop 1))] := by
  obtain ⟨hsplit, hno⟩ := split_at_first_eq line heq
  have hp : ∀ c ∈ line.takeWhile (· != '=') ++ '=' :: (line.dropWhile (· != '=')).drop 1,
      c ≠ '#' ∧ c ≠ dquote ∧ c ≠ squote := by
    rw [← hsplit]
    exact fun c hc => ⟨(hplain c hc).2.2, (hplain c hc).1, (hplain c hc).2.1⟩
  have h := processLine_plain _ _ os hno hp
  rw [← hsplit] at h
  refine ⟨h, ?_⟩
  rw [h]
  rfl

/-- C3, witness: the lines `INVALID_LINE=value=extra=equals` and `EMPTY_VALUE=`
of the tests. -/
theorem plain_line_emits_trimmed_sides_witness :
    (processLine "INVALID_LINE=value=extra=equals".toList os0).calls =
        [("INVALID_LINE".toList, "value=extra=equals".toList)] ∧
      (processLine "EMPTY_VALUE=".toList os0).calls = [("EMPTY_VALUE".toList, [])] := by
  constructor
  · have h := (plain_line_emits_trimmed_sides "INVALID_LINE=value=extra=equals".toList os0
      (by decide) (by decide)).2
    rw [h]
    decide
  · have h := (plain_line_emits_trimmed_sides "EMPTY_VALUE=".toList os0
      (by decide) (by decide)).2
    rw [h]
    decide

/-- C4.  The unquoting step strips one leading and one trailing character
exactly when the value has length at least 2 and its first and last characters
are the same quote: then the value is `q s q` and the result is `s`, the
interior as it was; in every other case the value is unchanged.  The length may
be counted in bytes (as the source does) or in characters. -/
theorem unquote_strips_matching_pair (value : Str) :
    (wrapped value →
      unquote value = (value.drop 1).dropLast ∧ (unquote value).length + 2 = value.length ∧
        ∃ q, (q = dquote ∨ q = squote) ∧ value = q :: (unquote value ++ [q])) ∧
    (¬ wrapped value → unquote value = value) ∧
    (wrapped value ↔ 2 ≤ len value ∧
      ((value.head? = some dquote ∧ value.getLast? = some dquote) ∨
        (value.head? = some squote ∧ value.getLast? = some squote))) := by
  refine ⟨?_, unquote_not_wrapped value, ?_⟩
  · intro h
    obtain ⟨q, s, hq, hv⟩ := wrapped_shape value h
    have hu : unquote value = s := by rw [hv]; exact unquote_wrapped q s hq
    refine ⟨?_, ?_, q, hq, ?_⟩
    · rw [hu, hv]; simp
    · rw [hu, hv]; simp
    · rw [hu]; exact hv
  · constructor
    · intro h
      exact ⟨le_trans h.1 (length_le_len value), h.2⟩
    · intro h
      by_contra hw
      have hu := unquote_not_wrapped value hw
      have hlen : value.length < 2 := by
        by_contra hge
        exact hw ⟨by omega, h.2⟩
      unfold unquote at hu
      rw [if_pos h] at hu
      have hl : ((value.drop 1).dropLast).length = value.length := by rw [hu]
      simp only [List.length_dropLast, List.length_drop] at hl
      have hpos : 0 < value.length := by
        cases value with
        | nil => simp [len] at h
        | cons x xs => simp
      omega

/-- C5, as amended.  The unquoting step removes one layer of quotes: applying it
to its own result changes nothing exactly when that result is not itself
enclosed in a matching pair of quotes. -/
theorem unquote_idempotent_iff (value : Str) :
    unquote (unquote value) = unquote value ↔ ¬ wrapped (unquote value) := by
  constructor
  · intro h hw
    have hlen := unquote_length_of_wrapped (unquote value) hw
    rw [h] at hlen
    omega
  · exact unquote_not_wrapped (unquote value)

/-- C5, as stated, fails: the raw value `""a""` is unquoted to `"a"`, and that
to `a`. -/
theorem unquote_not_idempotent :
    unquote [dquote, dquote, 'a', dquote, dquote] = [dquote, 'a', dquote] ∧
      unquote (unquote [dquote, dquote, 'a', dquote, dquote]) = ['a'] ∧
      unquote (unquote [dquote, dquote, 'a', dquote, dquote]) ≠
        unquote [dquote, dquote, 'a', dquote, dquote] := by
  decide

/-- C6, as amended.  A skipped line that fits the scanner buffer has no effect.
For a line that after trimming is empty, or starts with `#`, or is empty after
the comment removal, or has no `=` after it: the loop body makes no
`os.Setenv` call and leaves the table as it was.  When the line is shorter
than the scanner buffer (`MaxScanTokenSize` bytes): the loop goes on with the
lines after it as if the line were not there; a file with that line gives the
same table and the same result as the file without it; and a file of that line
alone loads with success. -/
theorem skipped_line_has_no_effect (line : Str) (os : OS) (h : skippedLine line) :
    processLine line os = os ∧ processLine (dropCR line) os = os ∧
      (processLine line os).calls = os.calls ∧ (processLine line os).env = os.env ∧
      (len line < MaxScanTokenSize →
        (∀ (before after : List Str),
          scanLoop (before ++ line :: after) os = scanLoop (before ++ after) os) ∧
        (∀ (fs₁ fs₂ : FS) (filename pre post : Str) (readFails : Bool),
          (pre = [] ∨ ∃ p, pre = p ++ [lf]) → lf ∉ line →
          osOpen fs₁ filename = some ⟨pre ++ (line ++ lf :: post), readFails⟩ →
          osOpen fs₂ filename = some ⟨pre ++ post, readFails⟩ →
          loadKeyValueFile fs₁ filename os = loadKeyValueFile fs₂ filename os) ∧
        (∀ (fs : FS) (filename : Str), lf ∉ line →
          osOpen fs filename = some ⟨line ++ [lf], false⟩ →
          loadKeyValueFile fs filename os = (os, none))) := by
  have hp := processLine_skipped line os h
  refine ⟨hp, processLine_skipped _ os (skippedLine_dropCR line h), by rw [hp], by rw [hp], ?_⟩
  intro hshort
  refine ⟨fun before after => scanLoop_skip before after line os h hshort, ?_, ?_⟩
  · intro fs₁ fs₂ filename pre post readFails hpre hlf h₁ h₂
    rw [loadKeyValueFile_of_open fs₁ filename _ os h₁,
      loadKeyValueFile_of_open fs₂ filename _ os h₂]
    have hlines : ∃ before, rawLines (pre ++ (line ++ lf :: post)) =
        before ++ line :: rawLines post ∧ rawLines (pre ++ post) = before ++ rawLines post := by
      rcases hpre with hp | ⟨p, hp⟩
      · refine ⟨[], ?_, ?_⟩
        · rw [hp, List.nil_append, rawLines_line line post hlf]
          rfl
        · rw [hp]; rfl
      · refine ⟨rawLines (p ++ [lf]), ?_, ?_⟩
        · rw [hp, List.append_assoc, List.singleton_append, rawLines_terminated,
            rawLines_line line post hlf]
        · rw [hp, List.append_assoc, List.singleton_append, rawLines_terminated]
    obtain ⟨before, hb₁, hb₂⟩ := hlines
    simp only [hb₁, hb₂, scanLoop_skip before (rawLines post) line os h hshort]
  · intro fs filename hlf hopen
    rw [loadKeyValueFile_of_open fs filename _ os hopen]
    have hl : rawLines (line ++ [lf]) = [line] := by
      rw [rawLines_line line [] hlf]
      rfl
    have hx : ¬ MaxScanTokenSize ≤ len line := by omega
    simp only [hl, scanLoop, if_neg hx, processLine_skipped _ os (skippedLine_dropCR line h)]
    rfl

/-- C6, witness: the line `no equals sign here # note`, which has no `=`, alone
and between two lines that set keys. -/
theorem skipped_line_has_no_effect_witness :
    skippedLine "no equals sign here # note".toList ∧
      len "no equals sign here # note".toList < MaxScanTokenSize ∧
      processLine "no equals sign here # note".toList os0 = os0 ∧
      scanLoop ["A=1".toList, "no equals sign here # note".toList, "B=2".toList] os0 =
        scanLoop ["A=1".toList, "B=2".toList] os0 :=
  ⟨by decide, by decide,
    (skipped_line_has_no_effect "no equals sign here # note".toList os0 (by decide)).1,
    ((skipped_line_has_no_effect "no equals sign here # note".toList os0 (by decide)).2.2.2.2
      (by decide)).1 ["A=1".toList] ["B=2".toList]⟩

/-- C6, as stated, fails: the comment line `longComment` is a skipped line, but
it does not fit the scanner buffer.  The scanner stops at it with its
token-too-long error: the load of the file `c.env` fails, and the line `A=1`
after it is never read, while a file of the line `A=1` alone sets `A`. -/
theorem long_comment_line_stops_the_load :
    skippedLine longComment ∧
      scanLoop [longComment, "A=1".toList] os0 = (os0, true) ∧
      (scanLoop ["A=1".toList] os0).2 = false ∧
      (scanLoop ["A=1".toList] os0).1.env "A".toList = some "1".toList ∧
      loadKeyValueFile longCommentFS "c.env".toList os0 = (os0, some Err.tokenTooLong) := by
  have hskip : skippedLine longComment := by
    refine Or.inr (Or.inl ?_)
    have ht := TrimSpace_append_cons [] (List.replicate (MaxScanTokenSize - 1) 'a') '#'
      (by decide)
    have he : longComment = [] ++ '#' :: List.replicate (MaxScanTokenSize - 1) 'a' := rfl
    rw [he, ht]
    rfl
  have hlen : MaxScanTokenSize ≤ len longComment := by
    have h1 := length_le_len longComment
    have h2 : longComment.length = MaxScanTokenSize - 1 + 1 := by
      unfold longComment
      rw [List.length_cons, List.length_replicate]
    have h3 : MaxScanTokenSize - 1 + 1 = MaxScanTokenSize := by decide
    omega
  have hscan : scanLoop [longComment, "A=1".toList] os0 = (os0, true) := by
    rw [scanLoop, if_pos hlen]
  have hlf : lf ∉ longComment := by
    intro hm
    rcases List.mem_cons.mp hm with e | e
    · revert e
      decide
    · have := List.eq_of_mem_replicate e
      revert this
      decide
  have hopen : osOpen longCommentFS "c.env".toList =
      some { content := longComment ++ lf :: "A=1".toList, readFails := false } := rfl
  have hlines : rawLines (longComment ++ lf :: "A=1".toList) =
      [longComment, "A=1".toList] := by
    rw [rawLines_line _ _ hlf]
    rfl
  refine ⟨hskip, hscan, by decide, by decide, ?_⟩
  rw [loadKeyValueFile_of_open longCommentFS _ _ os0 hopen, hlines, hscan]
  rfl

/-- C7, as amended.  For a file that can be opened and read and whose lines are
all shorter than the scanner buffer (`MaxScanTokenSize` bytes), whatever the
lines are, `loadKeyValueFile` returns no error, and so does
`LoadEnvWithFormat(FormatKeyValue, path)`. -/
theorem keyvalue_load_never_fails_on_short_lines (dec : Decoders) (fs : FS)
    (filename : Str) (file : File) (os : OS)
    (hopen : osOpen fs filename = some file) (hread : file.readFails = false)
    (hshort : ∀ raw ∈ rawLines file.content, len raw < MaxScanTokenSize) :
    (loadKeyValueFile fs filename os).2 = none ∧
      (LoadEnvWithFormat dec fs FormatKeyValue [filename] os).2 = none := by
  have hne : filename ≠ [] := by
    intro e
    rw [e] at hopen
    simp [osOpen] at hopen
  have h1 : (loadKeyValueFile fs filename os).2 = none := by
    rw [loadKeyValueFile_of_open fs filename file os hopen]
    simp only [scanLoop_short _ os hshort, hread, Bool.false_eq_true, if_false]
  refine ⟨h1, ?_⟩
  rw [LoadEnvWithFormat_keyValue_single dec fs filename os hne, if_pos h1]

/-- C7, witness: a file with lines that are no pairs, a line of JSON and a line
with an open quote loads without error. -/
theorem keyvalue_load_never_fails_on_short_lines_witness :
    (loadKeyValueFile oddLinesFS "a.env".toList os0).2 = none ∧
      (LoadEnvWithFormat noDecoders oddLinesFS FormatKeyValue ["a.env".toList] os0).2 = none :=
  keyvalue_load_never_fails_on_short_lines noDecoders oddLinesFS "a.env".toList
    { content := "not a pair\n\x7b\"a\": [1, 2]\x7d\nA='x\n# end".toList, readFails := false }
    os0 rfl rfl (by decide)

/-- C7, as stated, fails: the file `long.env` can be opened and read, its one
line has `MaxScanTokenSize` bytes, and `loadKeyValueFile` returns the
token-too-long error of the scanner, so `LoadEnvWithFormat` fails too. -/
theorem keyvalue_load_fails_on_long_line :
    osOpen longFS "long.env".toList = some longLine ∧ longLine.readFails = false ∧
      (loadKeyValueFile longFS "long.env".toList os0).2 = some Err.tokenTooLong ∧
      (LoadEnvWithFormat noDecoders longFS FormatKeyValue ["long.env".toList] os0).2 =
        some Err.noFileLoaded := by
  have hopen : osOpen longFS "long.env".toList = some longLine := rfl
  have hpos : MaxScanTokenSize = (MaxScanTokenSize - 1) + 1 := by decide
  have hlines : rawLines longLine.content = [longLine.content] := by
    have hmem : lf ∉ longLine.content := by
      intro hm
      have := List.eq_of_mem_replicate hm
      revert this
      decide
    have hc : longLine.content = 'a' :: List.replicate (MaxScanTokenSize - 1) 'a' := by
      show List.replicate MaxScanTokenSize 'a' = _
      rw [← List.replicate_succ, ← hpos]
    rw [hc] at hmem ⊢
    exact rawLines_no_lf _ _ hmem
  have hlen : MaxScanTokenSize ≤ len longLine.content := by
    have := length_le_len longLine.content
    have hl : longLine.content.length = MaxScanTokenSize := List.length_replicate _ _
    omega
  have hload : (loadKeyValueFile longFS "long.env".toList os0).2 = some Err.tokenTooLong := by
    rw [loadKeyValueFile_of_open longFS _ longLine os0 hopen, hlines, scanLoop, if_pos hlen]
    rfl
  refine ⟨hopen, rfl, hload, ?_⟩
  rw [LoadEnvWithFormat_keyValue_single noDecoders longFS _ os0 (by decide), if_neg]
  rw [hload]
  simp

/-- C8, as stated, fails: the file with the one line `=x` emits the pair with the
empty key and the value `x`, which `os.Setenv` refuses; the table does not bind
the empty key to `x`. -/
theorem empty_key_is_emitted_not_stored :
    (loadKeyValueFile emptyKeyFS "a.env".toList os0).1.calls = [([], "x".toList)] ∧
      (loadKeyValueFile emptyKeyFS "a.env".toList os0).2 = none ∧
      (loadKeyValueFile emptyKeyFS "a.env".toList os0).1.env [] ≠ some "x".toList := by
  decide

/-! ## Lemmas on the flattener -/

theorem dotJoin_snoc (path : List Str) (key : Str) (h : ∀ k ∈ path, k ≠ []) :
    envKeyOf (dotJoin path) key = dotJoin (path ++ [key]) := by
  induction path with
  | nil => simp [envKeyOf, dotJoin]
  | cons k rest ih =>
    have hk : k ≠ [] := h k (List.mem_cons_self _ _)
    have hrest : ∀ k ∈ rest, k ≠ [] := fun x hx => h x (List.mem_cons_of_mem _ hx)
    cases rest with
    | nil => simp [envKeyOf, dotJoin, hk]
    | cons k' rest' =>
      have ih' := ih hrest
      have hne : dotJoin (k :: k' :: rest') ≠ [] := by
        rw [dotJoin]
        cases k with
        | nil => exact absurd rfl hk
        | cons c cs => simp
      have hne' : dotJoin (k' :: rest') ≠ [] := by
        have hk' : k' ≠ [] := hrest k' (List.mem_cons_self _ _)
        cases rest' with
        | nil => simpa [dotJoin] using hk'
        | cons k'' r =>
          rw [dotJoin]
          cases k' with
          | nil => exact absurd rfl hk'
          | cons c cs => simp
      unfold envKeyOf at ih' ⊢
      rw [if_pos hne]
      rw [if_pos hne'] at ih'
      rw [List.cons_append, List.cons_append, dotJoin, dotJoin, List.append_assoc]
      rw [List.cons_append] at ih'
      rw [← ih']
      simp

mutual
theorem flattenValue_calls : ∀ (value : Value) (path : List Str) (os : OS),
    keysNonEmptyValue value = true → (∀ k ∈ path, k ≠ []) →
    (flattenValue (dotJoin path) value os).calls =
      os.calls ++ (leavesOfValue path value).filterMap leafEntry
  | .mapping entries, path, os, hv, hp => by
    rw [flattenValue, leavesOfValue]
    exact flattenAndSetEnv_calls entries path os (by simpa [keysNonEmptyValue] using hv) hp
  | .sequence elems, path, os, _, _ => by
    rw [flattenValue, leavesOfValue]
    cases h : Marshal elems <;> simp [leafEntry, leafText, h, Setenv]
  | .str s, path, os, _, _ => by
    simp [flattenValue, leavesOfValue, leafEntry, leafText, Setenv]
  | .bool b, path, os, _, _ => by
    simp [flattenValue, leavesOfValue, leafEntry, leafText, Setenv]
  | .int i, path, os, _, _ => by
    simp [flattenValue, leavesOfValue, leafEntry, leafText, Setenv]
  | .float f, path, os, _, _ => by
    simp [flattenValue, leavesOfValue, leafEntry, leafText, Setenv]
  | .null, path, os, _, _ => by
    simp [flattenValue, leavesOfValue, leafEntry, leafText, Setenv]
  | .other text json, path, os, _, _ => by
    simp [flattenValue, leavesOfValue, leafEntry, leafText, Setenv]
theorem flattenAndSetEnv_calls : ∀ (entries : List (Str × Value)) (path : List Str) (os : OS),
    keysNonEmpty entries = true → (∀ k ∈ path, k ≠ []) →
    (flattenAndSetEnv (dotJoin path) entries os).calls =
      os.calls ++ (leavesOfEntries path entries).filterMap leafEntry
  | [], path, os, _, _ => by
    simp [flattenAndSetEnv, leavesOfEntries]
  | (key, value) :: rest, path, os, he, hp => by
    have he' : key ≠ [] ∧ keysNonEmptyValue value = true ∧ keysNonEmpty rest = true := by
      simpa [keysNonEmpty, and_assoc] using he
    have hp' : ∀ k ∈ path ++ [key], k ≠ [] := by
      intro k hk
      rcases List.mem_append.mp hk with h | h
      · exact hp k h
      · rw [List.mem_singleton.mp h]; exact he'.1
    rw [flattenAndSetEnv, leavesOfEntries, dotJoin_snoc path key hp,
      flattenAndSetEnv_calls rest path _ he'.2.2 hp,
      flattenValue_calls value (path ++ [key]) os he'.2.1 hp']
    simp
end

theorem jsonFloat_isSome (f : Float64) :
    (jsonFloat f).isSome = encodableValue (.float f) := by
  cases f with
  | nan => rfl
  | inf neg => rfl
  | finite neg d dp =>
    simp only [jsonFloat, encodableValue]
    split <;> rfl

mutual
theorem jsonValue_isSome : ∀ (value : Value), (jsonValue value).isSome = encodableValue value
  | .mapping entries => by
    rw [jsonValue, encodableValue, Option.isSome_map', jsonEntries_isSome entries]
  | .sequence elems => by
    rw [jsonValue, encodableValue, Option.isSome_map', jsonElems_isSome elems]
  | .str s => by simp [jsonValue, encodableValue]
  | .bool true => by simp [jsonValue, encodableValue]
  | .bool false => by simp [jsonValue, encodableValue]
  | .int i => by simp [jsonValue, encodableValue]
  | .float f => by rw [jsonValue, jsonFloat_isSome]
  | .null => by simp [jsonValue, encodableValue]
  | .other text json => by simp [jsonValue, encodableValue]
theorem jsonElems_isSome : ∀ (elems : List Value), (jsonElems elems).isSome = encodableElems elems
  | [] => by simp [jsonElems, encodableElems]
  | v :: rest => by
    have h1 := jsonValue_isSome v
    have h2 := jsonElems_isSome rest
    rw [jsonElems, encodableElems, ← h1, ← h2]
    cases jsonValue v <;> cases jsonElems rest <;> rfl
theorem jsonEntries_isSome : ∀ (entries : List (Str × Value)),
    (jsonEntries entries).isSome = encodableEntries entries
  | [] => by simp [jsonEntries, encodableEntries]
  | (k, v) :: rest => by
    have h1 := jsonValue_isSome v
    have h2 := jsonEntries_isSome rest
    rw [jsonEntries, encodableEntries, ← h1, ← h2]
    cases jsonValue v <;> cases jsonEntries rest <;> rfl
end

theorem jsonElems_forall₂ (elems : List Value) (texts : List Str)
    (h : jsonElems elems = some texts) :
    List.Forall₂ (fun v t => jsonValue v = some t) elems texts := by
  induction elems generalizing texts with
  | nil =>
    rw [jsonElems] at h
    cases h
    exact List.Forall₂.nil
  | cons v rest ih =>
    rw [jsonElems] at h
    cases hv : jsonValue v with
    | none => rw [hv] at h; simp at h
    | some t =>
      cases hr : jsonElems rest with
      | none => rw [hv, hr] at h; simp at h
      | some ts =>
        rw [hv, hr] at h
        cases h
        exact List.Forall₂.cons hv (ih ts hr)

theorem Marshal_eq (elems : List Value) :
    Marshal elems = (jsonElems elems).map fun es => '[' :: (commaJoin es ++ [']']) := by
  unfold Marshal
  rw [jsonValue]

mutual
theorem leavesOfValue_not_mapping : ∀ (value : Value) (path : List Str) (p : List Str)
    (v : Value), (p, v) ∈ leavesOfValue path value → ∀ entries, v ≠ Value.mapping entries
  | .mapping es, path, p, v, h => by
    rw [leavesOfValue] at h
    exact leavesOfEntries_not_mapping es path p v h
  | .sequence elems, path, p, v, h => by
    simp only [leavesOfValue, List.mem_singleton, Prod.mk.injEq] at h
    intro entries e
    rw [h.2] at e
    cases e
  | .str s, path, p, v, h => by
    simp only [leavesOfValue, List.mem_singleton, Prod.mk.injEq] at h
    intro entries e
    rw [h.2] at e
    cases e
  | .bool b, path, p, v, h => by
    simp only [leavesOfValue, List.mem_singleton, Prod.mk.injEq] at h
    intro entries e
    rw [h.2] at e
    cases e
  | .int i, path, p, v, h => by
    simp only [leavesOfValue, List.mem_singleton, Prod.mk.injEq] at h
    intro entries e
    rw [h.2] at e
    cases e
  | .float f, path, p, v, h => by
    simp only [leavesOfValue, List.mem_singleton, Prod.mk.injEq] at h
    intro entries e
    rw [h.2] at e
    cases e
  | .null, path, p, v, h => by
    simp only [leavesOfValue, List.mem_singleton, Prod.mk.injEq] at h
    intro entries e
    rw [h.2] at e
    cases e
  | .other text json, path, p, v, h => by
    simp only [leavesOfValue, List.mem_singleton, Prod.mk.injEq] at h
    intro entries e
    rw [h.2] at e
    cases e
theorem leavesOfEntries_not_mapping : ∀ (es : List (Str × Value)) (path : List Str)
    (p : List Str) (v : Value), (p, v) ∈ leavesOfEntries path es →
    ∀ entries, v ≠ Value.mapping entries
  | [], path, p, v, h => by
    simp [leavesOfEntries] at h
  | (key, value) :: rest, path, p, v, h => by
    rw [leavesOfEntries] at h
    rcases List.mem_append.mp h with h | h
    · exact leavesOfValue_not_mapping value (path ++ [key]) p v h
    · exact leavesOfEntries_not_mapping rest path p v h
end

theorem leaf_not_mapping (path : List Str) (data : List (Str × Value)) (p : List Str)
    (v : Value) (h : (p, v) ∈ leavesOfEntries path data) (entries : List (Str × Value)) :
    v ≠ Value.mapping entries :=
  leavesOfEntries_not_mapping data path p v h entries

/-! ## The claims on the flattener -/

/-- C9, as amended.  For a tree whose mapping keys are all non-empty, flattened
with the empty prefix: the `os.Setenv` calls are, in order, the entries of the
leaves that have a text, each under the dot-joined keys of its path.  A leaf
is a value that is no mapping with string keys: a sequence, which has a text
when `json.Marshal` can write it, or a value of any other type, a scalar or a
mapping with a key that is no string, whose text is what `%v` prints.  A
mapping with string keys, empty or not, adds no call of its own. -/
theorem flatten_emits_one_entry_per_leaf (data : List (Str × Value)) (os : OS)
    (hkeys : keysNonEmpty data = true) :
    (flattenAndSetEnv [] data os).calls =
        os.calls ++ (leavesOfEntries [] data).filterMap leafEntry ∧
      (∀ leaf ∈ leavesOfEntries [] data, (∀ elems, leaf.2 ≠ Value.sequence elems) →
        leafEntry leaf = some (dotJoin leaf.1, Sprint leaf.2)) ∧
      (∀ leaf ∈ leavesOfEntries [] data, ∀ elems, leaf.2 = Value.sequence elems →
        leafEntry leaf = (Marshal elems).map fun text => (dotJoin leaf.1, text)) ∧
      (∀ leaf ∈ leavesOfEntries [] data, ∀ entries, leaf.2 ≠ Value.mapping entries) := by
  have hcalls := flattenAndSetEnv_calls data [] os hkeys (by simp)
  simp only [dotJoin] at hcalls
  refine ⟨hcalls, ?_, ?_, ?_⟩
  · intro leaf hleaf hseq
    obtain ⟨path, value⟩ := leaf
    cases value with
    | sequence es => exact absurd rfl (hseq es)
    | mapping es => exact absurd rfl (leaf_not_mapping [] data _ _ hleaf es)
    | str s => rfl
    | bool b => rfl
    | int i => rfl
    | float f => rfl
    | null => rfl
    | other text json => rfl
  · intro leaf _ elems hseq
    obtain ⟨path, value⟩ := leaf
    simp only at hseq
    rw [hseq]
    rfl
  · intro leaf hleaf entries
    exact leaf_not_mapping [] data leaf.1 leaf.2 hleaf entries

/-- C9, witness: `{"a":{"b":1}}` yields exactly the entry `(a.b, 1)`, and
`ports: {80: http, 443: https}` yields exactly the entry
`(ports, map[80:http 443:https])`. -/
theorem flatten_emits_one_entry_per_leaf_witness :
    keysNonEmpty nestedDoc = true ∧
      (flattenAndSetEnv [] nestedDoc os0).calls = [("a.b".toList, "1".toList)] ∧
      (flattenAndSetEnv [] portsDoc os0).calls =
        [("ports".toList, "map[80:http 443:https]".toList)] := by
  refine ⟨by decide, ?_, ?_⟩
  · rw [(flatten_emits_one_entry_per_leaf nestedDoc os0 (by decide)).1]
    decide
  · rw [(flatten_emits_one_entry_per_leaf portsDoc os0 (by decide)).1]
    decide

/-- C9, as stated, fails.  The tree `n: [.nan]` has non-empty keys and one leaf,
the sequence, and flattening it emits no entry.  And in the tree
`ports: {80: http, 443: https}` the mapping under `ports`, whose keys are
integers, gets an entry of its own, and its two leaves get none. -/
theorem flatten_entries_differ_from_leaves :
    keysNonEmpty nanDoc = true ∧ (leavesOfEntries [] nanDoc).length = 1 ∧
      (flattenAndSetEnv [] nanDoc os0).calls = [] ∧
      keysNonEmpty portsDoc = true ∧
      (flattenAndSetEnv [] portsDoc os0).calls =
        [("ports".toList, "map[80:http 443:https]".toList)] := by
  decide

/-- C10, as amended.  A sequence is a leaf.  When `json.Marshal` can write it
(no float in it, at any depth, is NaN or infinite, and no value in it, at any
depth, has a type that `encoding/json` refuses, as a mapping with a key that
is no string has), exactly one entry is emitted for it: its key with the text
`[t₁,…,tₙ]`, where `tᵢ` is the JSON text of the `i`-th element (mappings and
sequences inside included), in the order of the elements.  Otherwise
`json.Marshal` fails and no entry is emitted. -/
theorem sequence_is_one_entry (envKey : Str) (elems : List Value) (os : OS) :
    (encodableElems elems = true →
      ∃ texts : List Str,
        List.Forall₂ (fun v t => jsonValue v = some t) elems texts ∧
        flattenValue envKey (.sequence elems) os =
          Setenv envKey ('[' :: (commaJoin texts ++ [']'])) os ∧
        (flattenValue envKey (.sequence elems) os).calls =
          os.calls ++ [(envKey, '[' :: (commaJoin texts ++ [']']))]) ∧
      (encodableElems elems = false → flattenValue envKey (.sequence elems) os = os) := by
  have hsome := jsonElems_isSome elems
  constructor
  · intro hfin
    rw [hfin] at hsome
    obtain ⟨texts, ht⟩ := Option.isSome_iff_exists.mp hsome
    have hm : Marshal elems = some ('[' :: (commaJoin texts ++ [']'])) := by
      rw [Marshal_eq, ht]
      rfl
    refine ⟨texts, jsonElems_forall₂ elems texts ht, ?_, ?_⟩
    · rw [flattenValue, hm]
    · rw [flattenValue, hm]
      rfl
  · intro hfin
    rw [hfin] at hsome
    have hnone : jsonElems elems = none := by
      cases h : jsonElems elems with
      | none => rfl
      | some x => rw [h] at hsome; simp at hsome
    have hm : Marshal elems = none := by
      rw [Marshal_eq, hnone]
      rfl
    rw [flattenValue, hm]

/-- C10, witness: the sequence `["auth","logging","metrics"]` of the tests is
written as that one text under its key. -/
theorem sequence_is_one_entry_witness :
    encodableElems featuresDoc = true ∧
      (∃ texts : List Str,
        List.Forall₂ (fun v t => jsonValue v = some t) featuresDoc texts ∧
        flattenValue "features".toList (.sequence featuresDoc) os0 =
          Setenv "features".toList ('[' :: (commaJoin texts ++ [']'])) os0 ∧
        (flattenValue "features".toList (.sequence featuresDoc) os0).calls =
          os0.calls ++ [("features".toList, '[' :: (commaJoin texts ++ [']']))]) ∧
      (flattenValue "features".toList (.sequence featuresDoc) os0).calls =
        [("features".toList, "[\"auth\",\"logging\",\"metrics\"]".toList)] :=
  ⟨by decide, (sequence_is_one_entry "features".toList featuresDoc os0).1 (by decide),
    by decide⟩

/-- C10, as stated, fails: the sequence `[a, +Inf]` (YAML `[a, .inf]`) cannot be
written as JSON, and no entry is emitted for its key; nor can the sequence of
`k: [{1: a}]`, which holds a mapping with an integer key and no float. -/
theorem unencodable_sequence_emits_nothing :
    Marshal [.str "a".toList, .float (.inf false)] = none ∧
      (flattenValue "k".toList (.sequence [.str "a".toList, .float (.inf false)]) os0).calls =
        [] ∧
      (flattenAndSetEnv [] [("k".toList, .sequence [.str "a".toList, .float (.inf false)])]
        os0).calls = [] ∧
      (flattenAndSetEnv [] mapInSeqDoc os0).calls = [] := by
  decide

/-! ## Lemmas on `detectFormat` -/

theorem takeWhile_append_stop {α : Type} (p : α → Bool) (a b : List α) (c : α)
    (ha : ∀ x ∈ a, p x = true) (hc : p c = false) : (a ++ c :: b).takeWhile p = a := by
  induction a with
  | nil => simp [List.takeWhile, hc]
  | cons x xs ih =>
    have hx : p x = true := ha x (List.mem_cons_self _ _)
    rw [List.cons_append, List.takeWhile_cons, hx]
    simp only [if_true]
    rw [ih (fun y hy => ha y (List.mem_cons_of_mem _ hy))]

theorem takeWhile_all {α : Type} (p : α → Bool) (a : List α) (ha : ∀ x ∈ a, p x = true) :
    a.takeWhile p = a := by
  induction a with
  | nil => rfl
  | cons x xs ih =>
    rw [List.takeWhile_cons, ha x (List.mem_cons_self _ _)]
    simp only [if_true]
    rw [ih (fun y hy => ha y (List.mem_cons_of_mem _ hy))]

theorem Ext_of_dot (stem e : Str) (hdot : '.' ∉ e) (hsep : '/' ∉ e) :
    Ext (stem ++ '.' :: e) = '.' :: e := by
  have hrev : (stem ++ '.' :: e).reverse = (e.reverse ++ ['.']) ++ stem.reverse := by simp
  have hp : ∀ x ∈ e.reverse ++ ['.'], (x != '/') = true := by
    intro x hx
    rcases List.mem_append.mp hx with h | h
    · have hx' : x ≠ '/' := fun e' => hsep (e' ▸ List.mem_reverse.mp h)
      simp [hx']
    · rw [List.mem_singleton.mp h]
      decide
  have hlast : ∃ t, (stem ++ '.' :: e).reverse.takeWhile (· != '/') = e.reverse ++ '.' :: t := by
    rw [hrev, List.takeWhile_append_of_pos hp]
    exact ⟨stem.reverse.takeWhile (· != '/'), by simp⟩
  obtain ⟨t, ht⟩ := hlast
  unfold Ext
  simp only [ht]
  have hmem : '.' ∈ e.reverse ++ '.' :: t := by simp
  rw [if_pos hmem]
  have hq : ∀ x ∈ e.reverse, (x != '.') = true := by
    intro x hx
    have hx' : x ≠ '.' := fun e' => hdot (e' ▸ List.mem_reverse.mp hx)
    simp [hx']
  rw [takeWhile_append_stop (· != '.') e.reverse t '.' hq (by decide)]
  simp

theorem Ext_of_no_dot (dir base : Str) (hdir : dir = [] ∨ ∃ d, dir = d ++ ['/'])
    (hdot : '.' ∉ base) (hsep : '/' ∉ base) : Ext (dir ++ base) = [] := by
  have hp : ∀ x ∈ base.reverse, (x != '/') = true := by
    intro x hx
    have hx' : x ≠ '/' := fun e' => hsep (e' ▸ List.mem_reverse.mp hx)
    simp [hx']
  have hlast : (dir ++ base).reverse.takeWhile (· != '/') = base.reverse := by
    rcases hdir with h | ⟨d, h⟩
    · rw [h, List.nil_append]
      exact takeWhile_all _ _ hp
    · rw [h, List.reverse_append, List.reverse_append, List.reverse_singleton,
        List.singleton_append]
      exact takeWhile_append_stop (· != '/') base.reverse d.reverse '/' hp (by decide)
  unfold Ext
  simp only [hlast]
  rw [if_neg]
  exact fun h => hdot (List.mem_reverse.mp h)

theorem toLowerRune_eq_iff (c d : Char) (hd1 : d ≠ 'i') (hd2 : d ≠ 'k')
    (hd3 : d.toNat ≠ 0x130) (hd4 : d.toNat ≠ 0x212A) :
    toLowerRune c = d ↔ c.toLower = d := by
  unfold toLowerRune
  by_cases h1 : c.toNat = 0x130
  · have hl : c.toLower = c := by
      unfold Char.toLower
      simp only [h1]
      rfl
    rw [if_pos h1, hl]
    constructor
    · intro e; exact absurd e.symm hd1
    · intro e; rw [e] at h1; exact absurd h1 hd3
  · by_cases h2 : c.toNat = 0x212A
    · have hl : c.toLower = c := by
        unfold Char.toLower
        simp only [h2]
        rfl
      rw [if_neg h1, if_pos h2, hl]
      constructor
      · intro e; exact absurd e.symm hd2
      · intro e; rw [e] at h2; exact absurd h2 hd4
    · rw [if_neg h1, if_neg h2]
      unfold Char.toLower
      rfl

theorem map_toLowerRune_eq_iff (ext target : Str)
    (ht : ∀ d ∈ target, d ≠ 'i' ∧ d ≠ 'k' ∧ d.toNat ≠ 0x130 ∧ d.toNat ≠ 0x212A) :
    ext.map toLowerRune = target ↔ ext.map Char.toLower = target := by
  induction ext generalizing target with
  | nil => simp
  | cons c cs ih =>
    cases target with
    | nil => simp
    | cons d ds =>
      have hd := ht d (List.mem_cons_self _ _)
      have hds : ∀ x ∈ ds, x ≠ 'i' ∧ x ≠ 'k' ∧ x.toNat ≠ 0x130 ∧ x.toNat ≠ 0x212A :=
        fun x hx => ht x (List.mem_cons_of_mem _ hx)
      simp only [List.map_cons, List.cons.injEq]
      rw [toLowerRune_eq_iff c d hd.1 hd.2.1 hd.2.2.1 hd.2.2.2, ih ds hds]

theorem detectFormat_of_Ext (filename : Str) :
    detectFormat filename =
      if (Ext filename).map Char.toLower = ".env".toList then FormatKeyValue
      else if (Ext filename).map Char.toLower = ".json".toList then FormatJSON
      else if (Ext filename).map Char.toLower = ".yaml".toList ∨
          (Ext filename).map Char.toLower = ".yml".toList then FormatYAML
      else FormatKeyValue := by
  have e1 := map_toLowerRune_eq_iff (Ext filename) ".env".toList (by decide)
  have e2 := map_toLowerRune_eq_iff (Ext filename) ".json".toList (by decide)
  have e3 := map_toLowerRune_eq_iff (Ext filename) ".yaml".toList (by decide)
  have e4 := map_toLowerRune_eq_iff (Ext filename) ".yml".toList (by decide)
  unfold detectFormat
  simp only [e1, e2, e3, e4]

/-! ## Lemmas on the candidate loop -/

theorem scanLoop_snd (lines : List Str) (os os' : OS) :
    (scanLoop lines os).2 = (scanLoop lines os').2 := by
  induction lines generalizing os os' with
  | nil => rfl
  | cons x rest ih =>
    rw [scanLoop, scanLoop]
    split
    · rfl
    · exact ih _ _

theorem loadKeyValueFile_snd (fs : FS) (f : Str) (os os' : OS) :
    (loadKeyValueFile fs f os).2 = (loadKeyValueFile fs f os').2 := by
  unfold loadKeyValueFile
  split
  · rfl
  · simp only [scanLoop_snd _ os os']

theorem loadJSONFile_snd (dec : Decoders) (fs : FS) (f : Str) (os os' : OS) :
    (loadJSONFile dec fs f os).2 = (loadJSONFile dec fs f os').2 := by
  unfold loadJSONFile
  split
  · rfl
  · split <;> rfl

theorem loadYAMLFile_snd (dec : Decoders) (fs : FS) (f : Str) (os os' : OS) :
    (loadYAMLFile dec fs f os).2 = (loadYAMLFile dec fs f os').2 := by
  unfold loadYAMLFile
  split
  · rfl
  · split <;> rfl

theorem parserOf_cases (dec : Decoders) (fs : FS) (g : FileFormat) :
    (g = FormatKeyValue ∧ parserOf dec fs g = loadKeyValueFile fs) ∨
      (g = FormatJSON ∧ parserOf dec fs g = loadJSONFile dec fs) ∨
      (g = FormatYAML ∧ parserOf dec fs g = loadYAMLFile dec fs) ∨
      (g ≠ FormatKeyValue ∧ g ≠ FormatJSON ∧ g ≠ FormatYAML ∧
        parserOf dec fs g = fun _ os => (os, some Err.unsupportedFormat)) := by
  unfold parserOf
  by_cases h1 : g = FormatKeyValue
  · exact Or.inl ⟨h1, by rw [if_pos h1]⟩
  · by_cases h2 : g = FormatJSON
    · exact Or.inr (Or.inl ⟨h2, by rw [if_neg h1, if_pos h2]⟩)
    · by_cases h3 : g = FormatYAML
      · exact Or.inr (Or.inr (Or.inl ⟨h3, by rw [if_neg h1, if_neg h2, if_pos h3]⟩))
      · exact Or.inr (Or.inr (Or.inr ⟨h1, h2, h3, by rw [if_neg h1, if_neg h2, if_neg h3]⟩))

theorem loadOne_eq_parserOf (dec : Decoders) (fs : FS) (format : FileFormat) (f : Str)
    (os : OS) :
    loadOne dec fs format f os =
      parserOf dec fs (if format = FormatAuto then detectFormat f else format) f os := by
  unfold loadOne
  simp only
  generalize (if format = FormatAuto then detectFormat f else format) = g
  rcases parserOf_cases dec fs g with ⟨h, hp⟩ | ⟨h, hp⟩ | ⟨h, hp⟩ | ⟨h1, h2, h3, hp⟩
  · rw [hp, if_pos h]
  · rw [hp, h]
    rfl
  · rw [hp, h]
    rfl
  · rw [hp, if_neg h1, if_neg h2, if_neg h3]

theorem parserOf_snd (dec : Decoders) (fs : FS) (g : FileFormat) (f : Str) (os os' : OS) :
    (parserOf dec fs g f os).2 = (parserOf dec fs g f os').2 := by
  rcases parserOf_cases dec fs g with ⟨_, hp⟩ | ⟨_, hp⟩ | ⟨_, hp⟩ | ⟨_, _, _, hp⟩
  · rw [hp]; exact loadKeyValueFile_snd fs f os os'
  · rw [hp]; exact loadJSONFile_snd dec fs f os os'
  · rw [hp]; exact loadYAMLFile_snd dec fs f os os'
  · rw [hp]

theorem loadOne_snd (dec : Decoders) (fs : FS) (format : FileFormat) (f : Str) (os : OS) :
    (loadOne dec fs format f os).2 = parseError dec fs format f := by
  unfold parseError
  rw [loadOne_eq_parserOf, loadOne_eq_parserOf]
  exact parserOf_snd dec fs _ f _ _

theorem LoadEnvWithFormat_cons (dec : Decoders) (fs : FS) (format : FileFormat) (f : Str)
    (rest : List Str) (os : OS) :
    LoadEnvWithFormat dec fs format (f :: rest) os =
      if f = [] then LoadEnvWithFormat dec fs format rest os
      else if (loadOne dec fs format f os).2 = none then ((loadOne dec fs format f os).1, none)
      else LoadEnvWithFormat dec fs format rest (loadOne dec fs format f os).1 := by
  rw [LoadEnvWithFormat]
  rfl

theorem LoadEnvWithFormat_eq_tryInOrder (dec : Decoders) (fs : FS) (format : FileFormat)
    (paths : List Str) (os : OS) :
    LoadEnvWithFormat dec fs format paths os = tryInOrder (loadOne dec fs format) paths os := by
  induction paths generalizing os with
  | nil => rfl
  | cons f rest ih =>
    rw [LoadEnvWithFormat_cons, tryInOrder]
    by_cases hf : f = []
    · simp only [hf, if_true]
      exact ih os
    · simp only [hf, if_false]
      cases hr : loadOne dec fs format f os with
      | mk os' err =>
        cases err with
        | none => simp
        | some e => simpa using ih os'

theorem tryInOrder_congr (parse parse' : Str → OS → OS × Option Err)
    (h : ∀ f os, f ≠ [] → parse f os = parse' f os) (paths : List Str) (os : OS) :
    tryInOrder parse paths os = tryInOrder parse' paths os := by
  induction paths generalizing os with
  | nil => rfl
  | cons f rest ih =>
    rw [tryInOrder, tryInOrder]
    by_cases hf : f = []
    · simp only [hf, if_true]
      exact ih os
    · simp only [hf, if_false]
      rw [h f os hf]
      cases parse' f os with
      | mk os' err =>
        cases err with
        | none => rfl
        | some e => exact ih os'

theorem tryInOrder_first_success (parse : Str → OS → OS × Option Err) (perr : Str → Option Err)
    (hperr : ∀ f os, (parse f os).2 = perr f) (before after : List Str) (p : Str) (os : OS)
    (hp : p ≠ []) (hok : perr p = none) (hbefore : ∀ f ∈ before, f = [] ∨ perr f ≠ none) :
    tryInOrder parse (before ++ p :: after) os = tryInOrder parse (before ++ [p]) os ∧
      (tryInOrder parse (before ++ p :: after) os).2 = none := by
  induction before generalizing os with
  | nil =>
    have h2 : (parse p os).2 = none := by rw [hperr, hok]
    simp only [List.nil_append, tryInOrder, hp, if_false]
    cases hr : parse p os with
    | mk os' err =>
      rw [hr] at h2
      simp only at h2
      subst h2
      simp
  | cons f rest ih =>
    have hrest : ∀ g ∈ rest, g = [] ∨ perr g ≠ none :=
      fun g hg => hbefore g (List.mem_cons_of_mem _ hg)
    simp only [List.cons_append, tryInOrder]
    by_cases hf : f = []
    · simp only [hf, if_true]
      exact ih os hrest
    · simp only [hf, if_false]
      have hfail : perr f ≠ none := by
        rcases hbefore f (List.mem_cons_self _ _) with h | h
        · exact absurd h hf
        · exact h
      have h2 : (parse f os).2 = perr f := hperr f os
      cases hr : parse f os with
      | mk os' err =>
        rw [hr] at h2
        simp only at h2
        cases err with
        | none => exact absurd h2.symm hfail
        | some e => exact ih os' hrest

theorem tryInOrder_error_iff (parse : Str → OS → OS × Option Err) (perr : Str → Option Err)
    (hperr : ∀ f os, (parse f os).2 = perr f) (paths : List Str) (os : OS) :
    ((tryInOrder parse paths os).2 ≠ none ↔ ∀ f ∈ paths, f = [] ∨ perr f ≠ none) ∧
      ((tryInOrder parse paths os).2 = none ∨
        (tryInOrder parse paths os).2 = some Err.noFileLoaded) := by
  induction paths generalizing os with
  | nil => simp [tryInOrder]
  | cons f rest ih =>
    rw [tryInOrder]
    by_cases hf : f = []
    · simp only [hf, if_true]
      refine ⟨?_, (ih os).2⟩
      rw [(ih os).1]
      simp
    · simp only [hf, if_false]
      have h2 : (parse f os).2 = perr f := hperr f os
      cases hr : parse f os with
      | mk os' err =>
        rw [hr] at h2
        simp only at h2
        cases err with
        | none =>
          simp only [ne_eq, not_true_eq_false, List.mem_cons, forall_eq_or_imp, hf, false_or,
            ← h2, false_and, true_or, and_self]
        | some e =>
          refine ⟨?_, (ih os').2⟩
          rw [(ih os').1]
          simp [hf, ← h2]

theorem loadOne_keyValue (dec : Decoders) (fs : FS) (f : Str) (os : OS) :
    loadOne dec fs FormatKeyValue f os = loadKeyValueFile fs f os := by
  rw [loadOne_eq_parserOf, if_neg (by decide)]
  rcases parserOf_cases dec fs FormatKeyValue with ⟨_, hp⟩ | ⟨h, _⟩ | ⟨h, _⟩ | ⟨h, _⟩
  · rw [hp]
  · exact absurd h (by decide)
  · exact absurd h (by decide)
  · exact absurd rfl h

theorem loadOne_json (dec : Decoders) (fs : FS) (f : Str) (os : OS) :
    loadOne dec fs FormatJSON f os = loadJSONFile dec fs f os := by
  rw [loadOne_eq_parserOf, if_neg (by decide)]
  rcases parserOf_cases dec fs FormatJSON with ⟨h, _⟩ | ⟨_, hp⟩ | ⟨h, _⟩ | ⟨_, h, _⟩
  · exact absurd h (by decide)
  · rw [hp]
  · exact absurd h (by decide)
  · exact absurd rfl h

theorem loadOne_yaml (dec : Decoders) (fs : FS) (f : Str) (os : OS) :
    loadOne dec fs FormatYAML f os = loadYAMLFile dec fs f os := by
  rw [loadOne_eq_parserOf, if_neg (by decide)]
  rcases parserOf_cases dec fs FormatYAML with ⟨h, _⟩ | ⟨h, _⟩ | ⟨_, hp⟩ | ⟨_, _, h, _⟩
  · exact absurd h (by decide)
  · exact absurd h (by decide)
  · rw [hp]
  · exact absurd rfl h

theorem loadOne_auto (dec : Decoders) (fs : FS) (f : Str) (os : OS) :
    loadOne dec fs FormatAuto f os = parserOf dec fs (detectFormat f) f os := by
  rw [loadOne_eq_parserOf, if_pos rfl]

theorem parseError_of_missing (dec : Decoders) (fs : FS) (format : FileFormat) (f : Str)
    (h : osOpen fs f = none) : parseError dec fs format f ≠ none := by
  unfold parseError
  rw [loadOne_eq_parserOf]
  rcases parserOf_cases dec fs (if format = FormatAuto then detectFormat f else format) with
    ⟨_, hp⟩ | ⟨_, hp⟩ | ⟨_, hp⟩ | ⟨_, _, _, hp⟩
  · rw [hp]; simp [loadKeyValueFile, h]
  · rw [hp]; simp [loadJSONFile, ReadFile, h]
  · rw [hp]; simp [loadYAMLFile, ReadFile, h]
  · rw [hp]; simp

/-! ## The claims on the dispatcher -/

/-- C12.  `detectFormat` is a total function that never returns `FormatAuto`.
For a name whose last path element has a dot, the extension is the suffix from
the last dot on, and the result is decided by that extension with capitals
read as small letters: `.env` gives `FormatKeyValue`, `.json` `FormatJSON`,
`.yaml` and `.yml` `FormatYAML`, anything else `FormatKeyValue`.  For a name
whose last path element has no dot the result is `FormatKeyValue`. -/
theorem detectFormat_by_extension :
    (∀ filename : Str, detectFormat filename ≠ FormatAuto ∧
      (detectFormat filename = FormatKeyValue ∨ detectFormat filename = FormatJSON ∨
        detectFormat filename = FormatYAML)) ∧
    (∀ stem e : Str, '.' ∉ e → '/' ∉ e →
      Ext (stem ++ '.' :: e) = '.' :: e ∧
      detectFormat (stem ++ '.' :: e) =
        if e.map Char.toLower = "env".toList then FormatKeyValue
        else if e.map Char.toLower = "json".toList then FormatJSON
        else if e.map Char.toLower = "yaml".toList ∨ e.map Char.toLower = "yml".toList then
          FormatYAML
        else FormatKeyValue) ∧
    (∀ dir base : Str, (dir = [] ∨ ∃ d, dir = d ++ ['/']) → '.' ∉ base → '/' ∉ base →
      Ext (dir ++ base) = [] ∧ detectFormat (dir ++ base) = FormatKeyValue) := by
  refine ⟨?_, ?_, ?_⟩
  · intro filename
    rw [detectFormat_of_Ext]
    split
    · exact ⟨by decide, Or.inl rfl⟩
    · split
      · exact ⟨by decide, Or.inr (Or.inl rfl)⟩
      · split
        · exact ⟨by decide, Or.inr (Or.inr rfl)⟩
        · exact ⟨by decide, Or.inl rfl⟩
  · intro stem e hdot hsep
    have hext := Ext_of_dot stem e hdot hsep
    refine ⟨hext, ?_⟩
    rw [detectFormat_of_Ext, hext]
    have hdotl : Char.toLower '.' = '.' := by decide
    simp only [List.map_cons, hdotl]
    have h1 : ".env".toList = '.' :: "env".toList := by decide
    have h2 : ".json".toList = '.' :: "json".toList := by decide
    have h3 : ".yaml".toList = '.' :: "yaml".toList := by decide
    have h4 : ".yml".toList = '.' :: "yml".toList := by decide
    simp only [h1, h2, h3, h4, List.cons.injEq, true_and]
  · intro dir base hdir hdot hsep
    have hext := Ext_of_no_dot dir base hdir hdot hsep
    refine ⟨hext, ?_⟩
    rw [detectFormat_of_Ext, hext]
    decide

/-- C12, on the names of the tests: `config.env`, `config.json`,
`config.yaml`, `config.yml`, `config.txt`, `config`, and a name in capitals. -/
theorem detectFormat_by_extension_witness :
    detectFormat "config.env".toList = FormatKeyValue ∧
      detectFormat "config.json".toList = FormatJSON ∧
      detectFormat "config.yaml".toList = FormatYAML ∧
      detectFormat "config.yml".toList = FormatYAML ∧
      detectFormat "config.txt".toList = FormatKeyValue ∧
      detectFormat "config".toList = FormatKeyValue ∧
      detectFormat "dir.d/Config.JSON".toList = FormatJSON := by
  have h := detectFormat_by_extension.2.1 "dir.d/Config".toList "JSON".toList
    (by decide) (by decide)
  refine ⟨by decide, by decide, by decide, by decide, by decide, by decide, ?_⟩
  exact h.2.trans (by decide)

/-- C13.  First success wins.  Whether the parser chosen for a candidate
succeeds depends on the file alone (`parseError`); when `p` is the first
non-empty path whose parser succeeds, `LoadEnvWithFormat` succeeds and does
not process the paths after `p`: state and result are those of the list that
ends at `p`, whatever the later paths are. -/
theorem first_success_wins (dec : Decoders) (fs : FS) (format : FileFormat)
    (before after : List Str) (p : Str) (os : OS)
    (hp : p ≠ []) (hok : parseError dec fs format p = none)
    (hbefore : ∀ f ∈ before, f = [] ∨ parseError dec fs format f ≠ none) :
    LoadEnvWithFormat dec fs format (before ++ p :: after) os =
        LoadEnvWithFormat dec fs format (before ++ [p]) os ∧
      (LoadEnvWithFormat dec fs format (before ++ p :: after) os).2 = none ∧
      (∀ (f : Str) (os' : OS), (loadOne dec fs format f os').2 = parseError dec fs format f) := by
  have h := tryInOrder_first_success (loadOne dec fs format) (parseError dec fs format)
    (loadOne_snd dec fs format) before after p os hp hok hbefore
  rw [LoadEnvWithFormat_eq_tryInOrder, LoadEnvWithFormat_eq_tryInOrder]
  exact ⟨h.1, h.2, loadOne_snd dec fs format⟩

/-- C13, witness: the candidates `missing.env`, `valid.json`, `later.env` with
no explicit format succeed using `valid.json`; the key `LATER` of `later.env`
is not written. -/
theorem first_success_wins_witness :
    (LoadEnvWithFormat sampleDecoders sampleFS FormatAuto
        ["missing.env".toList, "valid.json".toList, "later.env".toList] os0).2 = none ∧
      LoadEnvWithFormat sampleDecoders sampleFS FormatAuto
          ["missing.env".toList, "valid.json".toList, "later.env".toList] os0 =
        LoadEnvWithFormat sampleDecoders sampleFS FormatAuto
          ["missing.env".toList, "valid.json".toList] os0 ∧
      (LoadEnvWithFormat sampleDecoders sampleFS FormatAuto
        ["missing.env".toList, "valid.json".toList, "later.env".toList] os0).1.calls =
          [("a.b".toList, "1".toList)] := by
  have h := first_success_wins sampleDecoders sampleFS FormatAuto ["missing.env".toList]
    ["later.env".toList] "valid.json".toList os0 (by decide) (by decide) (by decide)
  exact ⟨h.2.1, h.1, by decide⟩

/-- C14.  `LoadEnvWithFormat`, and `LoadEnv`, return an error exactly when every
path of the list is empty or fails to parse, and the error is then the one
aggregate error; so they fail on the empty list, on a list of empty strings and
on a single file that does not exist, and succeed once a non-empty path
parses. -/
theorem load_fails_iff_all_fail (dec : Decoders) (fs : FS) (format : FileFormat)
    (paths : List Str) (os : OS) :
    ((LoadEnvWithFormat dec fs format paths os).2 ≠ none ↔
        ∀ f ∈ paths, f = [] ∨ parseError dec fs format f ≠ none) ∧
      ((LoadEnv dec fs paths os).2 ≠ none ↔
        ∀ f ∈ paths, f = [] ∨ parseError dec fs FormatAuto f ≠ none) ∧
      ((LoadEnvWithFormat dec fs format paths os).2 = none ∨
        (LoadEnvWithFormat dec fs format paths os).2 = some Err.noFileLoaded) ∧
      (LoadEnvWithFormat dec fs format [] os).2 = some Err.noFileLoaded ∧
      (∀ n : Nat, (LoadEnvWithFormat dec fs format (List.replicate n []) os).2 =
        some Err.noFileLoaded) ∧
      (∀ f : Str, osOpen fs f = none →
        (LoadEnvWithFormat dec fs format [f] os).2 = some Err.noFileLoaded) ∧
      (∀ f : Str, f ∈ paths → f ≠ [] → parseError dec fs format f = none →
        (LoadEnvWithFormat dec fs format paths os).2 = none) := by
  have key : ∀ (fmt : FileFormat) (ps : List Str),
      ((LoadEnvWithFormat dec fs fmt ps os).2 ≠ none ↔
          ∀ f ∈ ps, f = [] ∨ parseError dec fs fmt f ≠ none) ∧
        ((LoadEnvWithFormat dec fs fmt ps os).2 = none ∨
          (LoadEnvWithFormat dec fs fmt ps os).2 = some Err.noFileLoaded) := by
    intro fmt ps
    rw [LoadEnvWithFormat_eq_tryInOrder]
    exact tryInOrder_error_iff (loadOne dec fs fmt) (parseError dec fs fmt)
      (loadOne_snd dec fs fmt) ps os
  have fails : ∀ ps : List Str, (∀ f ∈ ps, f = [] ∨ parseError dec fs format f ≠ none) →
      (LoadEnvWithFormat dec fs format ps os).2 = some Err.noFileLoaded := by
    intro ps hps
    rcases (key format ps).2 with h | h
    · exact absurd h ((key format ps).1.mpr hps)
    · exact h
  refine ⟨(key format paths).1, (key FormatAuto paths).1, (key format paths).2, rfl, ?_, ?_, ?_⟩
  · intro n
    apply fails
    intro f hf
    exact Or.inl (List.eq_of_mem_replicate hf)
  · intro f hf
    apply fails
    intro g hg
    rw [List.mem_singleton.mp hg]
    exact Or.inr (parseError_of_missing dec fs format f hf)
  · intro f hmem hne hok
    by_contra hcon
    rcases (key format paths).1.mp hcon f hmem with h | h
    · exact hne h
    · exact h hok

/-- C14, on the tests of `TestLoadEnv`: `LoadEnv` fails for a file that does not
exist and for the empty file name, and succeeds when `valid.json` is among the
candidates. -/
theorem load_fails_iff_all_fail_witness :
    (LoadEnv sampleDecoders sampleFS ["non_existent.env".toList] os0).2 =
        some Err.noFileLoaded ∧
      (LoadEnv sampleDecoders sampleFS [[]] os0).2 = some Err.noFileLoaded ∧
      (LoadEnv sampleDecoders sampleFS [[], "missing.env".toList, "valid.json".toList] os0).2 =
        none := by
  have h := (load_fails_iff_all_fail sampleDecoders sampleFS FormatAuto
    [[], "missing.env".toList, "valid.json".toList] os0).2.2.2.2.2.2
    "valid.json".toList (by decide) (by decide) (by decide)
  exact ⟨by decide, by decide, h⟩

/-- C15.  An explicit format is forced and `FormatAuto` sniffs.  With
`FormatKeyValue`, `FormatJSON` or `FormatYAML` the candidates are tried in
order (`tryInOrder`, the dispatcher of the specification) with the parser of
that format, whatever their extensions; `LoadEnv` is `LoadEnvWithFormat` with
`FormatAuto`, which tries each candidate with the parser of its
`detectFormat`. -/
theorem explicit_format_is_forced (dec : Decoders) (fs : FS) (paths : List Str) (os : OS) :
    LoadEnvWithFormat dec fs FormatKeyValue paths os =
        tryInOrder (loadKeyValueFile fs) paths os ∧
      LoadEnvWithFormat dec fs FormatJSON paths os =
        tryInOrder (loadJSONFile dec fs) paths os ∧
      LoadEnvWithFormat dec fs FormatYAML paths os =
        tryInOrder (loadYAMLFile dec fs) paths os ∧
      LoadEnv dec fs paths os = LoadEnvWithFormat dec fs FormatAuto paths os ∧
      LoadEnvWithFormat dec fs FormatAuto paths os =
        tryInOrder (fun f => parserOf dec fs (detectFormat f) f) paths os ∧
      (∀ f : Str, detectFormat f = FormatKeyValue →
        parserOf dec fs (detectFormat f) f = loadKeyValueFile fs f) ∧
      (∀ f : Str, detectFormat f = FormatJSON →
        parserOf dec fs (detectFormat f) f = loadJSONFile dec fs f) ∧
      (∀ f : Str, detectFormat f = FormatYAML →
        parserOf dec fs (detectFormat f) f = loadYAMLFile dec fs f) := by
  refine ⟨?_, ?_, ?_, rfl, ?_, ?_, ?_, ?_⟩
  · rw [LoadEnvWithFormat_eq_tryInOrder]
    exact tryInOrder_congr _ _ (fun f os' _ => loadOne_keyValue dec fs f os') paths os
  · rw [LoadEnvWithFormat_eq_tryInOrder]
    exact tryInOrder_congr _ _ (fun f os' _ => loadOne_json dec fs f os') paths os
  · rw [LoadEnvWithFormat_eq_tryInOrder]
    exact tryInOrder_congr _ _ (fun f os' _ => loadOne_yaml dec fs f os') paths os
  · rw [LoadEnvWithFormat_eq_tryInOrder]
    exact tryInOrder_congr _ _ (fun f os' _ => loadOne_auto dec fs f os') paths os
  · intro f hf
    rw [hf]
    rcases parserOf_cases dec fs FormatKeyValue with ⟨_, hp⟩ | ⟨h, _⟩ | ⟨h, _⟩ | ⟨h, _⟩
    · rw [hp]
    · exact absurd h (by decide)
    · exact absurd h (by decide)
    · exact absurd rfl h
  · intro f hf
    rw [hf]
    rcases parserOf_cases dec fs FormatJSON with ⟨h, _⟩ | ⟨_, hp⟩ | ⟨h, _⟩ | ⟨_, h, _⟩
    · exact absurd h (by decide)
    · rw [hp]
    · exact absurd h (by decide)
    · exact absurd rfl h
  · intro f hf
    rw [hf]
    rcases parserOf_cases dec fs FormatYAML with ⟨h, _⟩ | ⟨h, _⟩ | ⟨_, hp⟩ | ⟨_, _, h, _⟩
    · exact absurd h (by decide)
    · exact absurd h (by decide)
    · rw [hp]
    · exact absurd rfl h

/-- C15, on a file named `valid.json`: with `FormatKeyValue` it is scanned as
key-value lines (its one line has no `=`, so nothing is set and the load
succeeds), with `FormatAuto` it is decoded as JSON. -/
theorem explicit_format_is_forced_witness :
    LoadEnvWithFormat sampleDecoders sampleFS FormatKeyValue ["valid.json".toList] os0 =
        (os0, none) ∧
      (LoadEnv sampleDecoders sampleFS ["valid.json".toList] os0).1.calls =
        [("a.b".toList, "1".toList)] ∧
      (LoadEnvWithFormat sampleDecoders sampleFS FormatYAML ["valid.json".toList] os0).2 =
        some Err.noFileLoaded := by
  have h := (explicit_format_is_forced sampleDecoders sampleFS ["valid.json".toList] os0).1
  refine ⟨?_, by decide, by decide⟩
  rw [h]
  rfl

/-! ## Lemmas on the parsers of integers -/

theorem decDigits_lt (n : Nat) (h : n < 10) : decDigits n = [Nat.digitChar n] := by
  rw [decDigits, if_pos h]

theorem decDigits_ge (n : Nat) (h : ¬ n < 10) :
    decDigits n = decDigits (n / 10) ++ [Nat.digitChar (n % 10)] := by
  rw [decDigits, if_neg h]

theorem toDigitsCore_eq (fuel : Nat) : ∀ (n : Nat) (ds : List Char), n < fuel →
    Nat.toDigitsCore 10 fuel n ds = decDigits n ++ ds := by
  induction fuel with
  | zero => intro n ds h; omega
  | succ fuel ih =>
    intro n ds h
    rw [Nat.toDigitsCore]
    by_cases h0 : n / 10 = 0
    · have hn : n < 10 := by omega
      have hm : n % 10 = n := Nat.mod_eq_of_lt hn
      simp only [h0, if_true]
      rw [decDigits_lt n hn, hm]
      rfl
    · have hn : ¬ n < 10 := by omega
      simp only [h0, if_false]
      rw [ih (n / 10) _ (by omega), decDigits_ge n hn]
      simp

theorem toDigits_eq (n : Nat) : Nat.toDigits 10 n = decDigits n := by
  unfold Nat.toDigits
  rw [toDigitsCore_eq (n + 1) n [] (by omega)]
  simp

theorem decimal_ofNat (m : Nat) : decimal (Int.ofNat m) = decDigits m := by
  unfold decimal
  rw [← toDigits_eq]
  rfl

theorem decimal_negSucc (m : Nat) : decimal (Int.negSucc m) = '-' :: decDigits (m + 1) := by
  unfold decimal
  rw [← toDigits_eq]
  rfl

theorem digitChar_digit (d : Nat) (h : d < 10) :
    '0' ≤ Nat.digitChar d ∧ Nat.digitChar d ≤ '9' ∧
      (Nat.digitChar d).toNat - '0'.toNat = d ∧ Nat.digitChar d ≠ '+' ∧
      Nat.digitChar d ≠ '-' ∧ (Nat.digitChar d).utf8Size = 1 := by
  interval_cases d <;> decide

theorem decDigits_cons (n : Nat) :
    ∃ c rest, decDigits n = c :: rest ∧ '0' ≤ c ∧ c ≤ '9' ∧ c ≠ '+' ∧ c ≠ '-' := by
  induction n using Nat.strong_induction_on with
  | _ n ih =>
    by_cases h : n < 10
    · have hd := digitChar_digit n h
      exact ⟨Nat.digitChar n, [], decDigits_lt n h, hd.1, hd.2.1, hd.2.2.2.1, hd.2.2.2.2.1⟩
    · obtain ⟨c, rest, hc, h1, h2, h3, h4⟩ := ih (n / 10) (by omega)
      refine ⟨c, rest ++ [Nat.digitChar (n % 10)], ?_, h1, h2, h3, h4⟩
      rw [decDigits_ge n h, hc]
      rfl

theorem decDigits_ne_nil (n : Nat) : decDigits n ≠ [] := by
  obtain ⟨c, rest, hc, _⟩ := decDigits_cons n
  rw [hc]
  exact List.cons_ne_nil _ _

theorem parseUintLoop_append (s t : Str) (n : Nat) :
    parseUintLoop (s ++ t) n = (parseUintLoop s n).bind (parseUintLoop t) := by
  induction s generalizing n with
  | nil => rfl
  | cons c rest ih =>
    rw [List.cons_append, parseUintLoop, parseUintLoop]
    split
    · simp only
      split
      · rfl
      · split
        · rfl
        · exact ih _
    · rfl

theorem parseUintLoop_digit (d n : Nat) (hd : d < 10) (hn : n < 2 ^ 64) :
    parseUintLoop [Nat.digitChar d] n = if n * 10 + d < 2 ^ 64 then some (n * 10 + d) else none := by
  have hc := digitChar_digit d hd
  rw [parseUintLoop, if_pos ⟨hc.1, hc.2.1⟩]
  simp only [hc.2.2.1]
  norm_num at hn ⊢
  by_cases h1 : 1844674407370955162 ≤ n
  · rw [if_pos h1, if_neg (by omega)]
  · rw [if_neg h1]
    have h10 : n * 10 % 18446744073709551616 = n * 10 := Nat.mod_eq_of_lt (by omega)
    rw [h10]
    by_cases h2 : n * 10 + d < 18446744073709551616
    · have h3 : (n * 10 + d) % 18446744073709551616 = n * 10 + d := Nat.mod_eq_of_lt h2
      rw [h3, if_neg (by omega), if_pos h2, parseUintLoop]
    · rw [if_neg h2, if_pos]
      left
      omega

theorem parseUintLoop_decDigits (n : Nat) :
    parseUintLoop (decDigits n) 0 = if n < 2 ^ 64 then some n else none := by
  induction n using Nat.strong_induction_on with
  | _ n ih =>
    by_cases h : n < 10
    · rw [decDigits_lt n h, parseUintLoop_digit n 0 h (by norm_num)]
      norm_num
    · rw [decDigits_ge n h, parseUintLoop_append, ih (n / 10) (by omega)]
      by_cases h1 : n / 10 < 2 ^ 64
      · rw [if_pos h1]
        simp only [Option.some_bind]
        rw [parseUintLoop_digit (n % 10) (n / 10) (Nat.mod_lt _ (by norm_num)) h1]
        have hn : n / 10 * 10 + n % 10 = n := by omega
        rw [hn]
      · rw [if_neg h1, if_neg]
        · rfl
        · norm_num at h1 ⊢
          omega

theorem ParseUint_decDigits (n : Nat) :
    ParseUint (decDigits n) = if n < 2 ^ 64 then some n else none := by
  unfold ParseUint
  rw [if_neg (decDigits_ne_nil n), parseUintLoop_decDigits]

theorem atoiLoop_append (s t : Str) (n : Int) :
    atoiLoop (s ++ t) n = (atoiLoop s n).bind (atoiLoop t) := by
  induction s generalizing n with
  | nil => rfl
  | cons c rest ih =>
    rw [List.cons_append, atoiLoop, atoiLoop]
    split
    · exact ih _
    · rfl

theorem atoiLoop_decDigits (n : Nat) : atoiLoop (decDigits n) 0 = some (n : Int) := by
  induction n using Nat.strong_induction_on with
  | _ n ih =>
    by_cases h : n < 10
    · have hc := digitChar_digit n h
      rw [decDigits_lt n h, atoiLoop, if_pos ⟨hc.1, hc.2.1⟩, hc.2.2.1, atoiLoop]
      simp
    · have hc := digitChar_digit (n % 10) (Nat.mod_lt _ (by norm_num))
      rw [decDigits_ge n h, atoiLoop_append, ih (n / 10) (by omega)]
      simp only [Option.some_bind]
      rw [atoiLoop, if_pos ⟨hc.1, hc.2.1⟩, hc.2.2.1, atoiLoop]
      congr 1
      omega

theorem ParseInt_decimal (i : Int) :
    ParseInt (decimal i) = if -2 ^ 63 ≤ i ∧ i < 2 ^ 63 then some i else none := by
  cases i with
  | ofNat m =>
    obtain ⟨c, rest, hc, _, _, hplus, hminus⟩ := decDigits_cons m
    rw [decimal_ofNat, hc]
    unfold ParseInt
    simp only [hplus, hminus, or_self, if_false, decide_False]
    rw [← hc, ParseUint_decDigits]
    by_cases h1 : m < 2 ^ 64
    · rw [if_pos h1]
      simp only [true_and, Bool.false_eq_true, false_and, if_false]
      unfold wrapInt64
      norm_num at h1 ⊢
      by_cases h2 : 9223372036854775808 ≤ m
      · rw [if_pos h2, if_neg (by omega)]
      · rw [if_neg h2, if_pos (by omega)]
        refine congrArg some ?_
        omega
    · rw [if_neg h1, if_neg]
      norm_num at h1 ⊢
      omega
  | negSucc m =>
    rw [decimal_negSucc]
    unfold ParseInt
    simp only [or_true, if_true, decide_True]
    rw [ParseUint_decDigits]
    by_cases h1 : m + 1 < 2 ^ 64
    · rw [if_pos h1]
      simp only [Bool.true_eq_false, false_and, if_false, true_and, if_true]
      unfold wrapInt64
      norm_num at h1 ⊢
      by_cases h2 : 9223372036854775808 < m + 1
      · rw [if_pos h2, if_neg]
        rw [Int.negSucc_eq]
        omega
      · rw [if_neg h2, if_pos]
        · refine congrArg some ?_
          rw [Int.negSucc_eq]
          omega
        · rw [Int.negSucc_eq]
          omega
    · rw [if_neg h1, if_neg]
      norm_num at h1 ⊢
      rw [Int.negSucc_eq]
      omega

theorem Atoi_decimal (i : Int) (h : -2 ^ 63 ≤ i ∧ i < 2 ^ 63) : Atoi (decimal i) = some i := by
  unfold Atoi
  by_cases hfast : 0 < len (decimal i) ∧ len (decimal i) < 19
  · rw [if_pos hfast]
    cases i with
    | ofNat m =>
      obtain ⟨c, rest, hc, _, _, hplus, hminus⟩ := decDigits_cons m
      rw [decimal_ofNat, hc]
      simp only [hplus, hminus, or_self, if_false]
      rw [← hc, atoiLoop_decDigits]
      rfl
    | negSucc m =>
      rw [decimal_negSucc]
      have hlen : ¬ len (decDigits (m + 1)) < 1 := by
        have h1 := length_le_len (decDigits (m + 1))
        obtain ⟨c, rest, hc, _⟩ := decDigits_cons (m + 1)
        rw [hc] at h1 ⊢
        simp only [List.length_cons] at h1
        omega
      simp only [true_or, if_true, hlen, if_false]
      rw [atoiLoop_decDigits]
      rfl
  · rw [if_neg hfast, ParseInt_decimal, if_pos h]

theorem Getenv_stored (key val : Str) (os : OS) (h : os.env key = some val) :
    Getenv key os = val := by
  unfold Getenv
  rw [h]
  rfl

theorem GetEnv_unset (lib : Parsers) (key : Str) (d : GoValue) (os : OS)
    (h : os.env key = none ∨ os.env key = some []) : GetEnv lib key d os = d := by
  have hval : Getenv key os = [] := by
    unfold Getenv
    rcases h with h | h <;> rw [h] <;> rfl
  unfold GetEnv
  simp only [hval, if_true]

theorem decimal_ne_nil (i : Int) : decimal i ≠ [] := by
  cases i with
  | ofNat m => rw [decimal_ofNat]; exact decDigits_ne_nil m
  | negSucc m => rw [decimal_negSucc]; exact List.cons_ne_nil _ _

/-! ## The claims on the typed accessor -/

/-- C16.  For every key and every default value `d`, of any type, `GetEnv`
returns `d` when the key is not set or is bound to the empty string; for a
string default and a non-empty stored text it returns the text as it is. -/
theorem getenv_returns_default_when_unset (lib : Parsers) (key : Str) (os : OS) :
    (∀ d : GoValue, os.env key = none ∨ os.env key = some [] → GetEnv lib key d os = d) ∧
      (∀ (s : Str) (d : Str), s ≠ [] → os.env key = some s →
        GetEnv lib key (.string d) os = .string s) := by
  refine ⟨fun d h => GetEnv_unset lib key d os h, ?_⟩
  intro s d hs h
  unfold GetEnv
  simp only [Getenv_stored key s os h, hs, if_false]

/-- C16, on the tests of `TestGetEnv_String`: a stored text, a key that is not
set, and a key bound to the empty string. -/
theorem getenv_returns_default_when_unset_witness :
    GetEnv noParsers "TEST_STRING".toList (.string "default_value".toList)
        (osWith "TEST_STRING".toList "test_value".toList) = .string "test_value".toList ∧
      GetEnv noParsers "NON_EXISTENT".toList (.string "default_value".toList) os0 =
        .string "default_value".toList ∧
      GetEnv noParsers "EMPTY_STRING".toList (.int 7) (osWith "EMPTY_STRING".toList []) =
        .int 7 :=
  ⟨(getenv_returns_default_when_unset noParsers "TEST_STRING".toList
      (osWith "TEST_STRING".toList "test_value".toList)).2 "test_value".toList
      "default_value".toList (by decide) (by decide),
    (getenv_returns_default_when_unset noParsers "NON_EXISTENT".toList os0).1 _
      (Or.inl rfl),
    (getenv_returns_default_when_unset noParsers "EMPTY_STRING".toList
      (osWith "EMPTY_STRING".toList [])).1 _ (Or.inr (by decide))⟩

/-- C17.  The read-back of an integer is exact over the whole range.  When the
stored text is the decimal text of `n`: for `n` in the range of `int64`,
`GetEnv` with an `int64` default, and with an `int` default (`int` being 64
bits wide), returns `n`, whatever the default; for `n` in the range of
`uint64`, `GetEnv` with a `uint64` default returns `n`. -/
theorem integer_read_back_is_exact (lib : Parsers) (key : Str) (os : OS) :
    (∀ n d : Int, -9223372036854775808 ≤ n → n ≤ 9223372036854775807 →
      os.env key = some (decimal n) →
      GetEnv lib key (.int64 d) os = .int64 n ∧ GetEnv lib key (.int d) os = .int n) ∧
    (∀ n d : Nat, n ≤ 18446744073709551615 → os.env key = some (decimal n) →
      GetEnv lib key (.uint64 d) os = .uint64 n) := by
  constructor
  · intro n d h1 h2 hst
    have hr : -2 ^ 63 ≤ n ∧ n < 2 ^ 63 := by
      norm_num
      omega
    have hval := Getenv_stored key (decimal n) os hst
    constructor
    · unfold GetEnv
      simp only [hval, decimal_ne_nil n, if_false, ParseInt_decimal n, if_pos hr]
    · unfold GetEnv
      simp only [hval, decimal_ne_nil n, if_false, Atoi_decimal n hr]
  · intro n d h1 hst
    have hval := Getenv_stored key (decimal n) os hst
    have hu : ParseUint (decimal (n : Int)) = some n := by
      have hd : decimal (n : Int) = decDigits n := decimal_ofNat n
      rw [hd, ParseUint_decDigits, if_pos]
      norm_num
      omega
    unfold GetEnv
    simp only [hval, decimal_ne_nil, if_false, hu]

/-- C17, on the boundaries, which are the values of the tests: the largest and
the smallest `int64`, and the largest `uint64`. -/
theorem integer_read_back_is_exact_witness :
    GetEnv noParsers "K".toList (.int64 0)
        (osWith "K".toList "9223372036854775807".toList) = .int64 9223372036854775807 ∧
      GetEnv noParsers "K".toList (.int64 0)
        (osWith "K".toList "-9223372036854775808".toList) = .int64 (-9223372036854775808) ∧
      GetEnv noParsers "K".toList (.int 5)
        (osWith "K".toList "-9223372036854775808".toList) = .int (-9223372036854775808) ∧
      GetEnv noParsers "K".toList (.uint64 0)
        (osWith "K".toList "18446744073709551615".toList) = .uint64 18446744073709551615 :=
  ⟨((integer_read_back_is_exact noParsers "K".toList
      (osWith "K".toList "9223372036854775807".toList)).1 9223372036854775807 0
      (by decide) (by decide) (by decide)).1,
    ((integer_read_back_is_exact noParsers "K".toList
      (osWith "K".toList "-9223372036854775808".toList)).1 (-9223372036854775808) 0
      (by decide) (by decide) (by decide)).1,
    ((integer_read_back_is_exact noParsers "K".toList
      (osWith "K".toList "-9223372036854775808".toList)).1 (-9223372036854775808) 5
      (by decide) (by decide) (by decide)).2,
    (integer_read_back_is_exact noParsers "K".toList
      (osWith "K".toList "18446744073709551615".toList)).2 18446744073709551615 0
      (by decide) (by decide)⟩

/-- C18.  A conversion failure is never propagated: when the stored text is
non-empty and the parser of the type of the default returns an error, `GetEnv`
returns the default.  The parsers fail on `not_a_number`; `ParseUint` fails on
a negative number and on every number above the largest `uint64`; `ParseInt`
fails on every number outside the range of `int64`; `ParseBool` fails on
`maybe`. -/
theorem conversion_failure_returns_default (lib : Parsers) (key val : Str) (os : OS)
    (hst : os.env key = some val) :
    (∀ d, Atoi val = none → GetEnv lib key (.int d) os = .int d) ∧
      (∀ d, ParseUint val = none → GetEnv lib key (.uint64 d) os = .uint64 d) ∧
      (∀ d, ParseInt val = none → GetEnv lib key (.int64 d) os = .int64 d) ∧
      (∀ d, ParseBool val = none → GetEnv lib key (.bool d) os = .bool d) ∧
      (∀ d, lib.ParseFloat val = none → GetEnv lib key (.float64 d) os = .float64 d) ∧
      (∀ d, lib.ParseDuration val = none → GetEnv lib key (.duration d) os = .duration d) ∧
      Atoi "not_a_number".toList = none ∧ ParseInt "not_a_number".toList = none ∧
      ParseUint "not_a_number".toList = none ∧ ParseUint "-10".toList = none ∧
      ParseBool "maybe".toList = none ∧
      (∀ n : Nat, 18446744073709551615 < n → ParseUint (decimal n) = none) ∧
      (∀ i : Int, i < -9223372036854775808 ∨ 9223372036854775807 < i →
        ParseInt (decimal i) = none) := by
  have hval := Getenv_stored key val os hst
  refine ⟨?_, ?_, ?_, ?_, ?_, ?_, by decide, by decide, by decide, by decide, by decide, ?_, ?_⟩
  · intro d h
    unfold GetEnv
    by_cases hv : val = [] <;> simp [hval, hv, h]
  · intro d h
    unfold GetEnv
    by_cases hv : val = [] <;> simp [hval, hv, h]
  · intro d h
    unfold GetEnv
    by_cases hv : val = [] <;> simp [hval, hv, h]
  · intro d h
    unfold GetEnv
    by_cases hv : val = [] <;> simp [hval, hv, h]
  · intro d h
    unfold GetEnv
    by_cases hv : val = [] <;> simp [hval, hv, h]
  · intro d h
    unfold GetEnv
    by_cases hv : val = [] <;> simp [hval, hv, h]
  · intro n hn
    have hd : decimal (n : Int) = decDigits n := decimal_ofNat n
    rw [hd, ParseUint_decDigits, if_neg]
    norm_num
    omega
  · intro i hi
    rw [ParseInt_decimal, if_neg]
    norm_num
    omega

/-- C18, on the tests: `not_a_number` read as an `int` gives the default 100,
`-10` read as a `uint64` the default 50, `maybe` read as a `bool` the default. -/
theorem conversion_failure_returns_default_witness :
    GetEnv noParsers "INVALID_INT".toList (.int 100)
        (osWith "INVALID_INT".toList "not_a_number".toList) = .int 100 ∧
      GetEnv noParsers "NEGATIVE_UINT64".toList (.uint64 50)
        (osWith "NEGATIVE_UINT64".toList "-10".toList) = .uint64 50 ∧
      GetEnv noParsers "INVALID_BOOL".toList (.bool true)
        (osWith "INVALID_BOOL".toList "maybe".toList) = .bool true ∧
      GetEnv noParsers "INVALID_FLOAT".toList (.float64 (.finite false [1, 5] 1))
        (osWith "INVALID_FLOAT".toList "not_a_number".toList) =
          .float64 (.finite false [1, 5] 1) :=
  ⟨(conversion_failure_returns_default noParsers "INVALID_INT".toList "not_a_number".toList
      (osWith "INVALID_INT".toList "not_a_number".toList) (by decide)).1 100 (by decide),
    (conversion_failure_returns_default noParsers "NEGATIVE_UINT64".toList "-10".toList
      (osWith "NEGATIVE_UINT64".toList "-10".toList) (by decide)).2.1 50 (by decide),
    (conversion_failure_returns_default noParsers "INVALID_BOOL".toList "maybe".toList
      (osWith "INVALID_BOOL".toList "maybe".toList) (by decide)).2.2.2.1 true (by decide),
    (conversion_failure_returns_default noParsers "INVALID_FLOAT".toList
      "not_a_number".toList (osWith "INVALID_FLOAT".toList "not_a_number".toList)
      (by decide)).2.2.2.2.1 _ rfl⟩

/-- C19.  For a `bool` default, `GetEnv` returns `true` when the stored text is
`true`, `1` or `t` and `false` when it is `false`, `0` or `f`, whatever the
default; for a text that `ParseBool` does not know it returns the default. -/
theorem bool_literals (lib : Parsers) (key val : Str) (d : Bool) (os : OS)
    (hst : os.env key = some val) :
    ((val = "true".toList ∨ val = "1".toList ∨ val = "t".toList) →
        GetEnv lib key (.bool d) os = .bool true) ∧
      ((val = "false".toList ∨ val = "0".toList ∨ val = "f".toList) →
        GetEnv lib key (.bool d) os = .bool false) ∧
      (ParseBool val = none → GetEnv lib key (.bool d) os = .bool d) ∧
      ParseBool "maybe".toList = none := by
  have hval := Getenv_stored key val os hst
  refine ⟨?_, ?_, ?_, by decide⟩
  · intro h
    have hp : ParseBool val = some true := by
      rcases h with h | h | h <;> rw [h] <;> decide
    have hne : val ≠ [] := by
      rcases h with h | h | h <;> rw [h] <;> decide
    unfold GetEnv
    simp only [hval, hne, if_false, hp]
  · intro h
    have hp : ParseBool val = some false := by
      rcases h with h | h | h <;> rw [h] <;> decide
    have hne : val ≠ [] := by
      rcases h with h | h | h <;> rw [h] <;> decide
    unfold GetEnv
    simp only [hval, hne, if_false, hp]
  · intro h
    unfold GetEnv
    by_cases hv : val = [] <;> simp [hval, hv, h]

/-- C19, on the tests of `TestGetEnv_Bool`. -/
theorem bool_literals_witness :
    GetEnv noParsers "B".toList (.bool false) (osWith "B".toList "true".toList) = .bool true ∧
      GetEnv noParsers "B".toList (.bool true) (osWith "B".toList "0".toList) = .bool false ∧
      GetEnv noParsers "B".toList (.bool true) (osWith "B".toList "maybe".toList) =
        .bool true :=
  ⟨(bool_literals noParsers "B".toList "true".toList false
      (osWith "B".toList "true".toList) (by decide)).1 (Or.inl rfl),
    (bool_literals noParsers "B".toList "0".toList true
      (osWith "B".toList "0".toList) (by decide)).2.1 (Or.inr (Or.inl rfl)),
    (bool_literals noParsers "B".toList "maybe".toList true
      (osWith "B".toList "maybe".toList) (by decide)).2.2.1 (by decide)⟩

/-- C20.  For a default whose type the switch of `GetEnv` does not name, the
result is the default, whatever text is stored under the key; `GetEnv` has no
error to return. -/
theorem unknown_type_returns_default (lib : Parsers) (key typeName value : Str) (os : OS) :
    GetEnv lib key (.other typeName value) os = .other typeName value := by
  unfold GetEnv
  simp only
  split <;> rfl

/-- C20, on the test `TestGetEnv_UnknownType`: a struct default with
`TEST_CUSTOM` set to `some_value`. -/
theorem unknown_type_returns_default_witness :
    GetEnv noParsers "TEST_CUSTOM".toList (.other "CustomType".toList "default".toList)
        (osWith "TEST_CUSTOM".toList "some_value".toList) =
      .other "CustomType".toList "default".toList :=
  unknown_type_returns_default noParsers "TEST_CUSTOM".toList "CustomType".toList
    "default".toList (osWith "TEST_CUSTOM".toList "some_value".toList)

/-! ## Lemmas on the shape of the emitted entries -/

theorem processLine_not_skipped (text : Str) (os : OS) (h : ¬ skippedLine text) :
    processLine text os = Setenv (lineKey text) (unquote (lineRaw text)) os := by
  unfold skippedLine at h
  have h1 : ¬ (TrimSpace text = [] ∨ (TrimSpace text).head? = some '#') :=
    fun hh => hh.elim (fun e => h (Or.inl e)) (fun e => h (Or.inr (Or.inl e)))
  have h2 : ¬ removeComment (TrimSpace text) = [] := fun e => h (Or.inr (Or.inr (Or.inl e)))
  have h3 : '=' ∈ removeComment (TrimSpace text) := by
    by_contra e
    exact h (Or.inr (Or.inr (Or.inr e)))
  unfold processLine lineKey lineRaw lineBody
  simp only [h1, if_false, h2]
  unfold SplitN2
  rw [if_pos h3]

theorem lineBody_trimmed (text : Str) : ∃ x, lineBody text = TrimSpace x := by
  unfold lineBody removeComment
  split
  · exact ⟨_, rfl⟩
  · exact ⟨text, rfl⟩

theorem TrimSpace_ne_nil_of_head (c : Char) (xs : Str) (hc : isSpace c = false) :
    TrimSpace (c :: xs) ≠ [] := by
  have h := TrimSpace_append_cons [] xs c hc
  simp only [List.nil_append, List.dropWhile_nil] at h
  rw [h]
  exact List.cons_ne_nil _ _

theorem lineKey_eq_nil_iff (text : Str) (hne : lineBody text ≠ []) :
    lineKey text = [] ↔ (lineBody text).head? = some '=' := by
  obtain ⟨x, hx⟩ := lineBody_trimmed text
  unfold lineKey
  cases hb : lineBody text with
  | nil => exact absurd hb hne
  | cons c rest =>
    have hsp : isSpace c = false := by
      apply TrimSpace_head_not_space x c
      rw [← hx, hb]
      rfl
    by_cases hc : c = '='
    · subst hc
      simp [List.takeWhile, TrimSpace, List.rdropWhile]
    · have hb' : (c != '=') = true := by simp [hc]
      rw [List.takeWhile_cons, hb']
      simp only [if_true, List.head?_cons, Option.some.injEq, hc, iff_false]
      exact TrimSpace_ne_nil_of_head c _ hsp

theorem unquote_eq_nil_iff (raw : Str) :
    unquote raw = [] ↔ raw = [] ∨ raw = [dquote, dquote] ∨ raw = [squote, squote] := by
  constructor
  · intro h
    by_cases hw : wrapped raw
    · obtain ⟨q, s, hq, hr⟩ := wrapped_shape raw hw
      rw [hr, unquote_wrapped q s hq] at h
      rw [hr, h]
      rcases hq with e | e
      · exact Or.inr (Or.inl (by rw [e]; rfl))
      · exact Or.inr (Or.inr (by rw [e]; rfl))
    · rw [unquote_not_wrapped raw hw] at h
      exact Or.inl h
  · intro h
    rcases h with h | h | h <;> rw [h] <;> decide

theorem dotJoin_ne_nil (path : List Str) (hne : path ≠ []) (hkeys : ∀ k ∈ path, k ≠ []) :
    dotJoin path ≠ [] := by
  cases path with
  | nil => exact absurd rfl hne
  | cons k rest =>
    have hk : k ≠ [] := hkeys k (List.mem_cons_self _ _)
    cases rest with
    | nil => simpa [dotJoin] using hk
    | cons k' r =>
      rw [dotJoin]
      cases k with
      | nil => exact absurd rfl hk
      | cons c cs => simp

mutual
theorem leavesOfValue_path : ∀ (value : Value) (path : List Str) (leaf : List Str × Value),
    keysNonEmptyValue value = true → path ≠ [] → (∀ k ∈ path, k ≠ []) →
    leaf ∈ leavesOfValue path value → leaf.1 ≠ [] ∧ ∀ k ∈ leaf.1, k ≠ []
  | .mapping es, path, leaf, hv, _, hk, h => by
    rw [leavesOfValue] at h
    exact leavesOfEntries_path es path leaf (by simpa [keysNonEmptyValue] using hv) hk h
  | .sequence elems, path, leaf, _, hp, hk, h => by
    simp only [leavesOfValue, List.mem_singleton] at h
    rw [h]
    exact ⟨hp, hk⟩
  | .str s, path, leaf, _, hp, hk, h => by
    simp only [leavesOfValue, List.mem_singleton] at h
    rw [h]
    exact ⟨hp, hk⟩
  | .bool b, path, leaf, _, hp, hk, h => by
    simp only [leavesOfValue, List.mem_singleton] at h
    rw [h]
    exact ⟨hp, hk⟩
  | .int i, path, leaf, _, hp, hk, h => by
    simp only [leavesOfValue, List.mem_singleton] at h
    rw [h]
    exact ⟨hp, hk⟩
  | .float f, path, leaf, _, hp, hk, h => by
    simp only [leavesOfValue, List.mem_singleton] at h
    rw [h]
    exact ⟨hp, hk⟩
  | .null, path, leaf, _, hp, hk, h => by
    simp only [leavesOfValue, List.mem_singleton] at h
    rw [h]
    exact ⟨hp, hk⟩
  | .other text json, path, leaf, _, hp, hk, h => by
    simp only [leavesOfValue, List.mem_singleton] at h
    rw [h]
    exact ⟨hp, hk⟩
theorem leavesOfEntries_path : ∀ (es : List (Str × Value)) (path : List Str)
    (leaf : List Str × Value), keysNonEmpty es = true → (∀ k ∈ path, k ≠ []) →
    leaf ∈ leavesOfEntries path es → leaf.1 ≠ [] ∧ ∀ k ∈ leaf.1, k ≠ []
  | [], path, leaf, _, _, h => by
    simp [leavesOfEntries] at h
  | (key, value) :: rest, path, leaf, he, hk, h => by
    have he' : key ≠ [] ∧ keysNonEmptyValue value = true ∧ keysNonEmpty rest = true := by
      simpa [keysNonEmpty, and_assoc] using he
    rw [leavesOfEntries] at h
    rcases List.mem_append.mp h with h | h
    · refine leavesOfValue_path value (path ++ [key]) leaf he'.2.1 (by simp) ?_ h
      intro k hkm
      rcases List.mem_append.mp hkm with h' | h'
      · exact hk k h'
      · rw [List.mem_singleton.mp h']; exact he'.1
    · exact leavesOfEntries_path rest path leaf he'.2.2 hk h
end

theorem fmtE_ne_nil (neg : Bool) (d : List Nat) (dp prec : Int) : fmtE neg d dp prec ≠ [] := by
  unfold fmtE
  simp

theorem fmtF_ne_nil (neg : Bool) (d : List Nat) (dp : Int) (prec : Nat) :
    fmtF neg d dp prec ≠ [] := by
  unfold fmtF
  simp only
  intro h
  have hlen := congrArg List.length h
  simp only [List.length_append, List.length_nil] at hlen
  by_cases hdp : 0 < dp
  · simp only [hdp, if_true, List.length_append, List.length_map, List.length_take,
      List.length_replicate] at hlen
    have : 0 < dp.toNat := by omega
    omega
  · simp only [hdp, if_false, List.length_singleton] at hlen
    omega

theorem sprintFloat_ne_nil (f : Float64) : sprintFloat f ≠ [] := by
  cases f with
  | nan => decide
  | inf neg => cases neg <;> decide
  | finite neg d dp =>
    rw [sprintFloat]
    split
    · exact fmtE_ne_nil _ _ _ _
    · exact fmtF_ne_nil _ _ _ _

theorem leafText_eq_nil_iff (v : Value) (t : Str) (h : leafText v = some t) :
    t = [] ↔ v = Value.str [] ∨ ∃ json, v = Value.other [] json := by
  cases v with
  | mapping es => simp [leafText] at h
  | sequence elems =>
    simp only [leafText, Marshal_eq] at h
    cases hj : jsonElems elems with
    | none => rw [hj] at h; simp at h
    | some es =>
      rw [hj] at h
      simp only [Option.map_some', Option.some.injEq] at h
      rw [← h]
      simp
  | str s =>
    simp only [leafText, Sprint, Option.some.injEq] at h
    rw [← h]
    simp
  | bool b =>
    simp only [leafText, Option.some.injEq] at h
    rw [← h]
    cases b <;> simp [Sprint]
  | int i =>
    simp only [leafText, Sprint, Option.some.injEq] at h
    rw [← h]
    simp [decimal_ne_nil]
  | float f =>
    simp only [leafText, Sprint, Option.some.injEq] at h
    rw [← h]
    simp [sprintFloat_ne_nil]
  | null =>
    simp only [leafText, Sprint, Option.some.injEq] at h
    rw [← h]
    simp
  | other text json =>
    simp only [leafText, Sprint, Option.some.injEq] at h
    rw [← h]
    simp

/-! ## The claim on the shape of the emitted entries -/

/-- C11, as amended.  The entries that the two parsers emit.  A line of the
key-value format that is not skipped emits the trimmed text before the first
`=` with the unquoted trimmed text after it; the key is empty exactly when the
line, trimmed and without its comment, starts with `=`, and the value is empty
exactly when the raw value is empty or is a pair of quotes.  For a tree whose
mapping keys are all non-empty, every entry the flattener emits is the entry
of a leaf, a value that is no mapping with string keys: its key is the
dot-joined path to the leaf and is non-empty, and its value is the text of the
leaf (the JSON text of a sequence, the `%v` text of any other value), which is
empty exactly when the leaf is the empty string, or a value of another type
that `%v` prints as the empty text. -/
theorem emitted_entries_shape :
    (∀ (text : Str) (os : OS), ¬ skippedLine text →
      processLine text os = Setenv (lineKey text) (unquote (lineRaw text)) os ∧
      (lineKey text = [] ↔ (lineBody text).head? = some '=') ∧
      (unquote (lineRaw text) = [] ↔
        lineRaw text = [] ∨ lineRaw text = [dquote, dquote] ∨
          lineRaw text = [squote, squote])) ∧
    (∀ (data : List (Str × Value)) (os : OS), keysNonEmpty data = true →
      ∃ emitted : List (Str × Str),
        (flattenAndSetEnv [] data os).calls = os.calls ++ emitted ∧
        ∀ p ∈ emitted, ∃ leaf ∈ leavesOfEntries [] data,
          p.1 = dotJoin leaf.1 ∧ p.1 ≠ [] ∧ leafText leaf.2 = some p.2 ∧
            (p.2 = [] ↔ leaf.2 = Value.str [] ∨ ∃ json, leaf.2 = Value.other [] json)) := by
  constructor
  · intro text os h
    refine ⟨processLine_not_skipped text os h, ?_, unquote_eq_nil_iff _⟩
    apply lineKey_eq_nil_iff
    intro e
    exact h (Or.inr (Or.inr (Or.inl e)))
  · intro data os hkeys
    have hcalls := flattenAndSetEnv_calls data [] os hkeys (by simp)
    simp only [dotJoin] at hcalls
    refine ⟨_, hcalls, ?_⟩
    intro p hp
    obtain ⟨leaf, hleaf, hentry⟩ := List.mem_filterMap.mp hp
    unfold leafEntry at hentry
    cases ht : leafText leaf.2 with
    | none => rw [ht] at hentry; simp at hentry
    | some t =>
      rw [ht] at hentry
      simp only [Option.map_some', Option.some.injEq] at hentry
      have hpath := leavesOfEntries_path data [] leaf hkeys (by simp) hleaf
      refine ⟨leaf, hleaf, ?_, ?_, ?_, ?_⟩
      · rw [← hentry]
      · rw [← hentry]
        exact dotJoin_ne_nil leaf.1 hpath.1 hpath.2
      · rw [← hentry, ht]
      · rw [← hentry]
        exact leafText_eq_nil_iff leaf.2 t ht

/-- C11, as stated, fails: the line `=x` emits an entry with the empty key; the
flattener emits an empty value for the empty string of `{"a":""}`, which is no
key-value assignment; and for `{"":{"b":1}}` it emits the key `b`, which is not
the dot-joined path `.b`. -/
theorem entries_with_empty_key_or_value :
    (processLine "=x".toList os0).calls = [([], "x".toList)] ∧
      (flattenAndSetEnv [] [("a".toList, .str [])] os0).calls = [("a".toList, [])] ∧
      (flattenAndSetEnv [] [([], .mapping [("b".toList, .int 1)])] os0).calls =
        [("b".toList, "1".toList)] ∧
      dotJoin [[], "b".toList] = ".b".toList := by
  decide

/-! ## Lemmas on the accessor for dotted keys -/

theorem map_eq_self_mem {α : Type} (f : α → α) (l : List α) (h : l.map f = l) :
    ∀ x ∈ l, f x = x := by
  induction l with
  | nil => intro x hx; simp at hx
  | cons a rest ih =>
    simp only [List.map_cons, List.cons.injEq] at h
    intro x hx
    rcases List.mem_cons.mp hx with e | e
    · rw [e]; exact h.1
    · exact ih h.2 x e

theorem nestedKey_eq_map (table : Char → Char) (key : Str) :
    ToUpper table (ReplaceAll key '.' '_') =
      key.map fun c => if c = '.' then '_' else toUpperRune table c := by
  unfold ToUpper ReplaceAll
  rw [List.map_map]
  apply List.map_congr_left
  intro c _
  simp only [Function.comp]
  by_cases hc : c = '.'
  · simp only [hc, if_true]
    rfl
  · simp only [hc, if_false]

theorem toUpperRune_ascii (table : Char → Char) (c : Char) (h : c.toNat ≤ 127) :
    toUpperRune table c = c.toUpper := by
  unfold toUpperRune Char.toUpper
  rw [if_pos h]

theorem toUpperRune_lower_ne (table : Char → Char) (c : Char) (h : c.isLower = true) :
    toUpperRune table c ≠ c := by
  have hn : 97 ≤ c.toNat ∧ c.toNat ≤ 122 := by
    unfold Char.isLower at h
    simp only [Bool.and_eq_true, decide_eq_true_eq] at h
    exact ⟨h.1, h.2⟩
  unfold toUpperRune
  rw [if_pos (by omega), if_pos hn]
  intro e
  have e' := congrArg Char.toNat e
  generalize c.toNat = n at hn e'
  obtain ⟨h1, h2⟩ := hn
  interval_cases n <;> revert e' <;> decide

theorem nestedKey_ne (table : Char → Char) (key : Str)
    (h : '.' ∈ key ∨ ∃ c ∈ key, c.isLower = true) :
    ToUpper table (ReplaceAll key '.' '_') ≠ key := by
  rw [nestedKey_eq_map]
  intro e
  have hfix := map_eq_self_mem _ key e
  rcases h with h | ⟨c, hc, hl⟩
  · have := hfix '.' h
    simp only [if_true] at this
    revert this
    decide
  · have hcd : c ≠ '.' := by
      intro e'
      rw [e'] at hl
      revert hl
      decide
    have := hfix c hc
    simp only [hcd, if_false] at this
    exact toUpperRune_lower_ne table c hl this

theorem Setenv_env_self (key value : Str) (os : OS) (h : setenvOk key value = true) :
    (Setenv key value os).env key = some value := by
  unfold Setenv
  simp [h]

theorem Setenv_env_other (key value k : Str) (os : OS) (h : k ≠ key) :
    (Setenv key value os).env k = os.env k := by
  unfold Setenv
  by_cases hok : setenvOk key value = true
  · simp [hok, h]
  · simp [hok]

/-! ## The claims on the accessor for dotted keys -/

/-- C21.  `GetEnvNested(k, d)` is `GetEnv(k', d)`, where `k'` is `k` with every
`.` replaced by `_` and every other character upper-cased; for a key of ASCII
characters the translation does not depend on the case table.  So `db.host`
is looked up as `DB_HOST`. -/
theorem nested_is_getenv_of_translated_key (table : Char → Char) (lib : Parsers) (k : Str)
    (d : GoValue) (os : OS) :
    GetEnvNested table lib k d os =
        GetEnv lib (k.map fun c => if c = '.' then '_' else toUpperRune table c) d os ∧
      ((∀ c ∈ k, c.toNat ≤ 127) →
        GetEnvNested table lib k d os =
          GetEnv lib (k.map fun c => if c = '.' then '_' else c.toUpper) d os) ∧
      ToUpper table (ReplaceAll "db.host".toList '.' '_') = "DB_HOST".toList := by
  have h1 : GetEnvNested table lib k d os =
      GetEnv lib (k.map fun c => if c = '.' then '_' else toUpperRune table c) d os := by
    unfold GetEnvNested
    simp only [nestedKey_eq_map]
  refine ⟨h1, ?_, ?_⟩
  · intro hascii
    rw [h1]
    congr 1
    apply List.map_congr_left
    intro c hc
    by_cases hd : c = '.'
    · simp only [hd, if_true]
    · simp only [hd, if_false]
      exact toUpperRune_ascii table c (hascii c hc)
  · rw [nestedKey_eq_map]
    have hall : ∀ c ∈ "db.host".toList, c.toNat ≤ 127 := by decide
    have : "db.host".toList.map (fun c => if c = '.' then '_' else toUpperRune table c) =
        "db.host".toList.map (fun c => if c = '.' then '_' else c.toUpper) := by
      apply List.map_congr_left
      intro c hc
      by_cases hd : c = '.'
      · simp only [hd, if_true]
      · simp only [hd, if_false]
        exact toUpperRune_ascii table c (hall c hc)
    rw [this]
    decide

/-- C21, on the tests: with `DB_HOST` bound to `myhost`,
`GetEnvNested("db.host", "localhost")` is `myhost`; with `DB_HOST` not set it
is `localhost`. -/
theorem nested_is_getenv_of_translated_key_witness :
    GetEnvNested id noParsers "db.host".toList (.string "localhost".toList)
        (osWith "DB_HOST".toList "myhost".toList) = .string "myhost".toList ∧
      GetEnvNested id noParsers "db.host".toList (.string "localhost".toList) os0 =
        .string "localhost".toList := by
  have h1 := (nested_is_getenv_of_translated_key id noParsers "db.host".toList
    (.string "localhost".toList) (osWith "DB_HOST".toList "myhost".toList)).2.1 (by decide)
  have h2 := (nested_is_getenv_of_translated_key id noParsers "db.host".toList
    (.string "localhost".toList) os0).2.1 (by decide)
  rw [h1, h2]
  decide

/-- C25, as amended.  A value that the flattener writes under a key `k` with a
`.` or a letter that upper-casing changes (every small letter of ASCII, and
any other character that has another upper case in the case table) is not
seen by `GetEnvNested` under that key: the flattener binds the
key `k` itself, `GetEnvNested(k, d)` looks up the translated key, which is
another key; when that key is not set, `GetEnvNested(k, d)` is `d` while
`GetEnv(k, d)` is the value. -/
theorem flattened_value_hidden_from_nested (table : Char → Char) (lib : Parsers) (k : Str)
    (hk : '.' ∈ k ∨ ∃ c ∈ k, c.isLower = true ∨ toUpperRune table c ≠ c) :
    ToUpper table (ReplaceAll k '.' '_') ≠ k ∧
      (∀ (d : GoValue) (os : OS), GetEnvNested table lib k d os =
        GetEnv lib (ToUpper table (ReplaceAll k '.' '_')) d os) ∧
      (∀ (s d : Str) (os : OS), setenvOk k s = true → s ≠ [] →
        os.env (ToUpper table (ReplaceAll k '.' '_')) = none →
        (flattenValue k (.str s) os).env k = some s ∧
          (flattenValue k (.str s) os).env (ToUpper table (ReplaceAll k '.' '_')) = none ∧
          GetEnvNested table lib k (.string d) (flattenValue k (.str s) os) = .string d ∧
          GetEnv lib k (.string d) (flattenValue k (.str s) os) = .string s) := by
  have hne : ToUpper table (ReplaceAll k '.' '_') ≠ k := by
    rcases hk with h | ⟨c, hc, h | h⟩
    · exact nestedKey_ne table k (Or.inl h)
    · exact nestedKey_ne table k (Or.inr ⟨c, hc, h⟩)
    · rw [nestedKey_eq_map]
      intro e
      have hfix := map_eq_self_mem _ k e c hc
      by_cases hd : c = '.'
      · exact nestedKey_ne table k (Or.inl (hd ▸ hc)) (by rw [nestedKey_eq_map]; exact e)
      · simp only [hd, if_false] at hfix
        exact h hfix
  refine ⟨hne, fun d os => rfl, ?_⟩
  intro s d os hok hs hunset
  have hflat : flattenValue k (.str s) os = Setenv k s os := by
    rw [flattenValue]
    rfl
  have hself : (flattenValue k (.str s) os).env k = some s := by
    rw [hflat]
    exact Setenv_env_self k s os hok
  have hother : (flattenValue k (.str s) os).env (ToUpper table (ReplaceAll k '.' '_')) =
      none := by
    rw [hflat, Setenv_env_other k s _ os hne, hunset]
  refine ⟨hself, hother, ?_, ?_⟩
  · unfold GetEnvNested
    exact GetEnv_unset lib _ _ _ (Or.inl hother)
  · unfold GetEnv
    simp only [Getenv_stored k s _ hself, hs, if_false]

/-- C25, witness: after flattening `{"db":{"host":"x"}}` into the empty table,
`GetEnvNested("db.host", d)` is `d` and `GetEnv("db.host", d)` is `x`. -/
theorem flattened_value_hidden_from_nested_witness :
    flattenAndSetEnv [] dbDoc os0 = flattenValue "db.host".toList (.str "x".toList) os0 ∧
      GetEnvNested id noParsers "db.host".toList (.string "d".toList)
        (flattenAndSetEnv [] dbDoc os0) = .string "d".toList ∧
      GetEnv noParsers "db.host".toList (.string "d".toList)
        (flattenAndSetEnv [] dbDoc os0) = .string "x".toList := by
  have hflat : flattenAndSetEnv [] dbDoc os0 =
      flattenValue "db.host".toList (.str "x".toList) os0 := by
    simp only [dbDoc, flattenAndSetEnv, flattenValue]
    rfl
  have h := (flattened_value_hidden_from_nested id noParsers "db.host".toList
    (Or.inl (by decide))).2.2 "x".toList "d".toList os0 (by decide) (by decide) rfl
  rw [hflat]
  exact ⟨rfl, h.2.2.1, h.2.2.2⟩

/-- C25, as stated, fails: the key `ß` has a lower-case letter and no `.`;
upper-casing leaves it as it is, so the translated key is the key itself, and
after flattening the document that binds `ß` to `x`, `GetEnvNested("ß", d)`
returns `x`. -/
theorem caseless_letter_is_seen_by_nested :
    ToUpper sharpSTable (ReplaceAll [sharpS] '.' '_') = [sharpS] ∧
      (flattenAndSetEnv [] sharpSDoc os0).env [sharpS] = some "x".toList ∧
      GetEnvNested sharpSTable noParsers [sharpS] (.string "d".toList)
        (flattenAndSetEnv [] sharpSDoc os0) = .string "x".toList := by
  decide

/-! ## Lemmas on a quote that is not closed -/

theorem scanComment_none_index : ∀ (s : Str) (i j : Nat) (b : Bool) (c : Char),
    scanComment s i b c = none → scanComment s j b c = none
  | [], _, _, _, _, _ => by rw [scanComment]
  | ch :: rest, i, j, b, c, h => by
    rw [scanComment] at h ⊢
    split at h
    · exact absurd h (by simp)
    · rename_i h1
      rw [if_neg h1]
      split at h
      · rename_i h2
        rw [if_pos h2]
        exact scanComment_none_index rest _ _ _ _ h
      · rename_i h2
        rw [if_neg h2]
        split at h
        · rename_i h3
          rw [if_pos h3]
          exact scanComment_none_index rest _ _ _ _ h
        · rename_i h3
          rw [if_neg h3]
          exact scanComment_none_index rest _ _ _ _ h

theorem scanComment_none_of_append : ∀ (a t : Str) (i : Nat) (b : Bool) (c : Char),
    scanComment (a ++ t) i b c = none → scanComment a i b c = none
  | [], _, _, _, _, _ => by rw [scanComment]
  | ch :: rest, t, i, b, c, h => by
    rw [List.cons_append, scanComment] at h
    rw [scanComment]
    split at h
    · exact absurd h (by simp)
    · rename_i h1
      rw [if_neg h1]
      split at h
      · rename_i h2
        rw [if_pos h2]
        exact scanComment_none_of_append rest t _ _ _ h
      · rename_i h2
        rw [if_neg h2]
        split at h
        · rename_i h3
          rw [if_pos h3]
          exact scanComment_none_of_append rest t _ _ _ h
        · rename_i h3
          rw [if_neg h3]
          exact scanComment_none_of_append rest t _ _ _ h

theorem commentIndex_TrimSpace (s : Str) (h : commentIndex s = none) :
    commentIndex (TrimSpace s) = none := by
  unfold commentIndex at h ⊢
  have hsplit : s = s.takeWhile isSpace ++ s.dropWhile isSpace :=
    (List.takeWhile_append_dropWhile isSpace s).symm
  have hplain : ∀ ch ∈ s.takeWhile isSpace, ch ≠ '#' ∧ ch ≠ dquote ∧ ch ≠ squote := by
    intro ch hch
    have := isSpace_not_plain ch (List.mem_takeWhile_imp hch)
    exact ⟨this.1, this.2.1, this.2.2.1⟩
  rw [hsplit, scanComment_skip _ _ 0 nul hplain] at h
  have h0 := scanComment_none_index _ _ 0 _ _ h
  obtain ⟨t, ht⟩ := List.rdropWhile_prefix isSpace (s.dropWhile isSpace)
  rw [← ht] at h0
  exact scanComment_none_of_append _ t 0 false nul h0

theorem commentIndex_unclosed (x y : Str) (q : Char) (hx : Balanced x)
    (hq : q = dquote ∨ q = squote) (hy : q ∉ y) : commentIndex (x ++ q :: y) = none := by
  unfold commentIndex
  rw [hx, scanComment_open q hq]
  have h := scanComment_inside y [] (0 + x.length + 1) q hy
  rw [List.append_nil] at h
  rw [h, scanComment]

theorem removeComment_of_none (line : Str) (h : commentIndex line = none) :
    removeComment line = line := by
  unfold removeComment
  rw [h]

theorem processLine_whole (text : Str) (os : OS) (hnone : commentIndex text = none)
    (heq : '=' ∈ text) :
    processLine text os =
      Setenv (TrimSpace (text.takeWhile (· != '=')))
        (unquote (TrimSpace ((text.dropWhile (· != '=')).drop 1))) os := by
  obtain ⟨hsplit, hk⟩ := split_at_first_eq text heq
  generalize text.takeWhile (· != '=') = a at hsplit hk ⊢
  generalize (text.dropWhile (· != '=')).drop 1 = b at hsplit ⊢
  have hsp : isSpace '=' = false := by decide
  have ht : TrimSpace text = a.dropWhile isSpace ++ '=' :: b.rdropWhile isSpace := by
    rw [hsplit]
    exact TrimSpace_append_cons a b '=' hsp
  have hnone' := commentIndex_TrimSpace text hnone
  have hne : TrimSpace text ≠ [] := by rw [ht]; simp
  have hhash : (TrimSpace text).head? ≠ some '#' := by
    intro e
    cases hl : TrimSpace text with
    | nil => exact hne hl
    | cons c rest =>
      rw [hl] at e hnone'
      simp only [List.head?_cons, Option.some.injEq] at e
      rw [e] at hnone'
      unfold commentIndex at hnone'
      rw [scanComment_hash] at hnone'
      exact absurd hnone' (by simp)
  have hrc : removeComment (TrimSpace text) =
      a.dropWhile isSpace ++ '=' :: b.rdropWhile isSpace := by
    rw [removeComment_of_none _ hnone', ht]
  have hk' : '=' ∉ a.dropWhile isSpace :=
    fun h => hk ((List.dropWhile_suffix isSpace).subset h)
  rw [processLine_core _ _ _ os hne hhash hrc hk', TrimSpace_dropWhile, TrimSpace_rdropWhile]

/-! ## The claim on a quote that is not closed -/

/-- C26.  A quote that is not closed suppresses the comment removal.  For a line
`x ++ q :: y` in which the quote `q` opens a span (after `x` the scan is outside
quotes and has found no comment start) that no later `q` closes, the scan finds
no comment start, the comment removal leaves the trimmed line as it is, and a
line with an `=` emits the trimmed text before the first `=` with the unquoted
trimmed text after it, every `#` of the line included. -/
theorem unclosed_quote_suppresses_comment (x y : Str) (q : Char) (os : OS) (hx : Balanced x)
    (hq : q = dquote ∨ q = squote) (hy : q ∉ y) (heq : '=' ∈ x ++ q :: y) :
    commentIndex (TrimSpace (x ++ q :: y)) = none ∧
      removeComment (TrimSpace (x ++ q :: y)) = TrimSpace (x ++ q :: y) ∧
      processLine (x ++ q :: y) os =
        Setenv (TrimSpace ((x ++ q :: y).takeWhile (· != '=')))
          (unquote (TrimSpace (((x ++ q :: y).dropWhile (· != '=')).drop 1))) os ∧
      (¬ wrapped (TrimSpace (((x ++ q :: y).dropWhile (· != '=')).drop 1)) →
        processLine (x ++ q :: y) os =
          Setenv (TrimSpace ((x ++ q :: y).takeWhile (· != '=')))
            (TrimSpace (((x ++ q :: y).dropWhile (· != '=')).drop 1)) os) := by
  have hnone := commentIndex_unclosed x y q hx hq hy
  have hnone' := commentIndex_TrimSpace _ hnone
  have hp := processLine_whole (x ++ q :: y) os hnone heq
  refine ⟨hnone', removeComment_of_none _ hnone', hp, ?_⟩
  intro hw
  rw [hp, unquote_not_wrapped _ hw]

/-- C26, witness: the line `MSG=don't stop # note` emits the key `MSG` with the
value `don't stop # note`. -/
theorem unclosed_quote_suppresses_comment_witness :
    "MSG=don".toList ++ squote :: "t stop # note".toList = "MSG=don\x27t stop # note".toList ∧
      processLine "MSG=don\x27t stop # note".toList os0 =
        Setenv "MSG".toList "don\x27t stop # note".toList os0 := by
  have h := (unclosed_quote_suppresses_comment "MSG=don".toList "t stop # note".toList squote os0
    (Balanced_plain _ (by decide)) (Or.inr rfl) (by decide) (by decide)).2.2.2 (by decide)
  have e : "MSG=don".toList ++ squote :: "t stop # note".toList =
      "MSG=don\x27t stop # note".toList := by decide
  rw [e] at h
  refine ⟨e, ?_⟩
  rw [h]
  have e1 : TrimSpace ("MSG=don\x27t stop # note".toList.takeWhile (· != '=')) = "MSG".toList := by
    decide
  have e2 : TrimSpace (("MSG=don\x27t stop # note".toList.dropWhile (· != '=')).drop 1) =
      "don\x27t stop # note".toList := by decide
  rw [e1, e2]

/-! ## Lemmas on a load that fails -/

theorem rawLines_longLine : rawLines longLine.content = [longLine.content] := by
  have hpos : MaxScanTokenSize = (MaxScanTokenSize - 1) + 1 := by decide
  have hmem : lf ∉ longLine.content := by
    intro hm
    have := List.eq_of_mem_replicate hm
    revert this
    decide
  have hc : longLine.content = 'a' :: List.replicate (MaxScanTokenSize - 1) 'a' := by
    show List.replicate MaxScanTokenSize 'a' = _
    rw [← List.replicate_succ, ← hpos]
  rw [hc] at hmem ⊢
  exact rawLines_no_lf _ _ hmem

theorem len_longLine : MaxScanTokenSize ≤ len longLine.content := by
  have := length_le_len longLine.content
  have hl : longLine.content.length = MaxScanTokenSize := List.length_replicate _ _
  omega

theorem parserOf_failed_state (dec : Decoders) (fs : FS) (g : FileFormat) (f : Str) (os : OS)
    (hclean : g = FormatKeyValue → osOpen fs f = none)
    (hfail : (parserOf dec fs g f os).2 ≠ none) : (parserOf dec fs g f os).1 = os := by
  rcases parserOf_cases dec fs g with ⟨h, hp⟩ | ⟨_, hp⟩ | ⟨_, hp⟩ | ⟨_, _, _, hp⟩
  · rw [hp]
    unfold loadKeyValueFile
    rw [hclean h]
  · rw [hp] at hfail ⊢
    unfold loadJSONFile at hfail ⊢
    split
    · rfl
    · rename_i data hdata
      rw [hdata] at hfail
      simp only at hfail
      split
      · rfl
      · rename_i doc hdoc
        rw [hdoc] at hfail
        exact absurd rfl hfail
  · rw [hp] at hfail ⊢
    unfold loadYAMLFile at hfail ⊢
    split
    · rfl
    · rename_i data hdata
      rw [hdata] at hfail
      simp only at hfail
      split
      · rfl
      · rename_i doc hdoc
        rw [hdoc] at hfail
        exact absurd rfl hfail
  · rw [hp]

theorem LoadEnvWithFormat_failed_state (dec : Decoders) (fs : FS) (format : FileFormat)
    (paths : List Str) (os : OS)
    (hclean : ∀ f ∈ paths,
      (if format = FormatAuto then detectFormat f else format) = FormatKeyValue →
        osOpen fs f = none)
    (hfail : (LoadEnvWithFormat dec fs format paths os).2 ≠ none) :
    (LoadEnvWithFormat dec fs format paths os).1 = os := by
  induction paths with
  | nil => rfl
  | cons f rest ih =>
    have hrest : ∀ g ∈ rest,
        (if format = FormatAuto then detectFormat g else format) = FormatKeyValue →
          osOpen fs g = none := fun g hg => hclean g (List.mem_cons_of_mem _ hg)
    rw [LoadEnvWithFormat_cons] at hfail ⊢
    by_cases hf : f = []
    · simp only [hf, if_true] at hfail ⊢
      exact ih hrest hfail
    · simp only [hf, if_false] at hfail ⊢
      by_cases hone : (loadOne dec fs format f os).2 = none
      · simp only [hone, if_true] at hfail
        exact absurd rfl hfail
      · have hstate : (loadOne dec fs format f os).1 = os := by
          rw [loadOne_eq_parserOf] at hone ⊢
          exact parserOf_failed_state dec fs _ f os (hclean f (List.mem_cons_self _ _)) hone
        simp only [hone, if_false, hstate] at hfail ⊢
        exact ih hrest hfail

/-! ## The claim on a load that fails -/

/-- C24, as amended.  A failed load leaves the state, and so the environment
table, unchanged when no candidate is a key-value file that could be opened:
if every candidate is empty, or cannot be opened, or is parsed as JSON or as
YAML (or has a format that is not supported), and `LoadEnvWithFormat` returns
the aggregate error, the state after the call is the state before it. -/
theorem failed_load_keeps_table (dec : Decoders) (fs : FS) (format : FileFormat)
    (paths : List Str) (os : OS)
    (hclean : ∀ f ∈ paths,
      (if format = FormatAuto then detectFormat f else format) = FormatKeyValue →
        osOpen fs f = none)
    (hfail : (LoadEnvWithFormat dec fs format paths os).2 ≠ none) :
    (LoadEnvWithFormat dec fs format paths os).1 = os ∧
      (LoadEnvWithFormat dec fs format paths os).1.env = os.env ∧
      (LoadEnvWithFormat dec fs format paths os).2 = some Err.noFileLoaded := by
  have h := LoadEnvWithFormat_failed_state dec fs format paths os hclean hfail
  refine ⟨h, by rw [h], ?_⟩
  have hcases := (tryInOrder_error_iff (loadOne dec fs format) (parseError dec fs format)
    (loadOne_snd dec fs format) paths os).2
  rw [← LoadEnvWithFormat_eq_tryInOrder] at hcases
  rcases hcases with h' | h'
  · exact absurd h' hfail
  · exact h'

/-- C24, witness: an empty name, a key-value file that does not exist and the
file `valid.json` with decoders that refuse it. -/
theorem failed_load_keeps_table_witness :
    (LoadEnvWithFormat noDecoders sampleFS FormatAuto
        [[], "missing.env".toList, "valid.json".toList] os0).1 = os0 ∧
      (LoadEnvWithFormat noDecoders sampleFS FormatAuto
        [[], "missing.env".toList, "valid.json".toList] os0).2 = some Err.noFileLoaded := by
  have h := failed_load_keeps_table noDecoders sampleFS FormatAuto
    [[], "missing.env".toList, "valid.json".toList] os0 (by decide) (by decide)
  exact ⟨h.1, h.2.2⟩

/-- C24, as stated, fails: the key-value file `part.env` has the line `A=1` and
after it a line that does not fit the scanner buffer.  The load returns the
aggregate error, and `A`, which was not set before the call, is bound to `1`
after it. -/
theorem failed_load_changes_table :
    (LoadEnvWithFormat noDecoders partFS FormatKeyValue ["part.env".toList] os0).2 =
        some Err.noFileLoaded ∧
      (LoadEnv noDecoders partFS ["part.env".toList] os0).2 = some Err.noFileLoaded ∧
      os0.env "A".toList = none ∧
      (LoadEnvWithFormat noDecoders partFS FormatKeyValue ["part.env".toList] os0).1.env
        "A".toList = some "1".toList ∧
      (LoadEnv noDecoders partFS ["part.env".toList] os0).1.env "A".toList =
        some "1".toList := by
  have hopen : osOpen partFS "part.env".toList =
      some { content := "A=1".toList ++ lf :: longLine.content, readFails := false } := rfl
  have hlines : rawLines ("A=1".toList ++ lf :: longLine.content) =
      ["A=1".toList, longLine.content] := by
    rw [rawLines_line _ _ (by decide), rawLines_longLine]
  have hshort : ¬ MaxScanTokenSize ≤ len "A=1".toList := by decide
  have hline : processLine (dropCR "A=1".toList) os0 = Setenv "A".toList "1".toList os0 := by
    have hcr : dropCR "A=1".toList = "A".toList ++ '=' :: "1".toList := by decide
    rw [hcr, processLine_plain _ _ os0 (by decide) (by decide)]
    rfl
  have hload : loadKeyValueFile partFS "part.env".toList os0 =
      (Setenv "A".toList "1".toList os0, some Err.tokenTooLong) := by
    rw [loadKeyValueFile_of_open partFS _ _ os0 hopen]
    rw [hlines, scanLoop, if_neg hshort, scanLoop, if_pos len_longLine, hline]
    rfl
  have hkv : LoadEnvWithFormat noDecoders partFS FormatKeyValue ["part.env".toList] os0 =
      (Setenv "A".toList "1".toList os0, some Err.noFileLoaded) := by
    rw [LoadEnvWithFormat_keyValue_single noDecoders partFS _ os0 (by decide), hload]
    rfl
  have hauto : LoadEnv noDecoders partFS ["part.env".toList] os0 =
      (Setenv "A".toList "1".toList os0, some Err.noFileLoaded) := by
    unfold LoadEnv
    rw [LoadEnvWithFormat_cons, if_neg (by decide), loadOne_auto]
    have hd : detectFormat "part.env".toList = FormatKeyValue := by decide
    rw [hd]
    rcases parserOf_cases noDecoders partFS FormatKeyValue with ⟨_, hp⟩ | ⟨h, _⟩ | ⟨h, _⟩ | ⟨h, _⟩
    · rw [hp, hload]
      rfl
    · exact absurd h (by decide)
    · exact absurd h (by decide)
    · exact absurd rfl h
  rw [hkv, hauto]
  exact ⟨rfl, rfl, rfl, by decide, by decide⟩

/-! ## Lemmas on the keys of the leaves -/

theorem plainKey_iff (key : Str) : plainKey key = true ↔ key ≠ [] ∧ '.' ∉ key := by
  unfold plainKey
  cases key with
  | nil => simp
  | cons c cs => simp [List.isEmpty]

mutual
theorem keysNonEmptyValue_of_plain : ∀ (value : Value),
    keysPlainValue value = true → keysNonEmptyValue value = true
  | .mapping es, h => by
    rw [keysPlainValue] at h
    rw [keysNonEmptyValue]
    exact keysNonEmpty_of_plain es h
  | .sequence _, _ => rfl
  | .str _, _ => rfl
  | .bool _, _ => rfl
  | .int _, _ => rfl
  | .float _, _ => rfl
  | .null, _ => rfl
  | .other _ _, _ => rfl
theorem keysNonEmpty_of_plain : ∀ (es : List (Str × Value)),
    keysPlain es = true → keysNonEmpty es = true
  | [], _ => rfl
  | (key, value) :: rest, h => by
    have h' : plainKey key = true ∧ keysPlainValue value = true ∧ keysPlain rest = true := by
      simpa [keysPlain, and_assoc] using h
    have hk := ((plainKey_iff key).mp h'.1).1
    have hv := keysNonEmptyValue_of_plain value h'.2.1
    have hr := keysNonEmpty_of_plain rest h'.2.2
    simp [keysNonEmpty, hk, hv, hr]
end

mutual
theorem leavesOfValue_plain : ∀ (value : Value) (path : List Str) (leaf : List Str × Value),
    keysPlainValue value = true → (∀ k ∈ path, plainKey k = true) →
    leaf ∈ leavesOfValue path value → ∀ k ∈ leaf.1, plainKey k = true
  | .mapping es, path, leaf, hv, hk, h => by
    rw [leavesOfValue] at h
    exact leavesOfEntries_plain es path leaf (by simpa [keysPlainValue] using hv) hk h
  | .sequence elems, path, leaf, _, hk, h => by
    simp only [leavesOfValue, List.mem_singleton] at h
    rw [h]
    exact hk
  | .str s, path, leaf, _, hk, h => by
    simp only [leavesOfValue, List.mem_singleton] at h
    rw [h]
    exact hk
  | .bool b, path, leaf, _, hk, h => by
    simp only [leavesOfValue, List.mem_singleton] at h
    rw [h]
    exact hk
  | .int i, path, leaf, _, hk, h => by
    simp only [leavesOfValue, List.mem_singleton] at h
    rw [h]
    exact hk
  | .float f, path, leaf, _, hk, h => by
    simp only [leavesOfValue, List.mem_singleton] at h
    rw [h]
    exact hk
  | .null, path, leaf, _, hk, h => by
    simp only [leavesOfValue, List.mem_singleton] at h
    rw [h]
    exact hk
  | .other text json, path, leaf, _, hk, h => by
    simp only [leavesOfValue, List.mem_singleton] at h
    rw [h]
    exact hk
theorem leavesOfEntries_plain : ∀ (es : List (Str × Value)) (path : List Str)
    (leaf : List Str × Value), keysPlain es = true → (∀ k ∈ path, plainKey k = true) →
    leaf ∈ leavesOfEntries path es → ∀ k ∈ leaf.1, plainKey k = true
  | [], path, leaf, _, _, h => by
    simp [leavesOfEntries] at h
  | (key, value) :: rest, path, leaf, he, hk, h => by
    have he' : plainKey key = true ∧ keysPlainValue value = true ∧ keysPlain rest = true := by
      simpa [keysPlain, and_assoc] using he
    rw [leavesOfEntries] at h
    rcases List.mem_append.mp h with h | h
    · refine leavesOfValue_plain value (path ++ [key]) leaf he'.2.1 ?_ h
      intro k hkm
      rcases List.mem_append.mp hkm with h' | h'
      · exact hk k h'
      · rw [List.mem_singleton.mp h']; exact he'.1
    · exact leavesOfEntries_plain rest path leaf he'.2.2 hk h
end

theorem append_dot_inj (a b x y : Str) (ha : '.' ∉ a) (hb : '.' ∉ b)
    (h : a ++ '.' :: x = b ++ '.' :: y) : a = b ∧ x = y := by
  have hp : ∀ (l : Str), '.' ∉ l → ∀ c ∈ l, (c != '.') = true := by
    intro l hl c hc
    have : c ≠ '.' := fun e => hl (e ▸ hc)
    simp [this]
  have h1 := takeWhile_append_stop (· != '.') a x '.' (hp a ha) (by simp)
  have h2 := takeWhile_append_stop (· != '.') b y '.' (hp b hb) (by simp)
  rw [h, h2] at h1
  subst h1
  exact ⟨rfl, List.cons.inj (List.append_cancel_left h) |>.2⟩

theorem dotJoin_injective : ∀ (p q : List Str), (∀ k ∈ p, plainKey k = true) →
    (∀ k ∈ q, plainKey k = true) → dotJoin p = dotJoin q → p = q
  | [], [], _, _, _ => rfl
  | [], k :: r, _, hq, h => by
    have hne := dotJoin_ne_nil (k :: r) (by simp)
      (fun x hx => ((plainKey_iff x).mp (hq x hx)).1)
    rw [dotJoin] at h
    exact absurd h.symm hne
  | k :: r, [], hp, _, h => by
    have hne := dotJoin_ne_nil (k :: r) (by simp)
      (fun x hx => ((plainKey_iff x).mp (hp x hx)).1)
    rw [dotJoin.eq_1] at h
    exact absurd h hne
  | [k], [k2], _, _, h => by
    rw [dotJoin, dotJoin] at h
    rw [h]
  | [k], k2 :: k3 :: r3, hp, _, h => by
    rw [dotJoin, dotJoin] at h
    have hk := ((plainKey_iff k).mp (hp k (List.mem_cons_self _ _))).2
    rw [h] at hk
    exact absurd (by simp) hk
  | k :: k1 :: r1, [k2], _, hq, h => by
    rw [dotJoin, dotJoin] at h
    have hk := ((plainKey_iff k2).mp (hq k2 (List.mem_cons_self _ _))).2
    rw [← h] at hk
    exact absurd (by simp) hk
  | k :: k1 :: r1, k2 :: k3 :: r3, hp, hq, h => by
    rw [dotJoin, dotJoin] at h
    have hk := ((plainKey_iff k).mp (hp k (List.mem_cons_self _ _))).2
    have hk2 := ((plainKey_iff k2).mp (hq k2 (List.mem_cons_self _ _))).2
    obtain ⟨e1, e2⟩ := append_dot_inj k k2 _ _ hk hk2 h
    have ih := dotJoin_injective (k1 :: r1) (k3 :: r3)
      (fun x hx => hp x (List.mem_cons_of_mem _ hx))
      (fun x hx => hq x (List.mem_cons_of_mem _ hx)) e2
    rw [e1, ih]

mutual
theorem Extends_flattenValue : ∀ (value : Value) (envKey : Str) (os : OS),
    ∃ em, Extends os (flattenValue envKey value os) em
  | .mapping es, envKey, os => by
    rw [flattenValue]
    exact Extends_flattenAndSetEnv es envKey os
  | .sequence elems, envKey, os => by
    rw [flattenValue]
    split
    · exact ⟨_, Extends_Setenv _ _ os⟩
    · exact ⟨[], Extends_refl os⟩
  | .str s, envKey, os => by
    rw [flattenValue]
    exact ⟨_, Extends_Setenv _ _ os⟩
  | .bool b, envKey, os => by
    rw [flattenValue]
    exact ⟨_, Extends_Setenv _ _ os⟩
  | .int i, envKey, os => by
    rw [flattenValue]
    exact ⟨_, Extends_Setenv _ _ os⟩
  | .float f, envKey, os => by
    rw [flattenValue]
    exact ⟨_, Extends_Setenv _ _ os⟩
  | .null, envKey, os => by
    rw [flattenValue]
    exact ⟨_, Extends_Setenv _ _ os⟩
  | .other text json, envKey, os => by
    rw [flattenValue]
    exact ⟨_, Extends_Setenv _ _ os⟩
theorem Extends_flattenAndSetEnv : ∀ (es : List (Str × Value)) (pfx : Str) (os : OS),
    ∃ em, Extends os (flattenAndSetEnv pfx es os) em
  | [], pfx, os => by
    rw [flattenAndSetEnv]
    exact ⟨[], Extends_refl os⟩
  | (key, value) :: rest, pfx, os => by
    rw [flattenAndSetEnv]
    obtain ⟨em₁, h₁⟩ := Extends_flattenValue value (envKeyOf pfx key) os
    obtain ⟨em₂, h₂⟩ := Extends_flattenAndSetEnv rest pfx (flattenValue (envKeyOf pfx key) value os)
    exact ⟨em₁ ++ em₂, Extends_trans _ _ _ _ _ h₁ h₂⟩
end

theorem flattenAndSetEnv_env (data : List (Str × Value)) (os : OS)
    (hkeys : keysNonEmpty data = true) :
    (flattenAndSetEnv [] data os).env =
      tableAfter os.env ((leavesOfEntries [] data).filterMap leafEntry) := by
  obtain ⟨em, h1, h2⟩ := Extends_flattenAndSetEnv data [] os
  have hcalls := flattenAndSetEnv_calls data [] os hkeys (by simp)
  simp only [dotJoin] at hcalls
  rw [hcalls] at h1
  rw [h2, ← List.append_cancel_left h1]

theorem lastAccepted_unique (em : List (Str × Str)) (k v : Str) (hmem : (k, v) ∈ em)
    (hok : setenvOk k v = true) (huniq : ∀ p ∈ em, p.1 = k → p.2 = v) :
    lastAccepted em k = some v := by
  unfold lastAccepted
  have hsome : (em.reverse.find? fun p => decide (p.1 = k) && setenvOk p.1 p.2).isSome = true := by
    rw [List.find?_isSome]
    exact ⟨(k, v), List.mem_reverse.mpr hmem, by simp [hok]⟩
  cases hf : em.reverse.find? fun p => decide (p.1 = k) && setenvOk p.1 p.2 with
  | none => rw [hf] at hsome; simp at hsome
  | some p =>
    have hp := List.find?_some hf
    have hpm := List.mem_reverse.mp (List.mem_of_find?_eq_some hf)
    simp only [Bool.and_eq_true, decide_eq_true_eq] at hp
    simp only [Option.map_some', Option.some.injEq]
    exact huniq p hpm hp.1

/-! ## The claim on the keys of the leaves -/

/-- C23.  Flattened keys do not collide.  For a tree all of whose mapping keys
are non-empty and have no dot, two leaves with different key paths have
different keys, the entries emitted are those of the leaves under these keys,
and, the leaves having different paths one from another (the keys of a Go map
are distinct), a leaf whose entry `os.Setenv` accepts is bound to its own text
after the flattening: no other leaf of the document overwrites it.  A leaf is
what the flattener writes as one entry: a value that is no mapping with string
keys (a mapping with a key that is no string is written whole, under the path
of the mapping). -/
theorem flattened_keys_do_not_collide (data : List (Str × Value)) (os : OS)
    (hkeys : keysPlain data = true) :
    (∀ l₁ ∈ leavesOfEntries [] data, ∀ l₂ ∈ leavesOfEntries [] data,
        l₁.1 ≠ l₂.1 → dotJoin l₁.1 ≠ dotJoin l₂.1) ∧
      (flattenAndSetEnv [] data os).calls =
        os.calls ++ (leavesOfEntries [] data).filterMap leafEntry ∧
      (((leavesOfEntries [] data).map Prod.fst).Nodup →
        ∀ leaf ∈ leavesOfEntries [] data, ∀ text, leafText leaf.2 = some text →
          setenvOk (dotJoin leaf.1) text = true →
          (flattenAndSetEnv [] data os).env (dotJoin leaf.1) = some text) := by
  have hne := keysNonEmpty_of_plain data hkeys
  have hplain : ∀ leaf ∈ leavesOfEntries [] data, ∀ k ∈ leaf.1, plainKey k = true :=
    fun leaf hl => leavesOfEntries_plain data [] leaf hkeys (by simp) hl
  have hcalls := flattenAndSetEnv_calls data [] os hne (by simp)
  simp only [dotJoin] at hcalls
  refine ⟨?_, hcalls, ?_⟩
  · intro l₁ h₁ l₂ h₂ hdiff e
    exact hdiff (dotJoin_injective l₁.1 l₂.1 (hplain l₁ h₁) (hplain l₂ h₂) e)
  · intro hnodup leaf hleaf text htext hok
    rw [flattenAndSetEnv_env data os hne]
    unfold tableAfter
    have hentry : leafEntry leaf = some (dotJoin leaf.1, text) := by
      unfold leafEntry
      rw [htext]
      rfl
    have hmem : (dotJoin leaf.1, text) ∈ (leavesOfEntries [] data).filterMap leafEntry :=
      List.mem_filterMap.mpr ⟨leaf, hleaf, hentry⟩
    rw [lastAccepted_unique _ _ _ hmem hok]
    · rfl
    · intro p hp hpk
      obtain ⟨other, hother, he⟩ := List.mem_filterMap.mp hp
      unfold leafEntry at he
      cases ht : leafText other.2 with
      | none => rw [ht] at he; simp at he
      | some t =>
        rw [ht] at he
        simp only [Option.map_some', Option.some.injEq] at he
        rw [← he] at hpk ⊢
        simp only at hpk ⊢
        have hpath := dotJoin_injective other.1 leaf.1 (hplain other hother) (hplain leaf hleaf)
          hpk
        have hsame := List.inj_on_of_nodup_map hnodup hother hleaf hpath
        rw [hsame, htext] at ht
        exact (Option.some.inj ht).symm

/-- C23, witness: the three leaves of `{"db":{"host":"x","port":5432},"debug":true}`
are bound under `db.host`, `db.port` and `debug`; and the mapping with integer
keys of `ports: {80: http, 443: https}` is bound whole under `ports`. -/
theorem flattened_keys_do_not_collide_witness :
    keysPlain configDoc = true ∧
      (flattenAndSetEnv [] configDoc os0).env "db.host".toList = some "x".toList ∧
      (flattenAndSetEnv [] configDoc os0).env "db.port".toList = some "5432".toList ∧
      (flattenAndSetEnv [] configDoc os0).env "debug".toList = some "true".toList ∧
      (flattenAndSetEnv [] portsDoc os0).env "ports".toList =
        some "map[80:http 443:https]".toList := by
  have hports : (["ports".toList], Value.other "map[80:http 443:https]".toList none) ∈
      leavesOfEntries [] portsDoc := by
    simp [portsDoc, leavesOfEntries, leavesOfValue]
  have hp := (flattened_keys_do_not_collide portsDoc os0 (by decide)).2.2 (by decide) _ hports
    "map[80:http 443:https]".toList rfl (by decide)
  have h := (flattened_keys_do_not_collide configDoc os0 (by decide)).2.2 (by decide)
  have hleaves : leavesOfEntries [] configDoc =
      [(["db".toList, "host".toList], .str "x".toList),
        (["db".toList, "port".toList], .int 5432), (["debug".toList], .bool true)] := by
    simp [configDoc, leavesOfEntries, leavesOfValue]
  have h1 : (["db".toList, "host".toList], Value.str "x".toList) ∈
      leavesOfEntries [] configDoc := by
    rw [hleaves]
    exact List.mem_cons_self _ _
  have h2 : (["db".toList, "port".toList], Value.int 5432) ∈ leavesOfEntries [] configDoc := by
    rw [hleaves]
    exact List.mem_cons_of_mem _ (List.mem_cons_self _ _)
  have h3 : (["debug".toList], Value.bool true) ∈ leavesOfEntries [] configDoc := by
    rw [hleaves]
    exact List.mem_cons_of_mem _ (List.mem_cons_of_mem _ (List.mem_cons_self _ _))
  exact ⟨by decide, h _ h1 "x".toList rfl (by decide),
    h _ h2 "5432".toList (by decide) (by decide), h _ h3 "true".toList rfl (by decide), hp⟩

/-! ## Lemmas on the pairs of a key-value file -/

theorem Extends_processLine_linePair (text : Str) (os : OS) :
    Extends os (processLine text os) (linePair text).toList := by
  unfold linePair
  by_cases h : skippedLine text
  · rw [processLine_skipped text os h, if_pos h]
    exact Extends_refl os
  · rw [processLine_not_skipped text os h, if_neg h]
    exact Extends_Setenv _ _ os

theorem filterMap_cons_toList {α β : Type} (f : α → Option β) (a : α) (l : List α) :
    (a :: l).filterMap f = (f a).toList ++ l.filterMap f := by
  cases h : f a <;> simp [List.filterMap_cons, h]

theorem Extends_scanLoop_linesRead (lines : List Str) (os : OS) :
    Extends os (scanLoop lines os).1 ((linesRead lines).filterMap linePair) := by
  induction lines generalizing os with
  | nil => exact Extends_refl os
  | cons raw rest ih =>
    rw [scanLoop, linesRead]
    by_cases hlong : MaxScanTokenSize ≤ len raw
    · rw [if_pos hlong, if_pos hlong]
      exact Extends_refl os
    · rw [if_neg hlong, if_neg hlong, filterMap_cons_toList]
      exact Extends_trans _ _ _ _ _ (Extends_processLine_linePair (dropCR raw) os) (ih _)

theorem Extends_loadKeyValueFile_pairs (fs : FS) (filename : Str) (os : OS) :
    Extends os (loadKeyValueFile fs filename os).1 (pairsOfFile fs filename) := by
  unfold loadKeyValueFile pairsOfFile
  cases osOpen fs filename with
  | none => exact Extends_refl os
  | some file => exact Extends_scanLoop_linesRead _ os

theorem linesRead_short (lines : List Str) (h : ∀ raw ∈ lines, len raw < MaxScanTokenSize) :
    linesRead lines = lines.map dropCR := by
  induction lines with
  | nil => rfl
  | cons raw rest ih =>
    have hx : ¬ MaxScanTokenSize ≤ len raw := by
      have := h raw (List.mem_cons_self _ _)
      omega
    rw [linesRead, if_neg hx, ih (fun r hr => h r (List.mem_cons_of_mem _ hr))]
    rfl

theorem lastAccepted_eq_none (em : List (Str × Str)) (k : Str)
    (h : ∀ p ∈ em, p.1 = k → setenvOk p.1 p.2 = false) : lastAccepted em k = none := by
  unfold lastAccepted
  rw [Option.map_eq_none', List.find?_eq_none]
  intro p hp
  have hp' : p ∈ em := List.mem_reverse.mp hp
  by_cases hpk : p.1 = k
  · simp [h p hp' hpk]
  · simp [hpk]

/-! ## The claim on the last write of a key -/

/-- C8, as amended.  Last accepted write wins within a key-value file.  The
`os.Setenv` calls of the load are the pairs of the lines of the file, in line
order (`pairsOfFile`: the lines the scanner reads, each giving its pair unless
it is skipped).  A key of such a pair that `os.Setenv` accepts is bound to the
value of the last such pair in line order, and every other key has the value
it had before the load. -/
theorem keyvalue_last_accepted_write_wins (fs : FS) (filename : Str) (os : OS) :
    (loadKeyValueFile fs filename os).1.calls = os.calls ++ pairsOfFile fs filename ∧
      (∀ file, osOpen fs filename = some file →
        (∀ raw ∈ rawLines file.content, len raw < MaxScanTokenSize) →
        pairsOfFile fs filename = ((rawLines file.content).map dropCR).filterMap linePair) ∧
      (∀ k v, lastAccepted (pairsOfFile fs filename) k = some v →
        (loadKeyValueFile fs filename os).1.env k = some v) ∧
      (∀ k, lastAccepted (pairsOfFile fs filename) k = none →
        (loadKeyValueFile fs filename os).1.env k = os.env k) ∧
      (∀ k, (∀ p ∈ pairsOfFile fs filename, p.1 = k → setenvOk p.1 p.2 = false) →
        (loadKeyValueFile fs filename os).1.env k = os.env k) ∧
      (∀ k v before after, pairsOfFile fs filename = before ++ (k, v) :: after →
        setenvOk k v = true → (∀ p ∈ after, p.1 = k → setenvOk p.1 p.2 = false) →
        (loadKeyValueFile fs filename os).1.env k = some v) := by
  obtain ⟨hcalls, henv⟩ := Extends_loadKeyValueFile_pairs fs filename os
  refine ⟨hcalls, ?_, ?_, ?_, ?_, ?_⟩
  · intro file hopen hshort
    unfold pairsOfFile
    rw [hopen]
    simp only
    rw [linesRead_short _ hshort]
  · intro k v hk
    rw [henv]
    simp [tableAfter, hk]
  · intro k hk
    rw [henv]
    simp [tableAfter, hk]
  · intro k hk
    rw [henv]
    simp [tableAfter, lastAccepted_eq_none _ k hk]
  · intro k v before after hem hok hafter
    rw [henv]
    have hsome : lastAccepted (pairsOfFile fs filename) k = some v := by
      rw [hem]
      have hsplit : before ++ (k, v) :: after = (before ++ [(k, v)]) ++ after := by simp
      rw [hsplit, lastAccepted_append, lastAccepted_append, lastAccepted_eq_none after k hafter]
      have h2 : lastAccepted [(k, v)] k = some v := by
        simp [lastAccepted, hok]
      rw [h2]
      rfl
    simp [tableAfter, hsome]

/-- C8, witness: the file with the lines `A=1`, `B=2`, `=x` and `A=3` emits these
four pairs in this order; after the load `A` is bound to `3`, the value of its
last pair, and `B` to `2`. -/
theorem keyvalue_last_accepted_write_wins_witness :
    pairsOfFile repeatedKeyFS "a.env".toList =
        [("A".toList, "1".toList), ("B".toList, "2".toList), ([], "x".toList),
          ("A".toList, "3".toList)] ∧
      (loadKeyValueFile repeatedKeyFS "a.env".toList os0).1.calls =
        pairsOfFile repeatedKeyFS "a.env".toList ∧
      (loadKeyValueFile repeatedKeyFS "a.env".toList os0).1.env "A".toList =
        some "3".toList ∧
      (loadKeyValueFile repeatedKeyFS "a.env".toList os0).1.env "B".toList =
        some "2".toList :=
  ⟨by decide,
    (keyvalue_last_accepted_write_wins repeatedKeyFS "a.env".toList os0).1,
    (keyvalue_last_accepted_write_wins repeatedKeyFS "a.env".toList os0).2.2.1 _ _ (by decide),
    (keyvalue_last_accepted_write_wins repeatedKeyFS "a.env".toList os0).2.2.1 _ _ (by decide)⟩

/-! ## Lemmas on the text of a float that holds an integer -/

theorem digitsVal_snoc (l : List Nat) (x : Nat) : digitsVal (l ++ [x]) = 10 * digitsVal l + x := by
  unfold digitsVal
  rw [List.foldl_append]
  rfl

theorem decDigits_digitsVal (ds : List Nat) (hne : ds ≠ []) (hhead : ds.head? ≠ some 0)
    (hlt : ∀ x ∈ ds, x < 10) :
    decDigits (digitsVal ds) = ds.map Nat.digitChar ∧ 0 < digitsVal ds := by
  induction ds using List.reverseRecOn with
  | nil => exact absurd rfl hne
  | append_singleton l x ih =>
    have hx : x < 10 := hlt x (by simp)
    rw [digitsVal_snoc]
    cases l with
    | nil =>
      have hx0 : x ≠ 0 := by
        intro e
        apply hhead
        rw [e]
        rfl
      have hv : digitsVal [] = 0 := rfl
      rw [hv]
      simp only [Nat.mul_zero, Nat.zero_add, List.nil_append, List.map_cons, List.map_nil]
      exact ⟨decDigits_lt x hx, by omega⟩
    | cons a rest =>
      have hih := ih (by simp) (by simpa using hhead)
        (fun y hy => hlt y (List.mem_append_left _ hy))
      have hge : ¬ 10 * digitsVal (a :: rest) + x < 10 := by omega
      have hdiv : (10 * digitsVal (a :: rest) + x) / 10 = digitsVal (a :: rest) := by omega
      have hmod : (10 * digitsVal (a :: rest) + x) % 10 = x := by omega
      rw [decDigits_ge _ hge, hdiv, hmod, hih.1]
      refine ⟨by simp, by omega⟩

theorem digitsVal_lt (ds : List Nat) (hlt : ∀ x ∈ ds, x < 10) :
    digitsVal ds < 10 ^ ds.length := by
  induction ds using List.reverseRecOn with
  | nil => decide
  | append_singleton l x ih =>
    have hx : x < 10 := hlt x (by simp)
    have hih := ih (fun y hy => hlt y (List.mem_append_left _ hy))
    rw [digitsVal_snoc, List.length_append, List.length_singleton, Nat.pow_succ]
    omega

theorem Sprint_float_int (neg : Bool) (d : List Nat) (dp : Int) (hne : d ≠ [])
    (hhead : d.head? ≠ some 0) (hlt : ∀ x ∈ d, x < 10) (hlen : (d.length : Int) ≤ dp)
    (hdp : dp ≤ 6) :
    Sprint (.float (.finite neg d dp)) = decimal (floatInt neg d dp) ∧
      -2 ^ 63 ≤ floatInt neg d dp ∧ floatInt neg d dp < 2 ^ 63 := by
  have hpos : 0 < d.length := List.length_pos.mpr hne
  have hdp0 : 0 < dp := by omega
  have hmin : min d.length dp.toNat = d.length := by
    apply Nat.min_eq_left
    omega
  have hall : ∀ x ∈ d ++ List.replicate (dp.toNat - d.length) 0, x < 10 := by
    intro x hx
    rcases List.mem_append.mp hx with h | h
    · exact hlt x h
    · rw [List.eq_of_mem_replicate h]
      decide
  have hhead' : (d ++ List.replicate (dp.toNat - d.length) 0).head? ≠ some 0 := by
    cases d with
    | nil => exact absurd rfl hne
    | cons a rest => simpa using hhead
  have hdec := decDigits_digitsVal (d ++ List.replicate (dp.toNat - d.length) 0) (by simp [hne])
    hhead' hall
  have hbound := digitsVal_lt _ hall
  have hlen' : (d ++ List.replicate (dp.toNat - d.length) 0).length = dp.toNat := by
    rw [List.length_append, List.length_replicate]
    omega
  rw [hlen'] at hbound
  have hpow : 10 ^ dp.toNat ≤ 10 ^ 6 := Nat.pow_le_pow_right (by decide) (by omega)
  have htext : Sprint (.float (.finite neg d dp)) =
      (if neg then ['-'] else []) ++
        (d ++ List.replicate (dp.toNat - d.length) 0).map Nat.digitChar := by
    have hcond : ¬ (dp - 1 < -4 ∨ 6 ≤ dp - 1) := by omega
    have hprec : ((d.length : Int) - dp).toNat = 0 := by omega
    rw [Sprint, sprintFloat, if_neg hcond, hprec]
    unfold fmtF
    simp only [hdp0, if_true, hmin, List.take_length, Nat.lt_irrefl, if_false, List.append_nil,
      List.map_append, List.map_replicate]
    rfl
  have hfi : floatInt neg d dp =
      if neg then -((digitsVal (d ++ List.replicate (dp.toNat - d.length) 0) : Nat) : Int)
      else ((digitsVal (d ++ List.replicate (dp.toNat - d.length) 0) : Nat) : Int) := rfl
  generalize digitsVal (d ++ List.replicate (dp.toNat - d.length) 0) = n at hdec hbound hfi
  have h6 : (10 : Nat) ^ 6 = 1000000 := by norm_num
  have hn : n < 1000000 := by omega
  rw [htext, hfi, ← hdec.1]
  cases neg with
  | false =>
    simp only [Bool.false_eq_true, if_false, List.nil_append]
    refine ⟨(decimal_ofNat n).symm, ?_, ?_⟩
    · norm_num
      omega
    · norm_num
      omega
  | true =>
    simp only [if_true]
    obtain ⟨m, rfl⟩ := Nat.exists_eq_succ_of_ne_zero (Nat.pos_iff_ne_zero.mp hdec.2)
    have hneg : -((m + 1 : Nat) : Int) = Int.negSucc m := rfl
    rw [hneg, decimal_negSucc]
    refine ⟨rfl, ?_, ?_⟩
    · norm_num
      omega
    · norm_num
      omega

/-! ## The claim on the round trip through the table -/

/-- C22, as amended.  Round trip through the environment table.  A scalar that
the flattener writes under a key `k`, the write being accepted by `os.Setenv`,
is bound as its `%v` text; when `k` is bound to that text, `GetEnv` with a
default of the matching type returns the value, whatever the default: for a
non-empty string, for a boolean, for an integer held as a Go integer (as the
YAML decoder gives it) in the range of the type read (`int64`, `int` of 64
bits, `uint64`), and for an integer of at most six digits held as a `float64`
(as the JSON decoder gives it).  The empty string reads back as the default. -/
theorem scalar_round_trip (lib : Parsers) (k : Str) (os : OS) :
    (∀ v : Value, (∀ es, v ≠ Value.mapping es) → (∀ es, v ≠ Value.sequence es) →
      setenvOk k (Sprint v) = true → (flattenValue k v os).env k = some (Sprint v)) ∧
    (∀ s d : Str, s ≠ [] → os.env k = some (Sprint (.str s)) →
      GetEnv lib k (.string d) os = .string s) ∧
    (∀ b d : Bool, os.env k = some (Sprint (.bool b)) →
      GetEnv lib k (.bool d) os = .bool b) ∧
    (∀ i d : Int, -9223372036854775808 ≤ i → i ≤ 9223372036854775807 →
      os.env k = some (Sprint (.int i)) →
      GetEnv lib k (.int64 d) os = .int64 i ∧ GetEnv lib k (.int d) os = .int i) ∧
    (∀ n d : Nat, n ≤ 18446744073709551615 → os.env k = some (Sprint (.int n)) →
      GetEnv lib k (.uint64 d) os = .uint64 n) ∧
    (∀ (neg : Bool) (digits : List Nat) (dp d : Int), digits ≠ [] →
      digits.head? ≠ some 0 → (∀ x ∈ digits, x < 10) → (digits.length : Int) ≤ dp → dp ≤ 6 →
      os.env k = some (Sprint (.float (.finite neg digits dp))) →
      GetEnv lib k (.int d) os = .int (floatInt neg digits dp) ∧
        GetEnv lib k (.int64 d) os = .int64 (floatInt neg digits dp)) ∧
    (∀ d : Int, os.env k = some (Sprint (.float (.finite false [] 0))) →
      GetEnv lib k (.int d) os = .int 0 ∧ GetEnv lib k (.int64 d) os = .int64 0) ∧
    (∀ d : Str, os.env k = some (Sprint (.str [])) →
      GetEnv lib k (.string d) os = .string d) := by
  have hint : ∀ (i d : Int) (text : Str), -2 ^ 63 ≤ i ∧ i < 2 ^ 63 → text = decimal i →
      os.env k = some text →
      GetEnv lib k (.int64 d) os = .int64 i ∧ GetEnv lib k (.int d) os = .int i := by
    intro i d text hr ht hst
    have hval : Getenv k os = decimal i := by
      rw [Getenv_stored k _ os hst, ht]
    constructor
    · unfold GetEnv
      simp only [hval, decimal_ne_nil i, if_false, ParseInt_decimal i, if_pos hr]
    · unfold GetEnv
      simp only [hval, decimal_ne_nil i, if_false, Atoi_decimal i hr]
  refine ⟨?_, ?_, ?_, ?_, ?_, ?_, ?_, ?_⟩
  · intro v hm hs hok
    cases v with
    | mapping es => exact absurd rfl (hm es)
    | sequence es => exact absurd rfl (hs es)
    | str s => rw [flattenValue]; exact Setenv_env_self _ _ os hok
    | bool b => rw [flattenValue]; exact Setenv_env_self _ _ os hok
    | int i => rw [flattenValue]; exact Setenv_env_self _ _ os hok
    | float f => rw [flattenValue]; exact Setenv_env_self _ _ os hok
    | null => rw [flattenValue]; exact Setenv_env_self _ _ os hok
    | other text json => rw [flattenValue]; exact Setenv_env_self _ _ os hok
  · intro s d hs hst
    have hval : Getenv k os = s := Getenv_stored k _ os hst
    unfold GetEnv
    simp only [hval, hs, if_false]
  · intro b d hst
    have hval := Getenv_stored k _ os hst
    unfold GetEnv
    cases b with
    | true =>
      have hp : ParseBool (Sprint (.bool true)) = some true := by decide
      have hne : Sprint (.bool true) ≠ [] := by decide
      simp only [hval, hne, if_false, hp]
    | false =>
      have hp : ParseBool (Sprint (.bool false)) = some false := by decide
      have hne : Sprint (.bool false) ≠ [] := by decide
      simp only [hval, hne, if_false, hp]
  · intro i d h1 h2 hst
    have hr : -2 ^ 63 ≤ i ∧ i < 2 ^ 63 := by
      norm_num
      omega
    exact hint i d _ hr rfl hst
  · intro n d h1 hst
    have hval : Getenv k os = decimal (n : Int) := Getenv_stored k _ os hst
    have hu : ParseUint (decimal (n : Int)) = some n := by
      have hd : decimal (n : Int) = decDigits n := decimal_ofNat n
      rw [hd, ParseUint_decDigits, if_pos]
      norm_num
      omega
    unfold GetEnv
    simp only [hval, decimal_ne_nil, if_false, hu]
  · intro neg digits dp d hne hhead hlt hlen hdp hst
    obtain ⟨htext, hlo, hhi⟩ := Sprint_float_int neg digits dp hne hhead hlt hlen hdp
    have h := hint (floatInt neg digits dp) d _ ⟨hlo, hhi⟩ htext hst
    exact ⟨h.2, h.1⟩
  · intro d hst
    have htext : Sprint (.float (.finite false [] 0)) = decimal 0 := by decide
    have h := hint 0 d _ (by norm_num) htext hst
    exact ⟨h.2, h.1⟩
  · intro d hst
    exact GetEnv_unset lib k _ os (Or.inr hst)

/-- C22, witness: after flattening `{"db":{"host":"x","port":5432},"debug":true}`
the three values are read back with a string, an `int` and a boolean default;
and the port of the JSON document `{"port":5432}` is read back with an `int`
default. -/
theorem scalar_round_trip_witness :
    GetEnv noParsers "db.host".toList (.string "localhost".toList)
        (flattenAndSetEnv [] configDoc os0) = .string "x".toList ∧
      GetEnv noParsers "db.port".toList (.int 0) (flattenAndSetEnv [] configDoc os0) =
        .int 5432 ∧
      GetEnv noParsers "debug".toList (.bool false) (flattenAndSetEnv [] configDoc os0) =
        .bool true ∧
      floatInt false [5, 4, 3, 2] 4 = 5432 ∧
      GetEnv noParsers "port".toList (.int 0) (flattenAndSetEnv [] portDoc os0) =
        .int (floatInt false [5, 4, 3, 2] 4) :=
  ⟨(scalar_round_trip noParsers "db.host".toList (flattenAndSetEnv [] configDoc os0)).2.1
      "x".toList "localhost".toList (by decide) (by decide),
    ((scalar_round_trip noParsers "db.port".toList
      (flattenAndSetEnv [] configDoc os0)).2.2.2.1 5432 0 (by decide) (by decide)
      (by decide)).2,
    (scalar_round_trip noParsers "debug".toList (flattenAndSetEnv [] configDoc os0)).2.2.1
      true false (by decide),
    by decide,
    ((scalar_round_trip noParsers "port".toList
      (flattenAndSetEnv [] portDoc os0)).2.2.2.2.2.1 false [5, 4, 3, 2] 4 0 (by decide)
      (by decide) (by decide) (by decide) (by decide) (by decide)).1⟩

/-- C22, as stated, fails: the flattener writes the empty string of
`{"name":""}` under `name`, `os.Setenv` accepts the write, and
`GetEnv("name", "fallback")` returns the default `fallback`, not the value. -/
theorem empty_string_is_not_read_back :
    (flattenAndSetEnv [] emptyNameDoc os0).calls = [("name".toList, [])] ∧
      (flattenAndSetEnv [] emptyNameDoc os0).env "name".toList = some [] ∧
      GetEnv noParsers "name".toList (.string "fallback".toList)
        (flattenAndSetEnv [] emptyNameDoc os0) = .string "fallback".toList ∧
      GetEnv noParsers "name".toList (.string "fallback".toList)
        (flattenAndSetEnv [] emptyNameDoc os0) ≠ .string [] := by
  decide

/-- The JSON number `1000000`, a `float64` of seven digits, is written by the
flattener as `1e+06`, where the YAML integer `1000000` is written as
`1000000`; `strconv.Atoi` rejects the first text, so that `GetEnv("n", 0)` with
an `int` default returns `0` after the JSON document and `1000000` after the
YAML one. -/
theorem json_integer_of_seven_digits :
    (flattenAndSetEnv [] millionDoc os0).env "n".toList = some "1e+06".toList ∧
      GetEnv noParsers "n".toList (.int 0) (flattenAndSetEnv [] millionDoc os0) = .int 0 ∧
      (flattenAndSetEnv [] [("n".toList, .int 1000000)] os0).env "n".toList =
        some "1000000".toList ∧
      GetEnv noParsers "n".toList (.int 0)
        (flattenAndSetEnv [] [("n".toList, .int 1000000)] os0) = .int 1000000 := by
  decide

end Goenv
